import Mathlib

/-!
Painter: command parser and drawing operations.

A shallow embedding of `painter/op.go` and `painter/lang/parser.go`.

* Text is a list of characters; lines, fields and integers are read the way
  `bufio.ScanLines`, `strings.TrimSpace`, `strings.Fields` and `strconv.Atoi` read them.
* Go `int` values are modelled by `Int`: `strconv.Atoi` keeps its 64-bit range
  check, and a sum or difference the code computes is wrapped to 64 bits
  (`wrapInt`), as Go's `+`, `-` and `+=` on `int` do. The line counter of `Parse`
  is a natural number: a Go string has fewer than `2^63` lines, so it never wraps.
* A `*Figure` is an address into a heap of figures, so that a `Move` and the
  parser's figure list share the figures they point to.
* A `screen.Texture` is an interface: a state type with `Bounds` and `Fill`.
-/

set_option autoImplicit false

/-! ## Text primitives of the Go standard library -/

namespace gostd

/-- Go `unicode.IsSpace`. -/
def isSpace (c : Char) : Bool :=
  let n := c.toNat
  (9 ≤ n && n ≤ 13) || n == 32 || n == 0x85 || n == 0xA0 || n == 0x1680 ||
  (0x2000 ≤ n && n ≤ 0x200a) || n == 0x2028 || n == 0x2029 || n == 0x202f ||
  n == 0x205f || n == 0x3000

/-- Go `strings.TrimSpace`: leading and trailing white space removed. -/
def TrimSpace (s : List Char) : List Char :=
  ((s.dropWhile isSpace).reverse.dropWhile isSpace).reverse

/-- Worker of `Fields`: `cur` is the field being read, reversed. -/
def fieldsFrom : List Char → List Char → List (List Char)
  | cur, [] => if cur = [] then [] else [cur.reverse]
  | cur, c :: cs =>
    if isSpace c then
      (if cur = [] then fieldsFrom [] cs else cur.reverse :: fieldsFrom [] cs)
    else fieldsFrom (c :: cur) cs

/-- Go `strings.Fields`: the maximal runs of non-space characters. -/
def Fields (s : List Char) : List (List Char) := fieldsFrom [] s

/-- Go `strings.HasPrefix`. -/
def HasPrefix (s pre : List Char) : Bool := pre.isPrefixOf s

/-- Decimal digit test used by `strconv.Atoi`. -/
def isDigit (c : Char) : Bool := 48 ≤ c.toNat && c.toNat ≤ 57

/-- Value of a run of decimal digits. -/
def digitsValue (ds : List Char) : Nat :=
  ds.foldl (fun a c => 10 * a + (c.toNat - 48)) 0

/-- Smallest Go `int` (64 bit). -/
def minInt : Int := -9223372036854775808

/-- Largest Go `int` (64 bit). -/
def maxInt : Int := 9223372036854775807

/-- The value Go's `int` arithmetic keeps of a mathematical result: its residue
modulo `2^64` in the range from `minInt` to `maxInt` (two's complement). -/
def wrapInt (v : Int) : Int := (v - minInt) % 18446744073709551616 + minInt

/-- Go `a + b` on `int`. -/
def intAdd (a b : Int) : Int := wrapInt (a + b)

/-- Go `a - b` on `int`. -/
def intSub (a b : Int) : Int := wrapInt (a - b)

/-- Go `strconv.Atoi`: an optional sign, then one or more decimal digits, the
value inside the 64-bit range; `none` is the error case. -/
def Atoi (s : List Char) : Option Int :=
  let neg : Bool := s.head? == some '-'
  let ds : List Char := if s.head? == some '-' || s.head? == some '+' then s.tail else s
  if ds.isEmpty || !(ds.all isDigit) then none
  else
    let v : Int := if neg then -(digitsValue ds : Int) else (digitsValue ds : Int)
    if v < minInt || maxInt < v then none else some v

/-- Go `bufio` `dropCR`: one trailing carriage return removed. -/
def dropCR (l : List Char) : List Char :=
  if l.getLast? == some '\r' then l.dropLast else l

/-- Worker of `rawLines`: `cur` is the line being read, reversed. -/
def rawLinesFrom : List Char → List Char → List (List Char)
  | cur, [] => if cur = [] then [] else [cur.reverse]
  | cur, c :: cs =>
    if c = '\n' then cur.reverse :: rawLinesFrom [] cs else rawLinesFrom (c :: cur) cs

/-- The text cut at each newline; an unterminated last line counts when it is
not empty (`bufio.ScanLines` before `dropCR`). -/
def rawLines (s : List Char) : List (List Char) := rawLinesFrom [] s

/-- Length in bytes of the UTF-8 encoding. -/
def byteLen (l : List Char) : Nat := (l.map Char.utf8Size).sum

/-- Go `bufio.MaxScanTokenSize`. -/
def MaxScanTokenSize : Nat := 65536

/-- What a `bufio.Scanner` splitting with `ScanLines` gives its caller: the
tokens of the successive `Scan()` calls, then the value of `Err()`. -/
structure Reader where
  lines : List (List Char)
  err : Option String
deriving DecidableEq, Repr

/-- Lines a scanner delivers before it meets one that does not fit its buffer. -/
def scanTokens : List (List Char) → Reader
  | [] => ⟨[], none⟩
  | l :: ls =>
    if MaxScanTokenSize ≤ byteLen l then ⟨[], some "bufio.Scanner: token too long"⟩
    else ⟨dropCR l :: (scanTokens ls).lines, (scanTokens ls).err⟩

/-- Go `strings.NewReader(s)` as seen through the scanner. -/
def NewReader (s : String) : Reader := scanTokens (rawLines s.toList)

deriving instance DecidableEq for Except

end gostd

/-! ## painter/op.go: data of the operations -/

namespace painter

/-- Go `color.RGBA`; the channels are `uint8` values. -/
structure RGBA where
  R : Nat
  G : Nat
  B : Nat
  A : Nat
deriving DecidableEq, Repr

/-- Go `color.Color` values used by the operations. -/
inductive Color where
  | Gray16 (y : Nat)
  | RGBA (c : RGBA)
deriving DecidableEq, Repr

/-- Go `color.White`. -/
def White : Color := .Gray16 0xffff

/-- Go `draw.Op`. -/
inductive DrawOp where
  | Over
  | Src
deriving DecidableEq, Repr

/-- Go `image.Rectangle`: `Min` and `Max` corners. -/
structure Rectangle where
  MinX : Int
  MinY : Int
  MaxX : Int
  MaxY : Int
deriving DecidableEq, Repr

/-- Go `image.Rect`: the corners are put in order. -/
def Rect (x0 y0 x1 y1 : Int) : Rectangle :=
  let (x0, x1) := if x0 > x1 then (x1, x0) else (x0, x1)
  let (y0, y1) := if y0 > y1 then (y1, y0) else (y0, y1)
  ⟨x0, y0, x1, y1⟩

/-- Go `Point.In`: the point lies in the rectangle. -/
def Rectangle.Has (r : Rectangle) (x y : Int) : Prop :=
  r.MinX ≤ x ∧ x < r.MaxX ∧ r.MinY ≤ y ∧ y < r.MaxY

instance (r : Rectangle) (x y : Int) : Decidable (r.Has x y) := by
  unfold Rectangle.Has; infer_instance

/-- The `screen.Texture` interface as the operations use it. -/
structure Texture (σ : Type) where
  Bounds : σ → Rectangle
  Fill : σ → Rectangle → Color → DrawOp → σ

/-- The functions wrapped in `OperationFunc`. -/
inductive OpFunc where
  | WhiteFill
  | GreenFill
  | ResetScreen
deriving DecidableEq, Repr

/-- Go `BgRectangle`. -/
structure BgRectangle where
  X1 : Int
  Y1 : Int
  X2 : Int
  Y2 : Int
deriving DecidableEq, Repr

/-- Go `Figure`. -/
structure Figure where
  X : Int
  Y : Int
  C : RGBA
deriving DecidableEq, Repr

/-- Address of a `Figure` object. -/
abbrev Ptr := Nat

/-- The `Figure` objects allocated so far; an address is an index. -/
abbrev Heap := List Figure

/-- Go `Move`: `Figures` is a slice (possibly nil) of pointers (possibly nil). -/
structure Move where
  X : Int
  Y : Int
  Figures : Option (List (Option Ptr))
deriving DecidableEq, Repr

/-- A non-nil `Operation` interface value; pointer receivers may be nil. -/
inductive Operation where
  | func (f : OpFunc)
  | bgRect (r : Option BgRectangle)
  | figure (p : Option Ptr)
  | move (m : Option Move)
  | update
deriving DecidableEq, Repr

/-- Go `UpdateOp`. -/
def UpdateOp : Operation := .update

/-- A run-time panic of the Go program. -/
inductive Fault where
  | nilDereference
deriving DecidableEq, Repr

section Do

variable {σ : Type}

/-- Go `WhiteFill`; calling a method of a nil texture panics. -/
def WhiteFill (T : Texture σ) (t : Option σ) : Except Fault (Option σ) :=
  match t with
  | none => .error .nilDereference
  | some s => .ok (some (T.Fill s (T.Bounds s) White .Src))

/-- Go `GreenFill`. -/
def GreenFill (T : Texture σ) (t : Option σ) : Except Fault (Option σ) :=
  match t with
  | none => .error .nilDereference
  | some s => .ok (some (T.Fill s (T.Bounds s) (.RGBA ⟨0, 0xff, 0, 0xff⟩) .Src))

/-- Go `ResetScreen`. -/
def ResetScreen (T : Texture σ) (t : Option σ) : Except Fault (Option σ) :=
  match t with
  | some s => .ok (some (T.Fill s (T.Bounds s) (.RGBA ⟨0, 0, 0, 255⟩) .Src))
  | none => .ok none

/-- The function an `OpFunc` stands for. -/
def OpFunc.call (T : Texture σ) : OpFunc → Option σ → Except Fault (Option σ)
  | .WhiteFill => painter.WhiteFill T
  | .GreenFill => painter.GreenFill T
  | .ResetScreen => painter.ResetScreen T

/-- Go `OperationFunc.Do`: run the function, report not ready. -/
def OperationFunc.Do (T : Texture σ) (f : OpFunc) (t : Option σ) :
    Except Fault (Option σ × Bool) :=
  match f.call T t with
  | .error e => .error e
  | .ok t1 => .ok (t1, false)

/-- Go `updateOp.Do`. -/
def updateOp.Do (t : Option σ) : Option σ × Bool := (t, true)

/-- Go `BgRectangle.Do`: the texture afterwards and the ready flag. -/
def BgRectangle.Do (T : Texture σ) (op : Option BgRectangle) (t : Option σ) :
    Option σ × Bool :=
  match op, t with
  | some op, some s =>
    let x1 := op.X1
    let y1 := op.Y1
    let x2 := op.X2
    let y2 := op.Y2
    let (x1, x2) := if x1 > x2 then (x2, x1) else (x1, x2)
    let (y1, y2) := if y1 > y2 then (y2, y1) else (y1, y2)
    let bounds := T.Bounds s
    let x1 := if x1 < bounds.MinX then bounds.MinX else x1
    let y1 := if y1 < bounds.MinY then bounds.MinY else y1
    let x2 := if x2 > bounds.MaxX then bounds.MaxX else x2
    let y2 := if y2 > bounds.MaxY then bounds.MaxY else y2
    let blue : Color := .RGBA ⟨0, 0, 0, 255⟩
    (some (T.Fill s (Rect x1 y1 x2 y2) blue .Src), false)
  | _, _ => (t, false)

/-- Go `isRectVisible`. -/
def isRectVisible (x1 y1 x2 y2 : Int) (bounds : Rectangle) : Bool :=
  x1 < bounds.MaxX && x2 > bounds.MinX && y1 < bounds.MaxY && y2 > bounds.MinY

/-- Go `Figure.Do`; `op` is what the receiver points to, `none` for a nil pointer. -/
def Figure.Do (T : Texture σ) (op : Option Figure) (t : Option σ) : Option σ × Bool :=
  match op, t with
  | some op, some s =>
    let figureColor : RGBA := if op.C.A = 0 then ⟨0, 0, 255, 255⟩ else op.C
    let bounds := T.Bounds s
    let horizontalX1 := gostd.intSub op.X 200
    let horizontalY1 := op.Y
    let horizontalX2 := gostd.intAdd op.X 200
    let horizontalY2 := gostd.intAdd op.Y 100
    let verticalX1 := gostd.intSub op.X 62
    let verticalY1 := gostd.intSub op.Y 200
    let verticalX2 := gostd.intAdd op.X 63
    let verticalY2 := op.Y
    let s :=
      if isRectVisible horizontalX1 horizontalY1 horizontalX2 horizontalY2 bounds then
        T.Fill s (Rect horizontalX1 horizontalY1 horizontalX2 horizontalY2) (.RGBA figureColor) .Src
      else s
    let s :=
      if isRectVisible verticalX1 verticalY1 verticalX2 verticalY2 bounds then
        T.Fill s (Rect verticalX1 verticalY1 verticalX2 verticalY2) (.RGBA figureColor) .Src
      else s
    (some s, false)
  | _, _ => (t, false)

/-- One step of the loop of `Move.Do`: the figure at a non-nil address is shifted. -/
def Move.shift (dx dy : Int) (h : Heap) (f : Option Ptr) : Heap :=
  match f with
  | none => h
  | some a =>
    match h[a]? with
    | none => h
    | some fig => h.set a { fig with X := gostd.intAdd fig.X dx, Y := gostd.intAdd fig.Y dy }

/-- Go `Move.Do`: the heap afterwards and the ready flag. -/
def Move.Do (h : Heap) (op : Option Move) : Heap × Bool :=
  match op with
  | none => (h, false)
  | some m =>
    match m.Figures with
    | none => (h, false)
    | some figs => (figs.foldl (Move.shift m.X m.Y) h, false)

/-- The `Do` method of an `Operation` value, by dynamic type: the heap and the
texture afterwards and the ready flag. A `*Figure` is read through the heap; an
address outside the heap, which a Go pointer never is, reads as a nil pointer. -/
def Operation.Do (T : Texture σ) (op : Operation) (h : Heap) (t : Option σ) :
    Except Fault (Heap × Option σ × Bool) :=
  match op with
  | .func f =>
    match OperationFunc.Do T f t with
    | .error e => .error e
    | .ok (t1, ready) => .ok (h, t1, ready)
  | .bgRect r => .ok (h, BgRectangle.Do T r t)
  | .figure p => .ok (h, Figure.Do T (p.bind (fun a => h[a]?)) t)
  | .move m => .ok ((Move.Do h m).1, t, (Move.Do h m).2)
  | .update => .ok (h, updateOp.Do t)

/-- Go `OperationList`: a slice of `Operation` interface values, nil allowed. -/
abbrev OperationList := List (Option Operation)

/-- Go `OperationList.Do`, with the ready flag accumulated so far. -/
def OperationList.DoFrom (T : Texture σ) :
    OperationList → Heap → Option σ → Bool → Except Fault (Heap × Option σ × Bool)
  | [], h, t, ready => .ok (h, t, ready)
  | none :: ol, h, t, ready => OperationList.DoFrom T ol h t ready
  | some o :: ol, h, t, ready =>
    match o.Do T h t with
    | .error e => .error e
    | .ok (h1, t1, r) => OperationList.DoFrom T ol h1 t1 (r || ready)

/-- Go `OperationList.Do`. -/
def OperationList.Do (T : Texture σ) (ol : OperationList) (h : Heap) (t : Option σ) :
    Except Fault (Heap × Option σ × Bool) :=
  OperationList.DoFrom T ol h t false

end Do

/-- One recorded call of `Fill`. -/
structure FillCall where
  dr : Rectangle
  src : Color
  op : DrawOp
deriving DecidableEq, Repr

/-- A texture that answers `Bounds` with a fixed rectangle and records the
calls of `Fill`, as the `Mock` of `loop_test.go` does. -/
structure Mock where
  bounds : Rectangle
  fills : List FillCall
deriving DecidableEq, Repr

/-- The `screen.Texture` methods of `Mock`. -/
def Mock.texture : Texture Mock where
  Bounds := fun s => s.bounds
  Fill := fun s dr src op => { s with fills := s.fills ++ [⟨dr, src, op⟩] }

end painter

/-! ## painter/lang/parser.go -/

namespace lang

open gostd painter

/-- Go `Parser`: the state kept between lines and between calls. -/
structure Parser where
  lastBgColor : Option Operation
  lastBgRect : Option BgRectangle
  figures : List (Option Ptr)
  moveOps : List Operation
  updateOp : Option Operation
deriving DecidableEq, Repr

/-- A new parser, `&Parser{}`: every field is nil. -/
def Parser.fresh : Parser := ⟨none, none, [], [], none⟩

/-- Go `Parser.initialize`. -/
def Parser.initialize (p : Parser) : Parser :=
  let p := if p.lastBgColor = none then { p with lastBgColor := some (.func .ResetScreen) } else p
  if p.updateOp ≠ none then { p with updateOp := none } else p

/-- Go `Parser.finalResult`: the operation list, and the parser with its moves dropped. -/
def Parser.finalResult (p : Parser) : Parser × List Operation :=
  let res : List Operation := []
  let res := match p.lastBgColor with
    | some c => res ++ [c]
    | none => res
  let res := match p.lastBgRect with
    | some r => res ++ [Operation.bgRect (some r)]
    | none => res
  let res := if p.moveOps.length ≠ 0 then res ++ p.moveOps else res
  let q := { p with moveOps := [] }
  let res := if q.figures.length ≠ 0 then res ++ q.figures.map Operation.figure else res
  let res := match q.updateOp with
    | some u => res ++ [u]
    | none => res
  (q, res)

/-- Go `Parser.resetState`. -/
def Parser.resetState (_p : Parser) : Parser := ⟨none, none, [], [], none⟩

/-- Go `parseIntArgs`, reading from position `i` on. -/
def parseIntArgsFrom (i : Nat) : List (List Char) → Except String (List Int)
  | [] => .ok []
  | arg :: rest =>
    match Atoi arg with
    | none =>
      .error ("invalid integer argument at position " ++ toString i ++ ": " ++ String.mk arg)
    | some val =>
      match parseIntArgsFrom (i + 1) rest with
      | .error e => .error e
      | .ok vals => .ok (val :: vals)

/-- Go `parseIntArgs`. -/
def parseIntArgs (args : List (List Char)) : Except String (List Int) :=
  parseIntArgsFrom 0 args

/-- The colour the parser gives every figure, `color.RGBA{B: 255, A: 255}`. -/
def figureColor : RGBA := ⟨0, 0, 255, 255⟩

/-- Go `Parser.parse`: one command line applied to the heap and the parser.
An error leaves both as they were. -/
def Parser.parse (h : Heap) (p : Parser) (commandLine : List Char) :
    Except String (Heap × Parser) :=
  match Fields commandLine with
  | [] => .ok (h, p)
  | instruction :: args =>
    if instruction = "white".toList then
      .ok (h, { p with lastBgColor := some (.func .WhiteFill) })
    else if instruction = "green".toList then
      .ok (h, { p with lastBgColor := some (.func .GreenFill) })
    else if instruction = "bgrect".toList then
      if args.length < 4 then
        .error ("bgrect command requires 4 arguments, got " ++ toString args.length)
      else
        match parseIntArgs (args.take 4) with
        | .error e => .error ("invalid bgrect arguments: " ++ e)
        | .ok iArgs =>
          let rect : BgRectangle :=
            ⟨iArgs.getD 0 0, iArgs.getD 1 0, iArgs.getD 2 0, iArgs.getD 3 0⟩
          .ok (h, { p with lastBgRect := some rect })
    else if instruction = "figure".toList then
      if args.length < 2 then
        .error ("figure command requires at least 2 arguments, got " ++ toString args.length)
      else
        match parseIntArgs (args.take 2) with
        | .error e => .error ("invalid figure arguments: " ++ e)
        | .ok iArgs =>
          let figure : Figure := ⟨iArgs.getD 0 0, iArgs.getD 1 0, figureColor⟩
          .ok (h ++ [figure], { p with figures := p.figures ++ [some h.length] })
    else if instruction = "move".toList then
      if args.length < 2 then
        .error ("move command requires 2 arguments, got " ++ toString args.length)
      else
        match parseIntArgs (args.take 2) with
        | .error e => .error ("invalid move arguments: " ++ e)
        | .ok iArgs =>
          let figuresCopy : Option (List (Option Ptr)) :=
            if p.figures.length > 0 then some p.figures else none
          let moveOp : Move := ⟨iArgs.getD 0 0, iArgs.getD 1 0, figuresCopy⟩
          .ok (h, { p with moveOps := p.moveOps ++ [Operation.move (some moveOp)] })
    else if instruction = "reset".toList then
      .ok (h, { p.resetState with lastBgColor := some (.func .ResetScreen) })
    else if instruction = "update".toList then
      .ok (h, { p with updateOp := some UpdateOp })
    else .error ("unknown command: " ++ String.mk instruction)

/-- The scanning loop of `Parser.Parse`: `lineNum` lines were read before
`lines`. It returns the heap and parser it reached and the error of the first
line that fails, if one does. -/
def Parser.scanLoop (h : Heap) (p : Parser) (lineNum : Nat) :
    List (List Char) → Heap × Parser × Option String
  | [] => (h, p, none)
  | text :: rest =>
    let lineNum := lineNum + 1
    let commandLine := TrimSpace text
    if commandLine = [] ∨ HasPrefix commandLine ['#'] then
      Parser.scanLoop h p lineNum rest
    else
      match p.parse h commandLine with
      | .error err => (h, p, some ("line " ++ toString lineNum ++ ": " ++ err))
      | .ok (h1, p1) => Parser.scanLoop h1 p1 lineNum rest

/-- Outcome of a `Parse` call: the heap and the parser afterwards, and the
pair Go returns (the operations, or the error with a nil list). -/
structure Outcome where
  heap : Heap
  parser : Parser
  result : Except String (List Operation)

/-- Go `Parser.Parse`; `input = none` is a nil reader. -/
def Parser.Parse (h : Heap) (p : Parser) (input : Option Reader) : Outcome :=
  match input with
  | none => ⟨h, p, .error "input reader is nil"⟩
  | some r =>
    let p := p.initialize
    match Parser.scanLoop h p 0 r.lines with
    | (h1, p1, some err) => ⟨h1, p1, .error err⟩
    | (h1, p1, none) =>
      match r.err with
      | some err => ⟨h1, p1, .error ("scanner error: " ++ err)⟩
      | none => ⟨h1, p1.finalResult.1, .ok p1.finalResult.2⟩

end lang

/-! ## Vocabulary of the specification -/

namespace gostd

/-- A mathematical integer that is a value of Go `int`. -/
def IsInt (v : Int) : Prop := minInt ≤ v ∧ v ≤ maxInt

instance (v : Int) : Decidable (IsInt v) := by
  unfold IsInt; infer_instance

end gostd

namespace painter

/-- Two rectangles have a point in common. -/
def Rectangle.Overlaps (a b : Rectangle) : Prop :=
  ∃ x y : Int, a.Has x y ∧ b.Has x y

/-- The corner-normalised rectangle of a `BgRectangle`:
`[min X1 X2, max X1 X2) x [min Y1 Y2, max Y1 Y2)`. -/
def BgRectangle.normalised (op : BgRectangle) : Rectangle :=
  ⟨min op.X1 op.X2, min op.Y1 op.Y2, max op.X1 op.X2, max op.Y1 op.Y2⟩

/-- The corners of the intersection of two rectangles, as `image.Rectangle.Intersect`
computes them before its emptiness test. -/
def Rectangle.clip (r b : Rectangle) : Rectangle :=
  ⟨max r.MinX b.MinX, max r.MinY b.MinY, min r.MaxX b.MaxX, min r.MaxY b.MaxY⟩

/-- The colour `BgRectangle.Do` fills with. -/
def bgRectColor : Color := .RGBA ⟨0, 0, 0, 255⟩

/-- The horizontal bar of a figure at `(X, Y)`: `[X-200, X+200) x [Y, Y+100)`. -/
def Figure.horizontalBar (f : Figure) : Rectangle := ⟨f.X - 200, f.Y, f.X + 200, f.Y + 100⟩

/-- The vertical bar of a figure at `(X, Y)`: `[X-62, X+63) x [Y-200, Y)`. -/
def Figure.verticalBar (f : Figure) : Rectangle := ⟨f.X - 62, f.Y - 200, f.X + 63, f.Y⟩

/-- The corners of the horizontal bar are values of `int`: computing them does
not overflow. -/
def Figure.HorizontalInRange (f : Figure) : Prop :=
  gostd.IsInt (f.X - 200) ∧ gostd.IsInt (f.X + 200) ∧ gostd.IsInt (f.Y + 100)

instance (f : Figure) : Decidable f.HorizontalInRange := by
  unfold Figure.HorizontalInRange; infer_instance

/-- The corners of the vertical bar are values of `int`: computing them does
not overflow. -/
def Figure.VerticalInRange (f : Figure) : Prop :=
  gostd.IsInt (f.X - 62) ∧ gostd.IsInt (f.X + 63) ∧ gostd.IsInt (f.Y - 200)

instance (f : Figure) : Decidable f.VerticalInRange := by
  unfold Figure.VerticalInRange; infer_instance

/-- The colour a figure is drawn with: its own, or opaque blue when its alpha is zero. -/
def Figure.drawColor (f : Figure) : Color :=
  .RGBA (if f.C.A = 0 then ⟨0, 0, 255, 255⟩ else f.C)

/-- One conditional call of `Fill` with `draw.Src`: made when `go` is true. -/
def Texture.fillIf {σ : Type} (T : Texture σ) (go : Bool) (dr : Rectangle) (src : Color)
    (s : σ) : σ :=
  if go then T.Fill s dr src .Src else s

/-- The bounds have a point: `Min < Max` on both axes. -/
def Rectangle.NonEmpty (b : Rectangle) : Prop := b.MinX < b.MaxX ∧ b.MinY < b.MaxY

instance (b : Rectangle) : Decidable b.NonEmpty := by
  unfold Rectangle.NonEmpty; infer_instance

end painter

namespace lang

open gostd painter

/-- The commands of the grammar, with their integer arguments. -/
inductive Cmd where
  | white
  | green
  | bgrect (x1 y1 x2 y2 : Int)
  | figure (x y : Int)
  | move (dx dy : Int)
  | reset
  | update
deriving DecidableEq, Repr

/-- A line the grammar ignores: blank, or its first non-space character is `#`. -/
def Ignored (text : List Char) : Prop :=
  TrimSpace text = [] ∨ (TrimSpace text).head? = some '#'

instance (text : List Char) : Decidable (Ignored text) := by
  unfold Ignored; infer_instance

/-- Number of arguments the grammar gives each instruction; `none` for a word
that is no instruction. -/
def arity (instruction : List Char) : Option Nat :=
  if instruction = "white".toList then some 0
  else if instruction = "green".toList then some 0
  else if instruction = "bgrect".toList then some 4
  else if instruction = "figure".toList then some 2
  else if instruction = "move".toList then some 2
  else if instruction = "reset".toList then some 0
  else if instruction = "update".toList then some 0
  else none

/-- The command a list of fields spells in the grammar: the instruction, then
exactly as many integers as its arity. -/
def Cmd.ofFields : List (List Char) → Option Cmd
  | [ins] =>
    if ins = "white".toList then some .white
    else if ins = "green".toList then some .green
    else if ins = "reset".toList then some .reset
    else if ins = "update".toList then some .update
    else none
  | [ins, a, b] =>
    match Atoi a, Atoi b with
    | some x, some y =>
      if ins = "figure".toList then some (.figure x y)
      else if ins = "move".toList then some (.move x y)
      else none
    | _, _ => none
  | [ins, a, b, c, d] =>
    match Atoi a, Atoi b, Atoi c, Atoi d with
    | some x1, some y1, some x2, some y2 =>
      if ins = "bgrect".toList then some (.bgrect x1 y1 x2 y2) else none
    | _, _, _, _ => none
  | _ => none

/-- The command a line spells, if it spells one. -/
def Cmd.ofLine (text : List Char) : Option Cmd := Cmd.ofFields (Fields (TrimSpace text))

/-- A line of a valid command stream: ignored, or a command of the grammar. -/
def ValidLine (text : List Char) : Prop := Ignored text ∨ (Cmd.ofLine text).isSome = true

instance (text : List Char) : Decidable (ValidLine text) := by
  unfold ValidLine; infer_instance

/-- A valid command stream: it is read without a scanner error and every line is valid. -/
def ValidStream (r : Reader) : Prop := r.err = none ∧ ∀ text ∈ r.lines, ValidLine text

instance (r : Reader) : Decidable (ValidStream r) := by
  unfold ValidStream; infer_instance

/-- The commands of the lines, in line order; ignored lines give none. -/
def commands (lines : List (List Char)) : List Cmd :=
  lines.filterMap (fun text => if Ignored text then none else Cmd.ofLine text)

/-- The commands after the last `reset` (all of them when there is no `reset`). -/
def sinceReset (cs : List Cmd) : List Cmd :=
  (cs.reverse.takeWhile (fun c => decide (c ≠ Cmd.reset))).reverse

/-- The commands up to the last `reset`, that `reset` included (none when there is no `reset`). -/
def uptoReset (cs : List Cmd) : List Cmd :=
  (cs.reverse.dropWhile (fun c => decide (c ≠ Cmd.reset))).reverse

/-- The figures the `figure` commands declare, in order, with the parser's colour. -/
def declaredFigures (cs : List Cmd) : List Figure :=
  cs.filterMap (fun c => match c with
    | .figure x y => some ⟨x, y, figureColor⟩
    | _ => none)

/-- The displacements of the `move` commands, in order. -/
def declaredMoves (cs : List Cmd) : List (Int × Int) :=
  cs.filterMap (fun c => match c with
    | .move dx dy => some (dx, dy)
    | _ => none)

/-- The rectangles of the `bgrect` commands, in order. -/
def declaredRects (cs : List Cmd) : List BgRectangle :=
  cs.filterMap (fun c => match c with
    | .bgrect x1 y1 x2 y2 => some ⟨x1, y1, x2, y2⟩
    | _ => none)

/-- The fills the `white`, `green` and `reset` commands ask for, in order. -/
def declaredFills (cs : List Cmd) : List OpFunc :=
  cs.filterMap (fun c => match c with
    | .white => some .WhiteFill
    | .green => some .GreenFill
    | .reset => some .ResetScreen
    | _ => none)

/-- The background rectangle part of the output: the last `bgrect`, if there is one. -/
def rectOps (cs : List Cmd) : List Operation :=
  match (declaredRects cs).getLast? with
  | some r => [Operation.bgRect (some r)]
  | none => []

/-- The update part of the output: the signal, if there is an `update` command. -/
def updateOps (cs : List Cmd) : List Operation :=
  if Cmd.update ∈ cs then [UpdateOp] else []

/-- The `Move` values among a list of operations, in order. -/
def movesIn (ops : List Operation) : List Move :=
  ops.filterMap (fun o => match o with
    | .move (some m) => some m
    | _ => none)

/-- The addresses of the figures among a list of operations, in order. -/
def figuresIn (ops : List Operation) : List Ptr :=
  ops.filterMap (fun o => match o with
    | .figure (some a) => some a
    | _ => none)

/-- The `Figures` slice of a `Move` that holds the given figures: nil when there are none. -/
def groupOf (ptrs : List Ptr) : Option (List (Option Ptr)) :=
  if ptrs = [] then none else some (ptrs.map some)

/-- A line that is malformed in one of three ways: its instruction is unknown,
it has fewer arguments than the instruction's arity, or one of the arguments
the instruction takes is not an integer. -/
def MalformedFields : List (List Char) → Prop
  | [] => False
  | ins :: args =>
    match arity ins with
    | none => True
    | some n => args.length < n ∨ ∃ a ∈ args.take n, Atoi a = none

instance (fs : List (List Char)) : Decidable (MalformedFields fs) := by
  unfold MalformedFields
  split
  · infer_instance
  · split <;> infer_instance

/-- A line that is not ignored and is malformed. -/
def InvalidLine (text : List Char) : Prop :=
  ¬ Ignored text ∧ MalformedFields (Fields (TrimSpace text))

instance (text : List Char) : Decidable (InvalidLine text) := by
  unfold InvalidLine; infer_instance

/-- A sample stream: a figure, a `reset`, then moves, a figure, a rectangle and an update. -/
def sampleStream : String :=
  "figure 1 1\nreset\nmove 2 3\nfigure 4 5\nbgrect 1 2 3 4\nupdate\nmove 6 7\n"

/-- The fill functions among a list of operations, in order. -/
def fillsIn (ops : List Operation) : List OpFunc :=
  ops.filterMap (fun o => match o with
    | .func f => some f
    | _ => none)

/-- The background rectangles among a list of operations, in order. -/
def rectsIn (ops : List Operation) : List BgRectangle :=
  ops.filterMap (fun o => match o with
    | .bgRect (some r) => some r
    | _ => none)

/-- What the parser's own code keeps in a `Parser`: a fill function or nil as
the background fill, `Move`s as the moves, the update signal or nil as the
update request. -/
def Parser.WellFormed (p : Parser) : Prop :=
  (∀ o, p.lastBgColor = some o → ∃ f, o = Operation.func f) ∧
  (∀ o ∈ p.moveOps, ∃ m, o = Operation.move (some m)) ∧
  (p.updateOp = none ∨ p.updateOp = some UpdateOp)

/-- A blank line of 65536 spaces: one byte more than a scanner token can hold. -/
def longBlank : List Char := List.replicate 65536 ' '

/-- The physical lines of a text that are not ignored, in order. -/
def commandLines (text : List Char) : List (List Char) :=
  (rawLines text).filter (fun l => decide (¬ Ignored (dropCR l)))

end lang

/-! ## The parser as a reader of commands followed by their effect -/

namespace lang

open gostd painter

/-- What `Parser.parse` reads from the fields of a line before it touches the
parser: no command for no field, the command with the arguments it uses, or
the error it returns. -/
def readFields : List (List Char) → Except String (Option Cmd)
  | [] => .ok none
  | instruction :: args =>
    if instruction = "white".toList then .ok (some .white)
    else if instruction = "green".toList then .ok (some .green)
    else if instruction = "bgrect".toList then
      if args.length < 4 then
        .error ("bgrect command requires 4 arguments, got " ++ toString args.length)
      else
        match parseIntArgs (args.take 4) with
        | .error e => .error ("invalid bgrect arguments: " ++ e)
        | .ok iArgs =>
          .ok (some (.bgrect (iArgs.getD 0 0) (iArgs.getD 1 0) (iArgs.getD 2 0) (iArgs.getD 3 0)))
    else if instruction = "figure".toList then
      if args.length < 2 then
        .error ("figure command requires at least 2 arguments, got " ++ toString args.length)
      else
        match parseIntArgs (args.take 2) with
        | .error e => .error ("invalid figure arguments: " ++ e)
        | .ok iArgs => .ok (some (.figure (iArgs.getD 0 0) (iArgs.getD 1 0)))
    else if instruction = "move".toList then
      if args.length < 2 then
        .error ("move command requires 2 arguments, got " ++ toString args.length)
      else
        match parseIntArgs (args.take 2) with
        | .error e => .error ("invalid move arguments: " ++ e)
        | .ok iArgs => .ok (some (.move (iArgs.getD 0 0) (iArgs.getD 1 0)))
    else if instruction = "reset".toList then .ok (some .reset)
    else if instruction = "update".toList then .ok (some .update)
    else .error ("unknown command: " ++ String.mk instruction)

/-- The parser a `reset` line leaves. -/
def Parser.cleared : Parser := ⟨some (.func .ResetScreen), none, [], [], none⟩

/-- What `Parser.parse` does to the heap and the parser for a command it has read. -/
def Cmd.exec (c : Cmd) (h : Heap) (p : Parser) : Heap × Parser :=
  match c with
  | .white => (h, { p with lastBgColor := some (.func .WhiteFill) })
  | .green => (h, { p with lastBgColor := some (.func .GreenFill) })
  | .bgrect x1 y1 x2 y2 => (h, { p with lastBgRect := some ⟨x1, y1, x2, y2⟩ })
  | .figure x y => (h ++ [⟨x, y, figureColor⟩], { p with figures := p.figures ++ [some h.length] })
  | .move dx dy =>
    (h, { p with moveOps := p.moveOps ++
      [Operation.move (some ⟨dx, dy, if p.figures.length > 0 then some p.figures else none⟩)] })
  | .reset => (h, Parser.cleared)
  | .update => (h, { p with updateOp := some UpdateOp })

/-- The commands of a list performed one after the other. -/
def execAll (h : Heap) (p : Parser) : List Cmd → Heap × Parser
  | [] => (h, p)
  | c :: cs => execAll (c.exec h p).1 (c.exec h p).2 cs

/-- The `Move` values the commands build, when the parser already holds the
figures `known`, and the next figure gets the address `next`. -/
def movesFrom (known : List (Option Ptr)) (next : Ptr) : List Cmd → List Move
  | [] => []
  | .figure _ _ :: cs => movesFrom (known ++ [some next]) (next + 1) cs
  | .move dx dy :: cs =>
    ⟨dx, dy, if known.length > 0 then some known else none⟩ :: movesFrom known next cs
  | _ :: cs => movesFrom known next cs

/-- The commands the accepted lines are read as by `readFields`; an ignored
line and a line that is refused give none. -/
def commandsRead (lines : List (List Char)) : List Cmd :=
  lines.filterMap (fun text =>
    if Ignored text then none
    else match readFields (Fields (TrimSpace text)) with
      | .ok (some c) => some c
      | _ => none)

/-- The scanning loop of `Parser.Parse` without the line counter: the heap and
the parser it reaches, and the error of the first line that fails, untagged. -/
def scanCore (h : Heap) (p : Parser) : List (List Char) → Heap × Parser × Option String
  | [] => (h, p, none)
  | text :: rest =>
    if Ignored text then scanCore h p rest
    else
      match readFields (Fields (TrimSpace text)) with
      | .error e => (h, p, some e)
      | .ok none => scanCore h p rest
      | .ok (some c) => scanCore (c.exec h p).1 (c.exec h p).2 rest

/-- The lines that are not ignored, in order. -/
def significant (lines : List (List Char)) : List (List Char) :=
  lines.filter (fun text => decide (¬ Ignored text))

end lang

/-! ## Vocabulary for the effect of operations -/

namespace painter

/-- A figure after `X += dx`, `Y += dy` in `int` arithmetic. -/
def Figure.shifted (dx dy : Int) (f : Figure) : Figure :=
  { f with X := gostd.intAdd f.X dx, Y := gostd.intAdd f.Y dy }

/-- A figure whose mathematical position is reduced to the values `int` keeps. -/
def Figure.wrapped (f : Figure) : Figure :=
  { f with X := gostd.wrapInt f.X, Y := gostd.wrapInt f.Y }

/-- A figure drawn on a texture: `Fill` with the figure's colour for the
horizontal bar when `isRectVisible` holds of it against the bounds, then for
the vertical bar when it holds of that one. -/
def Figure.drawnOn {σ : Type} (T : Texture σ) (s : σ) (f : Figure) : σ :=
  T.fillIf
    (isRectVisible f.verticalBar.MinX f.verticalBar.MinY f.verticalBar.MaxX f.verticalBar.MaxY
      (T.Bounds s))
    f.verticalBar f.drawColor
    (T.fillIf
      (isRectVisible f.horizontalBar.MinX f.horizontalBar.MinY f.horizontalBar.MaxX
        f.horizontalBar.MaxY (T.Bounds s))
      f.horizontalBar f.drawColor s)

/-- Modelled from the spec: the implementation of `screen.Texture` is not among
the sources; the spec calls the surface a mutable pixel buffer. A texture is
its bounds and the colour of each pixel. -/
@[ext]
structure Canvas where
  bounds : Rectangle
  pix : Int → Int → Color

/-- Modelled from the spec: the `screen.Texture` methods of a pixel buffer, whose
implementation is not among the sources; the spec calls a fill a pure
overwrite. `Fill` touches the pixels of `dr` that lie inside the bounds: with
`draw.Src` each becomes `src`, with `draw.Over` each becomes `over src old`, the
composition of `src` over the old colour, which is left as a parameter. -/
def Canvas.texture (over : Color → Color → Color) : Texture Canvas where
  Bounds := fun s => s.bounds
  Fill := fun s dr src op =>
    { s with pix := fun x y =>
        if dr.Has x y ∧ s.bounds.Has x y then
          (match op with
            | .Src => src
            | .Over => over src (s.pix x y))
        else s.pix x y }

/-- The operations of a list applied one after the other, each to the heap and
the texture the one before left, with the ready flag of each in order. -/
def runInOrder {σ : Type} (T : Texture σ) :
    List Operation → Heap → Option σ → Except Fault (Heap × Option σ × List Bool)
  | [], h, t => .ok (h, t, [])
  | o :: os, h, t =>
    match o.Do T h t with
    | .error e => .error e
    | .ok (h1, t1, r) =>
      match runInOrder T os h1 t1 with
      | .error e => .error e
      | .ok (h2, t2, rs) => .ok (h2, t2, r :: rs)

/-- A `Move` with every address of its group moved up by `k`. -/
def Move.rebase (k : Nat) (m : Move) : Move :=
  { m with Figures := m.Figures.map (fun g => g.map (fun o => o.map (fun a => a + k))) }

/-- An operation with every figure address in it moved up by `k`: the same
operation on figure objects allocated `k` places later. -/
def Operation.rebase (k : Nat) : Operation → Operation
  | .figure p => .figure (p.map (fun a => a + k))
  | .move m => .move (m.map (Move.rebase k))
  | o => o

/-- The figures drawn one after the other on a texture, each by `Figure.Do`. -/
def drawAll {σ : Type} (T : Texture σ) (figs : List Figure) (t : Option σ) : Option σ :=
  figs.foldl (fun t f => (Figure.Do T (some f) t).1) t

/-- The moves done one after the other on the heap, each by `Move.Do`. -/
def applyMoves (ms : List Move) (h : Heap) : Heap :=
  ms.foldl (fun h m => (Move.Do h (some m)).1) h

end painter

namespace lang

open gostd painter

/-- The sum of the displacements of the `move` commands. -/
def totalMove (cs : List Cmd) : Int × Int :=
  (((declaredMoves cs).map Prod.fst).sum, ((declaredMoves cs).map Prod.snd).sum)

/-- The figures of the `figure` commands, each at its declared position plus
the displacements of the `move` commands that come after its command. -/
def movedFigures : List Cmd → List Figure
  | [] => []
  | .figure x y :: cs =>
    ⟨x + (totalMove cs).1, y + (totalMove cs).2, figureColor⟩ :: movedFigures cs
  | _ :: cs => movedFigures cs

end lang

/-! ## Lemmas on the parser -/

namespace lang

open gostd painter

theorem parse_eq_readFields (h : Heap) (p : Parser) (commandLine : List Char) :
    p.parse h commandLine =
      match readFields (Fields commandLine) with
      | .error e => .error e
      | .ok none => .ok (h, p)
      | .ok (some c) => .ok (c.exec h p) := by
  unfold Parser.parse
  generalize Fields commandLine = fs
  cases fs with
  | nil => rfl
  | cons instruction args =>
    simp only [readFields]
    by_cases h1 : instruction = "white".toList
    · simp only [if_pos h1]; rfl
    by_cases h2 : instruction = "green".toList
    · simp only [if_neg h1, if_pos h2]; rfl
    by_cases h3 : instruction = "bgrect".toList
    · simp only [if_neg h1, if_neg h2, if_pos h3]
      by_cases hl : args.length < 4
      · simp only [hl, if_true]
      · simp only [hl, if_false]
        cases parseIntArgs (List.take 4 args) <;> rfl
    by_cases h4 : instruction = "figure".toList
    · simp only [if_neg h1, if_neg h2, if_neg h3, if_pos h4]
      by_cases hl : args.length < 2
      · simp only [hl, if_true]
      · simp only [hl, if_false]
        cases parseIntArgs (List.take 2 args) <;> rfl
    by_cases h5 : instruction = "move".toList
    · simp only [if_neg h1, if_neg h2, if_neg h3, if_neg h4, if_pos h5]
      by_cases hl : args.length < 2
      · simp only [hl, if_true]
      · simp only [hl, if_false]
        cases parseIntArgs (List.take 2 args) <;> rfl
    by_cases h6 : instruction = "reset".toList
    · simp only [if_neg h1, if_neg h2, if_neg h3, if_neg h4, if_neg h5, if_pos h6]; rfl
    by_cases h7 : instruction = "update".toList
    · simp only [if_neg h1, if_neg h2, if_neg h3, if_neg h4, if_neg h5, if_neg h6, if_pos h7]; rfl
    simp only [if_neg h1, if_neg h2, if_neg h3, if_neg h4, if_neg h5, if_neg h6, if_neg h7]


theorem ignored_iff_skipped (text : List Char) :
    (TrimSpace text = [] ∨ HasPrefix (TrimSpace text) ['#'] = true) ↔ Ignored text := by
  unfold Ignored HasPrefix
  cases TrimSpace text with
  | nil => simp
  | cons c cs =>
    simp only [List.isPrefixOf, List.head?_cons, Option.some.injEq, Bool.and_true, beq_iff_eq,
      reduceCtorEq, false_or]
    exact eq_comm

theorem parseIntArgsFrom_error_iff (i : Nat) (l : List (List Char)) :
    (∃ e, parseIntArgsFrom i l = .error e) ↔ ∃ a ∈ l, Atoi a = none := by
  induction l generalizing i with
  | nil => simp [parseIntArgsFrom]
  | cons a rest ih =>
    unfold parseIntArgsFrom
    cases ha : Atoi a with
    | none => simp [ha]
    | some v =>
      simp only [List.mem_cons, exists_eq_or_imp, ha, false_or]
      rw [← ih (i + 1)]
      cases parseIntArgsFrom (i + 1) rest <;> simp

theorem parseIntArgsFrom_ok (i : Nat) (l : List (List Char)) (vals : List Int)
    (h : l.map Atoi = vals.map some) : parseIntArgsFrom i l = .ok vals := by
  induction l generalizing i vals with
  | nil =>
    cases vals with
    | nil => rfl
    | cons v vs => simp at h
  | cons a rest ih =>
    cases vals with
    | nil => simp at h
    | cons v vs =>
      simp only [List.map_cons, List.cons.injEq] at h
      unfold parseIntArgsFrom
      rw [h.1]
      simp only [ih (i + 1) vs h.2]

theorem readFields_error_iff (fs : List (List Char)) :
    (∃ e, readFields fs = .error e) ↔ MalformedFields fs := by
  cases fs with
  | nil => simp [readFields, MalformedFields]
  | cons instruction args =>
    simp only [readFields, MalformedFields, arity]
    by_cases h1 : instruction = "white".toList
    · simp only [if_pos h1]; simp
    by_cases h2 : instruction = "green".toList
    · simp only [if_neg h1, if_pos h2]; simp
    by_cases h3 : instruction = "bgrect".toList
    · simp only [if_neg h1, if_neg h2, if_pos h3]
      by_cases hl : args.length < 4
      · simp [hl]
      · simp only [hl, if_false, false_or]
        rw [← parseIntArgsFrom_error_iff 0]
        unfold parseIntArgs
        cases parseIntArgsFrom 0 (List.take 4 args) <;> simp
    by_cases h4 : instruction = "figure".toList
    · simp only [if_neg h1, if_neg h2, if_neg h3, if_pos h4]
      by_cases hl : args.length < 2
      · simp [hl]
      · simp only [hl, if_false, false_or]
        rw [← parseIntArgsFrom_error_iff 0]
        unfold parseIntArgs
        cases parseIntArgsFrom 0 (List.take 2 args) <;> simp
    by_cases h5 : instruction = "move".toList
    · simp only [if_neg h1, if_neg h2, if_neg h3, if_neg h4, if_pos h5]
      by_cases hl : args.length < 2
      · simp [hl]
      · simp only [hl, if_false, false_or]
        rw [← parseIntArgsFrom_error_iff 0]
        unfold parseIntArgs
        cases parseIntArgsFrom 0 (List.take 2 args) <;> simp
    by_cases h6 : instruction = "reset".toList
    · simp only [if_neg h1, if_neg h2, if_neg h3, if_neg h4, if_neg h5, if_pos h6]; simp
    by_cases h7 : instruction = "update".toList
    · simp only [if_neg h1, if_neg h2, if_neg h3, if_neg h4, if_neg h5, if_neg h6, if_pos h7]; simp
    simp only [if_neg h1, if_neg h2, if_neg h3, if_neg h4, if_neg h5, if_neg h6, if_neg h7]; simp

theorem readFields_of_ofFields (fs : List (List Char)) (c : Cmd)
    (h : Cmd.ofFields fs = some c) : readFields fs = .ok (some c) := by
  unfold Cmd.ofFields at h
  split at h
  · rename_i ins
    simp only [readFields]
    split_ifs at h with h1 h2 h3 h4
    · simp only [if_pos h1]; simp_all
    · simp only [if_neg h1, if_pos h2]; simp_all
    · have e3 : ¬ ins = "bgrect".toList := by rw [h3]; decide
      have e4 : ¬ ins = "figure".toList := by rw [h3]; decide
      have e5 : ¬ ins = "move".toList := by rw [h3]; decide
      simp only [if_neg h1, if_neg h2, if_neg e3, if_neg e4, if_neg e5, if_pos h3]; simp_all
    · have e3 : ¬ ins = "bgrect".toList := by rw [h4]; decide
      have e4 : ¬ ins = "figure".toList := by rw [h4]; decide
      have e5 : ¬ ins = "move".toList := by rw [h4]; decide
      simp only [if_neg h1, if_neg h2, if_neg e3, if_neg e4, if_neg e5, if_neg h3, if_pos h4]
      simp_all
  · rename_i ins a b
    split at h
    · rename_i x y hx hy
      have hp : parseIntArgs (List.take 2 [a, b]) = .ok [x, y] :=
        parseIntArgsFrom_ok 0 _ _ (by simp [hx, hy])
      simp only [readFields]
      split_ifs at h with h4 h5
      · have e1 : ¬ ins = "white".toList := by rw [h4]; decide
        have e2 : ¬ ins = "green".toList := by rw [h4]; decide
        have e3 : ¬ ins = "bgrect".toList := by rw [h4]; decide
        simp only [if_neg e1, if_neg e2, if_neg e3, if_pos h4, hp]
        simp_all
      · have e1 : ¬ ins = "white".toList := by rw [h5]; decide
        have e2 : ¬ ins = "green".toList := by rw [h5]; decide
        have e3 : ¬ ins = "bgrect".toList := by rw [h5]; decide
        simp only [if_neg e1, if_neg e2, if_neg e3, if_neg h4, if_pos h5, hp]
        simp_all
    · simp at h
  · rename_i ins a b c d
    split at h
    · rename_i x1 y1 x2 y2 h1 h2 h3 h4
      have hp : parseIntArgs (List.take 4 [a, b, c, d]) = .ok [x1, y1, x2, y2] :=
        parseIntArgsFrom_ok 0 _ _ (by simp [h1, h2, h3, h4])
      simp only [readFields]
      split_ifs at h with h3
      have e1 : ¬ ins = "white".toList := by rw [h3]; decide
      have e2 : ¬ ins = "green".toList := by rw [h3]; decide
      simp only [if_neg e1, if_neg e2, if_pos h3, hp]
      simp_all
    · simp at h
  · simp at h


theorem execAll_append (h : Heap) (p : Parser) (cs ds : List Cmd) :
    execAll h p (cs ++ ds) = execAll (execAll h p cs).1 (execAll h p cs).2 ds := by
  induction cs generalizing h p with
  | nil => rfl
  | cons c cs ih => simp only [List.cons_append, execAll, List.append_eq, ih]

theorem commandsRead_append (l1 l2 : List (List Char)) :
    commandsRead (l1 ++ l2) = commandsRead l1 ++ commandsRead l2 := by
  simp only [commandsRead, List.filterMap_append]

/-- The scanning loop over lines none of which is malformed: the commands read
are performed, no error arises, and the loop goes on with the rest. -/
theorem scanLoop_accepted (pre rest : List (List Char)) (h : Heap) (p : Parser) (n : Nat)
    (hpre : ∀ text ∈ pre, ¬ InvalidLine text) :
    Parser.scanLoop h p n (pre ++ rest) =
      Parser.scanLoop (execAll h p (commandsRead pre)).1 (execAll h p (commandsRead pre)).2
        (n + pre.length) rest := by
  induction pre generalizing h p n with
  | nil => rfl
  | cons text pre ih =>
    have htext := hpre text (List.mem_cons_self _ _)
    have hrest : ∀ t ∈ pre, ¬ InvalidLine t := fun t ht => hpre t (List.mem_cons_of_mem _ ht)
    have hn : n + (pre.length + 1) = n + 1 + pre.length := by omega
    simp only [List.cons_append, Parser.scanLoop, List.length_cons, List.append_eq, hn]
    by_cases hi : Ignored text
    · rw [if_pos ((ignored_iff_skipped text).mpr hi), ih h p (n + 1) hrest]
      simp only [commandsRead, List.filterMap_cons, if_pos hi]
    · rw [if_neg (fun hs => hi ((ignored_iff_skipped text).mp hs))]
      have hm : ¬ MalformedFields (Fields (TrimSpace text)) := fun hm => htext ⟨hi, hm⟩
      rw [← readFields_error_iff] at hm
      rw [parse_eq_readFields]
      cases hr : readFields (Fields (TrimSpace text)) with
      | error e => exact absurd ⟨e, hr⟩ hm
      | ok oc =>
        cases oc with
        | none =>
          simp only [ih h p (n + 1) hrest]
          simp only [commandsRead, List.filterMap_cons, if_neg hi, hr]
        | some c =>
          simp only [ih _ _ (n + 1) hrest]
          simp only [commandsRead, List.filterMap_cons, if_neg hi, hr, execAll]

/-- The scanning loop stops at a malformed line with an error that carries its number. -/
theorem scanLoop_invalid (text : List Char) (rest : List (List Char)) (h : Heap) (p : Parser)
    (n : Nat) (hbad : InvalidLine text) :
    ∃ e, readFields (Fields (TrimSpace text)) = .error e ∧
      Parser.scanLoop h p n (text :: rest) =
        (h, p, some ("line " ++ toString (n + 1) ++ ": " ++ e)) := by
  obtain ⟨e, he⟩ := (readFields_error_iff _).mpr hbad.2
  refine ⟨e, he, ?_⟩
  simp only [Parser.scanLoop]
  rw [if_neg (fun hs => hbad.1 ((ignored_iff_skipped text).mp hs)), parse_eq_readFields, he]

theorem validLine_not_invalid (text : List Char) (hv : ValidLine text) : ¬ InvalidLine text := by
  rintro ⟨hi, hm⟩
  rcases hv with hv | hv
  · exact hi hv
  · obtain ⟨c, hc⟩ := Option.isSome_iff_exists.mp hv
    obtain ⟨e, he⟩ := (readFields_error_iff _).mpr hm
    rw [readFields_of_ofFields _ c hc] at he
    cases he

theorem commandsRead_of_valid (lines : List (List Char)) (hv : ∀ text ∈ lines, ValidLine text) :
    commandsRead lines = commands lines := by
  induction lines with
  | nil => rfl
  | cons text lines ih =>
    have ht := hv text (List.mem_cons_self _ _)
    have ih := ih (fun t h => hv t (List.mem_cons_of_mem _ h))
    simp only [commandsRead, commands, List.filterMap_cons] at ih ⊢
    by_cases hi : Ignored text
    · simp only [if_pos hi, ih]
    · rcases ht with ht | ht
      · exact absurd ht hi
      · obtain ⟨c, hc⟩ := Option.isSome_iff_exists.mp ht
        simp only [if_neg hi]
        unfold Cmd.ofLine at hc
        simp only [Cmd.ofLine, hc, readFields_of_ofFields _ c hc, ih]

/-- `Parse` on a valid stream: the commands are performed from the initialised
parser and `finalResult` gives the list. -/
theorem Parse_valid (h : Heap) (p : Parser) (r : Reader) (hv : ValidStream r) :
    Parser.Parse h p (some r) =
      ⟨(execAll h p.initialize (commands r.lines)).1,
        (execAll h p.initialize (commands r.lines)).2.finalResult.1,
        .ok (execAll h p.initialize (commands r.lines)).2.finalResult.2⟩ := by
  have hacc : ∀ text ∈ r.lines, ¬ InvalidLine text :=
    fun t ht => validLine_not_invalid t (hv.2 t ht)
  have hloop := scanLoop_accepted r.lines [] h p.initialize 0 hacc
  rw [List.append_nil, commandsRead_of_valid _ hv.2] at hloop
  simp only [Parser.Parse, hloop, Parser.scanLoop, hv.1]


theorem getLast?_cons_or {α : Type} (a : α) (l : List α) (d : Option α) :
    (a :: l).getLast?.or d = l.getLast?.or (some a) := by
  rw [List.getLast?_cons]
  cases l.getLast? <;> rfl

theorem getLast?_cons_map_or {α β : Type} (f : α → β) (a : α) (l : List α) (d : Option β) :
    ((a :: l).getLast?.map f).or d = (l.getLast?.map f).or (some (f a)) := by
  rw [List.getLast?_cons]
  cases l.getLast? <;> rfl

/-- The heap after the commands: the declared figures are appended, whatever else happens. -/
theorem execAll_heap (h : Heap) (p : Parser) (cs : List Cmd) :
    (execAll h p cs).1 = h ++ declaredFigures cs := by
  induction cs generalizing h p with
  | nil => simp [execAll, declaredFigures]
  | cons c cs ih =>
    simp only [execAll, ih]
    cases c <;> simp [Cmd.exec, declaredFigures]

/-- The state after commands without `reset`, in closed form. -/
theorem execAll_resetFree (h : Heap) (p : Parser) (cs : List Cmd) (hr : Cmd.reset ∉ cs) :
    execAll h p cs =
      (h ++ declaredFigures cs,
        { lastBgColor := ((declaredFills cs).getLast?.map Operation.func).or p.lastBgColor
          lastBgRect := (declaredRects cs).getLast?.or p.lastBgRect
          figures := p.figures ++ (List.range' h.length (declaredFigures cs).length).map some
          moveOps := p.moveOps ++
            (movesFrom p.figures h.length cs).map (fun m => Operation.move (some m))
          updateOp := if Cmd.update ∈ cs then some UpdateOp else p.updateOp }) := by
  induction cs generalizing h p with
  | nil => simp [execAll, declaredFigures, declaredFills, declaredRects, movesFrom]
  | cons c cs ih =>
    have hr2 : Cmd.reset ∉ cs := fun hm => hr (List.mem_cons_of_mem _ hm)
    simp only [execAll, ih _ _ hr2]
    cases c with
    | white =>
      simp [Cmd.exec, declaredFigures, declaredFills, declaredRects, movesFrom,
        getLast?_cons_or, getLast?_cons_map_or]
    | green =>
      simp [Cmd.exec, declaredFigures, declaredFills, declaredRects, movesFrom,
        getLast?_cons_or, getLast?_cons_map_or]
    | bgrect x1 y1 x2 y2 =>
      simp [Cmd.exec, declaredFigures, declaredFills, declaredRects, movesFrom,
        getLast?_cons_or, getLast?_cons_map_or]
    | figure x y =>
      simp [Cmd.exec, declaredFigures, declaredFills, declaredRects, movesFrom,
        List.range'_succ]
    | move dx dy =>
      simp [Cmd.exec, declaredFigures, declaredFills, declaredRects, movesFrom]
    | reset => exact absurd (List.mem_cons_self _ _) hr
    | update =>
      simp [Cmd.exec, declaredFigures, declaredFills, declaredRects, movesFrom]


theorem sinceReset_of_not_mem (cs : List Cmd) (hr : Cmd.reset ∉ cs) : sinceReset cs = cs := by
  unfold sinceReset
  rw [List.takeWhile_eq_self_iff.mpr, List.reverse_reverse]
  intro c hc
  have : c ≠ Cmd.reset := fun h => hr (h ▸ List.mem_reverse.mp hc)
  simpa using this

theorem uptoReset_of_not_mem (cs : List Cmd) (hr : Cmd.reset ∉ cs) : uptoReset cs = [] := by
  unfold uptoReset
  rw [List.dropWhile_eq_nil_iff.mpr, List.reverse_nil]
  intro c hc
  have : c ≠ Cmd.reset := fun h => hr (h ▸ List.mem_reverse.mp hc)
  simpa using this

theorem sinceReset_split (pre post : List Cmd) (hr : Cmd.reset ∉ post) :
    sinceReset (pre ++ Cmd.reset :: post) = post := by
  unfold sinceReset
  have hall : ∀ c ∈ post.reverse, decide (c ≠ Cmd.reset) = true := by
    intro c hc
    have : c ≠ Cmd.reset := fun h => hr (h ▸ List.mem_reverse.mp hc)
    simpa using this
  rw [List.reverse_append, List.reverse_cons, List.append_assoc,
    List.takeWhile_append_of_pos hall]
  simp

theorem uptoReset_split (pre post : List Cmd) (hr : Cmd.reset ∉ post) :
    uptoReset (pre ++ Cmd.reset :: post) = pre ++ [Cmd.reset] := by
  unfold uptoReset
  have hall : ∀ c ∈ post.reverse, decide (c ≠ Cmd.reset) = true := by
    intro c hc
    have : c ≠ Cmd.reset := fun h => hr (h ▸ List.mem_reverse.mp hc)
    simpa using this
  rw [List.reverse_append, List.reverse_cons, List.append_assoc,
    List.dropWhile_append_of_pos hall]
  simp

/-- A command list has no `reset`, or splits at its last `reset`. -/
theorem reset_split (cs : List Cmd) :
    Cmd.reset ∉ cs ∨ ∃ pre post, cs = pre ++ Cmd.reset :: post ∧ Cmd.reset ∉ post := by
  induction cs with
  | nil => left; simp
  | cons c cs ih =>
    rcases ih with ih | ⟨pre, post, he, hp⟩
    · by_cases hc : c = Cmd.reset
      · right
        exact ⟨[], cs, by rw [hc]; rfl, ih⟩
      · left
        intro hm
        rcases List.mem_cons.mp hm with h1 | h1
        · exact hc h1.symm
        · exact ih h1
    · right
      exact ⟨c :: pre, post, by rw [he]; rfl, hp⟩

theorem sinceReset_resetFree (cs : List Cmd) : Cmd.reset ∉ sinceReset cs := by
  rcases reset_split cs with h | ⟨pre, post, he, hp⟩
  · rwa [sinceReset_of_not_mem cs h]
  · rwa [he, sinceReset_split pre post hp]

theorem upto_append_since (cs : List Cmd) : uptoReset cs ++ sinceReset cs = cs := by
  rcases reset_split cs with h | ⟨pre, post, he, hp⟩
  · rw [sinceReset_of_not_mem cs h, uptoReset_of_not_mem cs h]; rfl
  · rw [he, sinceReset_split pre post hp, uptoReset_split pre post hp]; simp

theorem declaredFigures_append (cs ds : List Cmd) :
    declaredFigures (cs ++ ds) = declaredFigures cs ++ declaredFigures ds := by
  simp only [declaredFigures, List.filterMap_append]

/-- After a `reset` the parser is the cleared one, whatever it was before. -/
theorem execAll_after_reset (h : Heap) (p : Parser) (pre post : List Cmd) :
    execAll h p (pre ++ Cmd.reset :: post) =
      execAll (h ++ declaredFigures (pre ++ [Cmd.reset])) Parser.cleared post := by
  rw [execAll_append]
  simp only [execAll, Cmd.exec, execAll_heap, declaredFigures_append]
  simp [declaredFigures]

/-- The state the commands leave, from a parser that is cleared at the start or
when the commands hold a `reset`: only the commands after the last `reset` count. -/
theorem execAll_since (h : Heap) (p : Parser) (cs : List Cmd)
    (hp : p = Parser.cleared ∨ Cmd.reset ∈ cs) :
    execAll h p cs =
      (h ++ declaredFigures cs,
        { lastBgColor :=
            some (.func ((declaredFills (sinceReset cs)).getLast?.getD OpFunc.ResetScreen))
          lastBgRect := (declaredRects (sinceReset cs)).getLast?
          figures :=
            (List.range' (h.length + (declaredFigures (uptoReset cs)).length)
              (declaredFigures (sinceReset cs)).length).map some
          moveOps :=
            (movesFrom [] (h.length + (declaredFigures (uptoReset cs)).length)
              (sinceReset cs)).map (fun m => Operation.move (some m))
          updateOp := if Cmd.update ∈ sinceReset cs then some UpdateOp else none }) := by
  have key : ∀ (h1 : Heap) (ds : List Cmd), Cmd.reset ∉ ds →
      execAll h1 Parser.cleared ds =
        (h1 ++ declaredFigures ds,
          { lastBgColor := some (.func ((declaredFills ds).getLast?.getD OpFunc.ResetScreen))
            lastBgRect := (declaredRects ds).getLast?
            figures := (List.range' h1.length (declaredFigures ds).length).map some
            moveOps := (movesFrom [] h1.length ds).map (fun m => Operation.move (some m))
            updateOp := if Cmd.update ∈ ds then some UpdateOp else none }) := by
    intro h1 ds hd
    rw [execAll_resetFree h1 Parser.cleared ds hd]
    simp only [Parser.cleared, List.nil_append, Option.or_none]
    cases (declaredFills ds).getLast? <;> rfl
  rcases reset_split cs with hn | ⟨pre, post, he, hpost⟩
  · have hpc : p = Parser.cleared := by
      rcases hp with hp | hp
      · exact hp
      · exact absurd hp hn
    rw [hpc, key h cs hn, sinceReset_of_not_mem cs hn, uptoReset_of_not_mem cs hn]
    simp [declaredFigures]
  · rw [he, execAll_after_reset, key _ post hpost, sinceReset_split pre post hpost,
      uptoReset_split pre post hpost]
    simp only [declaredFigures_append, List.append_assoc, List.length_append]
    simp [declaredFigures]

/-- The list `finalResult` builds: fill, rectangle, moves, figures, update. -/
theorem finalResult_list (p : Parser) :
    p.finalResult.2 =
      p.lastBgColor.toList ++ p.lastBgRect.toList.map (fun r => Operation.bgRect (some r)) ++
        p.moveOps ++ p.figures.map Operation.figure ++ p.updateOp.toList := by
  unfold Parser.finalResult
  cases hc : p.lastBgColor <;> cases hr : p.lastBgRect <;> cases hmo : p.moveOps <;>
    cases hf : p.figures <;> cases hu : p.updateOp <;> simp


theorem movesFrom_displacements (known : List (Option Ptr)) (next : Ptr) (cs : List Cmd) :
    (movesFrom known next cs).map (fun m => (m.X, m.Y)) = declaredMoves cs := by
  induction cs generalizing known next with
  | nil => rfl
  | cons c cs ih =>
    cases c <;> simp [movesFrom, declaredMoves] <;> exact ih _ _

/-- The `Move` built for a `move` command holds the figures known before,
then those the commands before it declare. -/
theorem movesFrom_split (known : List (Option Ptr)) (next : Ptr) (pre post : List Cmd)
    (dx dy : Int) :
    movesFrom known next (pre ++ Cmd.move dx dy :: post) =
      movesFrom known next pre ++
        (⟨dx, dy,
          if (known ++ (List.range' next (declaredFigures pre).length).map some).length > 0
          then some (known ++ (List.range' next (declaredFigures pre).length).map some)
          else none⟩ ::
          movesFrom (known ++ (List.range' next (declaredFigures pre).length).map some)
            (next + (declaredFigures pre).length) post) := by
  induction pre generalizing known next with
  | nil => simp [movesFrom, declaredFigures]
  | cons c pre ih =>
    cases c <;>
      simp [movesFrom, declaredFigures, ih, List.range'_succ, Nat.add_assoc, Nat.add_comm 1]

theorem movesIn_map (ms : List Move) :
    movesIn (ms.map (fun m => Operation.move (some m))) = ms := by
  induction ms with
  | nil => rfl
  | cons m ms ih => simp only [movesIn, List.map_cons, List.filterMap_cons] at ih ⊢; rw [ih]

theorem figuresIn_map (ptrs : List Ptr) :
    figuresIn (ptrs.map (fun a => Operation.figure (some a))) = ptrs := by
  induction ptrs with
  | nil => rfl
  | cons a l ih => simp only [figuresIn, List.map_cons, List.filterMap_cons] at ih ⊢; rw [ih]

theorem movesIn_append (a b : List Operation) : movesIn (a ++ b) = movesIn a ++ movesIn b := by
  simp only [movesIn, List.filterMap_append]

theorem figuresIn_append (a b : List Operation) :
    figuresIn (a ++ b) = figuresIn a ++ figuresIn b := by
  simp only [figuresIn, List.filterMap_append]

theorem movesIn_figures (ptrs : List Ptr) :
    movesIn (ptrs.map (fun a => Operation.figure (some a))) = [] := by
  induction ptrs with
  | nil => rfl
  | cons a l ih => simp only [movesIn, List.map_cons, List.filterMap_cons] at ih ⊢; rw [ih]

theorem figuresIn_moves (ms : List Move) :
    figuresIn (ms.map (fun m => Operation.move (some m))) = [] := by
  induction ms with
  | nil => rfl
  | cons a l ih => simp only [figuresIn, List.map_cons, List.filterMap_cons] at ih ⊢; rw [ih]

theorem movesIn_rectOps (cs : List Cmd) : movesIn (rectOps cs) = [] := by
  unfold rectOps; split <;> rfl

theorem figuresIn_rectOps (cs : List Cmd) : figuresIn (rectOps cs) = [] := by
  unfold rectOps; split <;> rfl

theorem movesIn_updateOps (cs : List Cmd) : movesIn (updateOps cs) = [] := by
  unfold updateOps; split <;> rfl

theorem figuresIn_updateOps (cs : List Cmd) : figuresIn (updateOps cs) = [] := by
  unfold updateOps; split <;> rfl

/-- Reading the addresses that follow a heap `a` in the heap `a ++ b` gives `b`. -/
theorem range_deref {α : Type} (a b : List α) :
    (List.range' a.length b.length).map (fun i => (a ++ b)[i]?) = b.map some := by
  induction b generalizing a with
  | nil => rfl
  | cons x b ih =>
    have h2 := ih (a ++ [x])
    simp only [List.length_append, List.length_singleton, List.append_assoc,
      List.singleton_append] at h2
    simp only [List.length_cons, List.range'_succ, List.map_cons, h2]
    simp [List.getElem_append_right]

/-- The operation list of a fresh parser, or of any parser when the commands
hold a `reset`, for a valid stream. -/
theorem Parse_valid_result (h : Heap) (p : Parser) (r : Reader) (hv : ValidStream r)
    (hp : p = Parser.fresh ∨ Cmd.reset ∈ commands r.lines) :
    (Parser.Parse h p (some r)).heap = h ++ declaredFigures (commands r.lines) ∧
    (Parser.Parse h p (some r)).result =
      .ok (Operation.func
          ((declaredFills (sinceReset (commands r.lines))).getLast?.getD OpFunc.ResetScreen) ::
        (rectOps (sinceReset (commands r.lines)) ++
          (movesFrom [] (h.length + (declaredFigures (uptoReset (commands r.lines))).length)
            (sinceReset (commands r.lines))).map (fun m => Operation.move (some m)) ++
          (List.range' (h.length + (declaredFigures (uptoReset (commands r.lines))).length)
            (declaredFigures (sinceReset (commands r.lines))).length).map
              (fun a => Operation.figure (some a)) ++
          updateOps (sinceReset (commands r.lines)))) := by
  have hp2 : p.initialize = Parser.cleared ∨ Cmd.reset ∈ commands r.lines := by
    rcases hp with hp | hp
    · left; rw [hp]; rfl
    · right; exact hp
  rw [Parse_valid h p r hv]
  simp only [finalResult_list, execAll_since h p.initialize _ hp2]
  refine ⟨trivial, ?_⟩
  simp only [rectOps, updateOps, UpdateOp, Option.toList, List.map_map]
  cases (declaredRects (sinceReset (commands r.lines))).getLast? <;>
    by_cases hu : Cmd.update ∈ sinceReset (commands r.lines) <;> simp [hu, Function.comp_def]


theorem take_range (s k j : Nat) : (List.range' s (k + j)).take k = List.range' s k := by
  have h := List.range'_append_1 s k j
  rw [Nat.add_comm j k] at h
  rw [← h]
  exact List.take_left' (List.length_range' _ _ _)

theorem groupOf_range (s k : Nat) :
    (if (([] : List (Option Ptr)) ++ (List.range' s k).map some).length > 0
      then some (([] : List (Option Ptr)) ++ (List.range' s k).map some) else none) =
      groupOf (List.range' s k) := by
  unfold groupOf
  cases k with
  | zero => rfl
  | succ k => simp [List.range'_succ]


/-- The scanning loop run up to the first malformed line. -/
theorem scanLoop_first_invalid (h : Heap) (p : Parser) (pre post : List (List Char))
    (bad : List Char) (hpre : ∀ text ∈ pre, ¬ InvalidLine text) (hbad : InvalidLine bad) :
    ∃ msg, Parser.scanLoop h p 0 (pre ++ bad :: post) =
      ((execAll h p (commandsRead pre)).1, (execAll h p (commandsRead pre)).2,
        some ("line " ++ toString (pre.length + 1) ++ ": " ++ msg)) := by
  rw [scanLoop_accepted pre (bad :: post) h p 0 hpre, Nat.zero_add]
  obtain ⟨e, _, he⟩ := scanLoop_invalid bad post (execAll h p (commandsRead pre)).1
    (execAll h p (commandsRead pre)).2 pre.length hbad
  exact ⟨e, he⟩

/-- `Parse` on lines none of which is malformed, read without a scanner error. -/
theorem Parse_accepted (h : Heap) (p : Parser) (lines : List (List Char))
    (hacc : ∀ text ∈ lines, ¬ InvalidLine text) :
    Parser.Parse h p (some ⟨lines, none⟩) =
      ⟨(execAll h p.initialize (commandsRead lines)).1,
        (execAll h p.initialize (commandsRead lines)).2.finalResult.1,
        .ok (execAll h p.initialize (commandsRead lines)).2.finalResult.2⟩ := by
  have hloop := scanLoop_accepted lines [] h p.initialize 0 hacc
  rw [List.append_nil] at hloop
  simp only [Parser.Parse, hloop, Parser.scanLoop]

/-- `Parse` on lines the first malformed of which is `bad`. -/
theorem Parse_first_invalid (h : Heap) (p : Parser) (pre post : List (List Char))
    (bad : List Char) (err : Option String)
    (hpre : ∀ text ∈ pre, ¬ InvalidLine text) (hbad : InvalidLine bad) :
    ∃ msg, Parser.Parse h p (some ⟨pre ++ bad :: post, err⟩) =
      ⟨(execAll h p.initialize (commandsRead pre)).1,
        (execAll h p.initialize (commandsRead pre)).2,
        .error ("line " ++ toString (pre.length + 1) ++ ": " ++ msg)⟩ := by
  obtain ⟨msg, hm⟩ := scanLoop_first_invalid h p.initialize pre post bad hpre hbad
  exact ⟨msg, by simp only [Parser.Parse, hm]⟩


/-- Arguments beyond the arity of the instruction are not read. -/
theorem readFields_surplus (ins : List Char) (args : List (List Char)) (n : Nat)
    (ha : arity ins = some n) (hn : n ≤ args.length) :
    readFields (ins :: args.take n) = readFields (ins :: args) := by
  have htake : ∀ k, k ≤ args.length → (args.take k).length = k := by
    intro k hk
    rw [List.length_take]
    omega
  unfold arity at ha
  simp only [readFields]
  by_cases h1 : ins = "white".toList
  · simp only [if_pos h1]
  by_cases h2 : ins = "green".toList
  · simp only [if_neg h1, if_pos h2]
  by_cases h3 : ins = "bgrect".toList
  · simp only [if_neg h1, if_neg h2, if_pos h3, Option.some.injEq] at ha ⊢
    subst ha
    rw [htake 4 hn, List.take_take, Nat.min_self]
    simp only [Nat.lt_irrefl, if_false, show ¬ args.length < 4 by omega]
  by_cases h4 : ins = "figure".toList
  · simp only [if_neg h1, if_neg h2, if_neg h3, if_pos h4, Option.some.injEq] at ha ⊢
    subst ha
    rw [htake 2 hn, List.take_take, Nat.min_self]
    simp only [Nat.lt_irrefl, if_false, show ¬ args.length < 2 by omega]
  by_cases h5 : ins = "move".toList
  · simp only [if_neg h1, if_neg h2, if_neg h3, if_neg h4, if_pos h5, Option.some.injEq] at ha ⊢
    subst ha
    rw [htake 2 hn, List.take_take, Nat.min_self]
    simp only [Nat.lt_irrefl, if_false, show ¬ args.length < 2 by omega]
  by_cases h6 : ins = "reset".toList
  · simp only [if_neg h1, if_neg h2, if_neg h3, if_neg h4, if_neg h5, if_pos h6]
  by_cases h7 : ins = "update".toList
  · simp only [if_neg h1, if_neg h2, if_neg h3, if_neg h4, if_neg h5, if_neg h6, if_pos h7]
  simp only [if_neg h1, if_neg h2, if_neg h3, if_neg h4, if_neg h5, if_neg h6, if_neg h7]

/-- Two lines that are both not ignored and are read alike by `readFields` are
interchangeable in the scanning loop. -/
theorem scanLoop_congr (h : Heap) (p : Parser) (n : Nat) (pre post : List (List Char))
    (t1 t2 : List Char) (h1 : ¬ Ignored t1) (h2 : ¬ Ignored t2)
    (hr : readFields (Fields (TrimSpace t1)) = readFields (Fields (TrimSpace t2))) :
    Parser.scanLoop h p n (pre ++ t1 :: post) = Parser.scanLoop h p n (pre ++ t2 :: post) := by
  induction pre generalizing h p n with
  | nil =>
    simp only [List.nil_append, Parser.scanLoop]
    rw [if_neg (fun hs => h1 ((ignored_iff_skipped t1).mp hs)),
      if_neg (fun hs => h2 ((ignored_iff_skipped t2).mp hs)),
      parse_eq_readFields, parse_eq_readFields, hr]
  | cons t pre ih =>
    simp only [List.cons_append, Parser.scanLoop, List.append_eq]
    split
    · exact ih h p (n + 1)
    · cases p.parse h (TrimSpace t) with
      | error e => rfl
      | ok st => exact ih st.1 st.2 (n + 1)


theorem initialize_figures (p : Parser) : p.initialize.figures = p.figures := by
  unfold Parser.initialize
  simp only []
  split_ifs <;> rfl

/-- `Parse` of an empty input returns every figure the parser holds. -/
theorem Parse_empty_emits_figures (h : Heap) (p : Parser) :
    ∃ ops : List Operation,
      (Parser.Parse h p (some ⟨[], none⟩)).result = .ok ops ∧
      ∀ f ∈ p.figures, Operation.figure f ∈ ops := by
  refine ⟨_, rfl, ?_⟩
  intro f hf
  simp only [Parser.scanLoop, finalResult_list, initialize_figures, List.mem_append, List.mem_map]
  exact Or.inl (Or.inr ⟨f, hf, rfl⟩)

theorem figuresIn_fill (x : Option OpFunc) (fn : OpFunc) :
    figuresIn ((x.map Operation.func).or (some (.func fn))).toList = [] := by
  cases x <;> rfl

theorem movesIn_fill (x : Option OpFunc) (fn : OpFunc) :
    movesIn ((x.map Operation.func).or (some (.func fn))).toList = [] := by
  cases x <;> rfl

theorem figuresIn_rects (l : List BgRectangle) :
    figuresIn (l.map (fun r => Operation.bgRect (some r))) = [] := by
  induction l with
  | nil => rfl
  | cons a l ih => simp only [figuresIn, List.map_cons, List.filterMap_cons] at ih ⊢; rw [ih]

theorem movesIn_rects (l : List BgRectangle) :
    movesIn (l.map (fun r => Operation.bgRect (some r))) = [] := by
  induction l with
  | nil => rfl
  | cons a l ih => simp only [movesIn, List.map_cons, List.filterMap_cons] at ih ⊢; rw [ih]

theorem figuresIn_update (c : Prop) [Decidable c] :
    figuresIn (if c then some UpdateOp else none).toList = [] := by
  split <;> rfl

theorem movesIn_update (c : Prop) [Decidable c] :
    movesIn (if c then some UpdateOp else none).toList = [] := by
  split <;> rfl

/-- The parser a fresh parser is after `Parse` of a valid stream. -/
theorem Parse_valid_state (h : Heap) (r : Reader) (hv : ValidStream r) :
    (Parser.Parse h Parser.fresh (some r)).parser =
      { lastBgColor := some (.func
          ((declaredFills (sinceReset (commands r.lines))).getLast?.getD OpFunc.ResetScreen))
        lastBgRect := (declaredRects (sinceReset (commands r.lines))).getLast?
        figures :=
          (List.range' (h.length + (declaredFigures (uptoReset (commands r.lines))).length)
            (declaredFigures (sinceReset (commands r.lines))).length).map some
        moveOps := []
        updateOp := if Cmd.update ∈ sinceReset (commands r.lines) then some UpdateOp else none } := by
  rw [Parse_valid h Parser.fresh r hv]
  simp only [execAll_since h Parser.fresh.initialize _ (Or.inl rfl), Parser.finalResult]

/-- The figures and moves `Parse` returns for a valid stream without `reset`,
from a parser whose fill is a fill function and that holds no move. -/
theorem Parse_resetFree_again (h : Heap) (p : Parser) (r : Reader) (hv : ValidStream r)
    (hr : Cmd.reset ∉ commands r.lines) (fn : OpFunc) (known : List Ptr)
    (hc : p.lastBgColor = some (.func fn)) (hf : p.figures = known.map some)
    (hm : p.moveOps = []) :
    ∃ ops : List Operation,
      (Parser.Parse h p (some r)).result = .ok ops ∧
      figuresIn ops = known ++ List.range' h.length (declaredFigures (commands r.lines)).length ∧
      movesIn ops = movesFrom (known.map some) h.length (commands r.lines) := by
  obtain ⟨c, rect, figs, mv, u⟩ := p
  simp only at hc hf hm
  subst hc hf hm
  have hi : ∀ u : Option Operation,
      Parser.initialize (Parser.mk (some (.func fn)) rect (known.map some) [] u) =
        Parser.mk (some (.func fn)) rect (known.map some) [] none := by
    intro u
    cases u <;> rfl
  rw [Parse_valid h _ r hv, hi, execAll_resetFree h _ _ hr]
  refine ⟨_, rfl, ?_, ?_⟩
  · simp only [finalResult_list, figuresIn_append, movesIn_append, List.nil_append,
      List.map_append, List.map_map]
    simp only [figuresIn_fill, figuresIn_rects, figuresIn_moves, figuresIn_update,
      Function.comp_def, figuresIn_map, List.nil_append, List.append_nil]
  · simp only [finalResult_list, figuresIn_append, movesIn_append, List.nil_append,
      List.map_append, List.map_map]
    simp only [movesIn_fill, movesIn_rects, movesIn_map, movesIn_update,
      Function.comp_def, movesIn_figures, List.nil_append, List.append_nil]



theorem figuresIn_valid_result (fn : OpFunc) (cs : List Cmd) (ms : List Move) (ptrs : List Ptr) :
    figuresIn (Operation.func fn ::
      (rectOps cs ++ ms.map (fun m => Operation.move (some m)) ++
        ptrs.map (fun a => Operation.figure (some a)) ++ updateOps cs)) = ptrs := by
  simp only [figuresIn_append, figuresIn_rectOps, figuresIn_map, figuresIn_moves,
    figuresIn_updateOps, List.nil_append, List.append_nil,
    show ∀ f l, figuresIn (Operation.func f :: l) = figuresIn l from fun _ _ => rfl]

theorem movesIn_valid_result (fn : OpFunc) (cs : List Cmd) (ms : List Move) (ptrs : List Ptr) :
    movesIn (Operation.func fn ::
      (rectOps cs ++ ms.map (fun m => Operation.move (some m)) ++
        ptrs.map (fun a => Operation.figure (some a)) ++ updateOps cs)) = ms := by
  simp only [movesIn_append, movesIn_rectOps, movesIn_map, movesIn_figures,
    movesIn_updateOps, List.nil_append, List.append_nil,
    show ∀ f l, movesIn (Operation.func f :: l) = movesIn l from fun _ _ => rfl]

/-- The scanning loop is `scanCore` with the line number put before the error. -/
theorem scanLoop_eq_scanCore (h : Heap) (p : Parser) (n : Nat) (lines : List (List Char)) :
    ∃ k : Nat, Parser.scanLoop h p n lines =
      ((scanCore h p lines).1, (scanCore h p lines).2.1,
        (scanCore h p lines).2.2.map (fun e => "line " ++ toString k ++ ": " ++ e)) := by
  induction lines generalizing h p n with
  | nil => exact ⟨0, rfl⟩
  | cons text rest ih =>
    simp only [Parser.scanLoop, scanCore]
    by_cases hi : Ignored text
    · rw [if_pos ((ignored_iff_skipped text).mpr hi), if_pos hi]
      exact ih h p (n + 1)
    · rw [if_neg (fun hs => hi ((ignored_iff_skipped text).mp hs)), if_neg hi,
        parse_eq_readFields]
      cases hr : readFields (Fields (TrimSpace text)) with
      | error e => exact ⟨n + 1, rfl⟩
      | ok oc =>
        cases oc with
        | none => exact ih h p (n + 1)
        | some c => exact ih _ _ (n + 1)

theorem scanCore_significant (h : Heap) (p : Parser) (lines : List (List Char)) :
    scanCore h p (significant lines) = scanCore h p lines := by
  induction lines generalizing h p with
  | nil => rfl
  | cons text rest ih =>
    by_cases hi : Ignored text
    · simp only [significant, List.filter_cons, hi, not_true_eq_false, decide_False,
        Bool.false_eq_true, if_false, scanCore, if_true] at ih ⊢
      exact ih h p
    · simp only [significant, List.filter_cons, hi, not_false_eq_true, decide_True, if_true,
        scanCore, if_false] at ih ⊢
      cases readFields (Fields (TrimSpace text)) with
      | error e => rfl
      | ok oc =>
        cases oc with
        | none => exact ih h p
        | some c => exact ih _ _

theorem movesFrom_rebase (k : Nat) (known : List (Option Ptr)) (next : Ptr) (cs : List Cmd) :
    movesFrom (known.map (fun o => o.map (fun a => a + k))) (next + k) cs =
      (movesFrom known next cs).map (Move.rebase k) := by
  induction cs generalizing known next with
  | nil => rfl
  | cons c cs ih =>
    cases c with
    | figure x y =>
      have := ih (known ++ [some next]) (next + 1)
      simp only [List.map_append, List.map_cons, List.map_nil, Option.map_some'] at this
      simp only [movesFrom]
      rw [Nat.add_right_comm next k 1]
      exact this
    | move dx dy =>
      simp only [movesFrom, List.map_cons, ih, List.length_map, Move.rebase]
      congr 2
      split <;> rfl
    | white => exact ih known next
    | green => exact ih known next
    | bgrect a b c d => exact ih known next
    | reset => exact ih known next
    | update => exact ih known next

theorem range_rebase (k b n : Nat) :
    List.range' (b + k) n = (List.range' b n).map (fun a => a + k) := by
  induction n generalizing b with
  | zero => rfl
  | succ n ih =>
    simp only [List.range'_succ, List.map_cons, List.cons.injEq, true_and]
    rw [Nat.add_right_comm b k 1]
    exact ih (b + 1)

theorem rectOps_rebase (k : Nat) (cs : List Cmd) :
    (rectOps cs).map (Operation.rebase k) = rectOps cs := by
  unfold rectOps; split <;> rfl

theorem updateOps_rebase (k : Nat) (cs : List Cmd) :
    (updateOps cs).map (Operation.rebase k) = updateOps cs := by
  unfold updateOps; split <;> rfl

theorem uptoReset_prefix (pre suf : List Cmd) :
    uptoReset (pre ++ Cmd.reset :: suf) = pre ++ uptoReset (Cmd.reset :: suf) ∧
      sinceReset (pre ++ Cmd.reset :: suf) = sinceReset (Cmd.reset :: suf) := by
  rcases reset_split suf with hn | ⟨a, b, he, hb⟩
  · have u := uptoReset_split [] suf hn
    have v := sinceReset_split [] suf hn
    rw [List.nil_append] at u v
    rw [uptoReset_split pre suf hn, sinceReset_split pre suf hn, u, v]
    exact ⟨rfl, rfl⟩
  · subst he
    have e1 : pre ++ Cmd.reset :: (a ++ Cmd.reset :: b) =
        (pre ++ Cmd.reset :: a) ++ Cmd.reset :: b := by simp
    have e2 : Cmd.reset :: (a ++ Cmd.reset :: b) = (Cmd.reset :: a) ++ Cmd.reset :: b := by simp
    rw [e1, e2, uptoReset_split _ b hb, sinceReset_split _ b hb,
      uptoReset_split (Cmd.reset :: a) b hb, sinceReset_split (Cmd.reset :: a) b hb]
    simp

theorem declaredFills_append (cs ds : List Cmd) :
    declaredFills (cs ++ ds) = declaredFills cs ++ declaredFills ds := by
  simp only [declaredFills, List.filterMap_append]

theorem declaredRects_append (cs ds : List Cmd) :
    declaredRects (cs ++ ds) = declaredRects cs ++ declaredRects ds := by
  simp only [declaredRects, List.filterMap_append]

/-- The last fill asked for after the last `reset` is the last fill asked for. -/
theorem lastFill_sinceReset (cs : List Cmd) :
    (declaredFills (sinceReset cs)).getLast?.getD OpFunc.ResetScreen =
      (declaredFills cs).getLast?.getD OpFunc.ResetScreen := by
  rcases reset_split cs with hn | ⟨pre, post, he, hp⟩
  · rw [sinceReset_of_not_mem cs hn]
  · subst he
    rw [sinceReset_split pre post hp, declaredFills_append, List.getLast?_append]
    have : declaredFills (Cmd.reset :: post) = OpFunc.ResetScreen :: declaredFills post := rfl
    rw [this, List.getLast?_cons]
    cases (declaredFills post).getLast? <;> rfl

/-- A rectangle set after the last `reset` is the last rectangle set. -/
theorem lastRect_sinceReset (cs : List Cmd) (rect : BgRectangle)
    (hr : (declaredRects (sinceReset cs)).getLast? = some rect) :
    (declaredRects cs).getLast? = some rect := by
  rcases reset_split cs with hn | ⟨pre, post, he, hp⟩
  · rwa [sinceReset_of_not_mem cs hn] at hr
  · subst he
    rw [sinceReset_split pre post hp] at hr
    have : declaredRects (Cmd.reset :: post) = declaredRects post := rfl
    rw [declaredRects_append, List.getLast?_append, this, hr]
    rfl

theorem fillsIn_valid_result (fn : OpFunc) (cs : List Cmd) (ms : List Move) (ptrs : List Ptr) :
    fillsIn (Operation.func fn ::
      (rectOps cs ++ ms.map (fun m => Operation.move (some m)) ++
        ptrs.map (fun a => Operation.figure (some a)) ++ updateOps cs)) = [fn] := by
  have h1 : fillsIn (rectOps cs) = [] := by unfold rectOps; split <;> rfl
  have h2 : fillsIn (updateOps cs) = [] := by unfold updateOps; split <;> rfl
  have h3 : fillsIn (ms.map (fun m => Operation.move (some m))) = [] := by
    induction ms with
    | nil => rfl
    | cons a l ih => simp only [fillsIn, List.map_cons, List.filterMap_cons] at ih ⊢; rw [ih]
  have h4 : fillsIn (ptrs.map (fun a => Operation.figure (some a))) = [] := by
    induction ptrs with
    | nil => rfl
    | cons a l ih => simp only [fillsIn, List.map_cons, List.filterMap_cons] at ih ⊢; rw [ih]
  have happ : ∀ a b, fillsIn (a ++ b) = fillsIn a ++ fillsIn b := by
    intro a b; simp only [fillsIn, List.filterMap_append]
  have hcons : ∀ f l, fillsIn (Operation.func f :: l) = f :: fillsIn l := fun _ _ => rfl
  simp only [hcons, happ, h1, h2, h3, h4, List.append_nil]

theorem rectsIn_valid_result (fn : OpFunc) (cs : List Cmd) (ms : List Move) (ptrs : List Ptr) :
    rectsIn (Operation.func fn ::
      (rectOps cs ++ ms.map (fun m => Operation.move (some m)) ++
        ptrs.map (fun a => Operation.figure (some a)) ++ updateOps cs)) =
      (declaredRects cs).getLast?.toList := by
  have h1 : rectsIn (rectOps cs) = (declaredRects cs).getLast?.toList := by
    unfold rectOps; split <;> simp_all [rectsIn]
  have h2 : rectsIn (updateOps cs) = [] := by unfold updateOps; split <;> rfl
  have h3 : rectsIn (ms.map (fun m => Operation.move (some m))) = [] := by
    induction ms with
    | nil => rfl
    | cons a l ih => simp only [rectsIn, List.map_cons, List.filterMap_cons] at ih ⊢; rw [ih]
  have h4 : rectsIn (ptrs.map (fun a => Operation.figure (some a))) = [] := by
    induction ptrs with
    | nil => rfl
    | cons a l ih => simp only [rectsIn, List.map_cons, List.filterMap_cons] at ih ⊢; rw [ih]
  have happ : ∀ a b, rectsIn (a ++ b) = rectsIn a ++ rectsIn b := by
    intro a b; simp only [rectsIn, List.filterMap_append]
  have hcons : ∀ f l, rectsIn (Operation.func f :: l) = rectsIn l := fun _ _ => rfl
  simp only [hcons, happ, h1, h2, h3, h4, List.append_nil]

theorem initialize_wellFormed (p : Parser) (hw : p.WellFormed) :
    ∃ fn, p.initialize = ⟨some (.func fn), p.lastBgRect, p.figures, p.moveOps, none⟩ := by
  obtain ⟨c, rect, figs, mv, u⟩ := p
  obtain ⟨hc, _, _⟩ := hw
  cases c with
  | none => exact ⟨OpFunc.ResetScreen, by cases u <;> rfl⟩
  | some o =>
    obtain ⟨f, hf⟩ := hc o rfl
    subst hf
    exact ⟨f, by cases u <;> rfl⟩

/-- The list `Parse` returns for a valid stream, from a parser in a state the
parser's code can leave: operations that are not the update signal, then the
update signal if an `update` line follows the last `reset`. -/
theorem Parse_valid_shape (h : Heap) (p : Parser) (r : Reader) (hw : p.WellFormed)
    (hv : ValidStream r) :
    ∃ front : List Operation,
      (Parser.Parse h p (some r)).result =
        .ok (front ++ updateOps (sinceReset (commands r.lines))) ∧
      Operation.update ∉ front := by
  by_cases hm : Cmd.reset ∈ commands r.lines
  · obtain ⟨_, hres⟩ := Parse_valid_result h p r hv (Or.inr hm)
    refine ⟨Operation.func
        ((declaredFills (sinceReset (commands r.lines))).getLast?.getD OpFunc.ResetScreen) ::
      (rectOps (sinceReset (commands r.lines)) ++
        (movesFrom [] (h.length + (declaredFigures (uptoReset (commands r.lines))).length)
          (sinceReset (commands r.lines))).map (fun m => Operation.move (some m)) ++
        (List.range' (h.length + (declaredFigures (uptoReset (commands r.lines))).length)
          (declaredFigures (sinceReset (commands r.lines))).length).map
            (fun a => Operation.figure (some a))), ?_, ?_⟩
    · rw [hres]
      simp only [List.cons_append, List.append_assoc]
    · have hrect : Operation.update ∉ rectOps (sinceReset (commands r.lines)) := by
        unfold rectOps
        split <;> simp
      simp [hrect]
  · obtain ⟨fn, hi⟩ := initialize_wellFormed p hw
    have hupd : (if Cmd.update ∈ commands r.lines then some UpdateOp else none).toList =
        updateOps (commands r.lines) := by
      unfold updateOps
      split <;> rfl
    rw [Parse_valid h p r hv, hi, execAll_resetFree h _ _ hm, sinceReset_of_not_mem _ hm]
    simp only [finalResult_list, hupd]
    refine ⟨_, rfl, ?_⟩
    have hmv : Operation.update ∉ p.moveOps := by
      intro hmem
      obtain ⟨m, hmm⟩ := hw.2.1 _ hmem
      cases hmm
    have hfill : Operation.update ∉
        ((Option.map Operation.func (declaredFills (commands r.lines)).getLast?).or
          (some (Operation.func fn))).toList := by
      cases (declaredFills (commands r.lines)).getLast? <;> simp
    simp [hmv, hfill]



theorem fresh_wellFormed : Parser.fresh.WellFormed := by
  refine ⟨?_, ?_, Or.inl rfl⟩
  · intro o ho; cases ho
  · intro o ho; cases ho

theorem exec_wellFormed (c : Cmd) (h : Heap) (p : Parser) (hw : p.WellFormed) :
    (c.exec h p).2.WellFormed := by
  obtain ⟨h1, h2, h3⟩ := hw
  cases c with
  | white => exact ⟨fun o ho => ⟨_, (Option.some.inj ho).symm⟩, h2, h3⟩
  | green => exact ⟨fun o ho => ⟨_, (Option.some.inj ho).symm⟩, h2, h3⟩
  | bgrect a b c d => exact ⟨h1, h2, h3⟩
  | figure x y => exact ⟨h1, h2, h3⟩
  | move dx dy =>
    refine ⟨h1, ?_, h3⟩
    intro o ho
    rcases List.mem_append.mp ho with ho | ho
    · exact h2 o ho
    · exact ⟨_, List.mem_singleton.mp ho⟩
  | reset =>
    exact ⟨fun o ho => ⟨_, (Option.some.inj ho).symm⟩, fun o ho => (by cases ho), Or.inl rfl⟩
  | update => exact ⟨h1, h2, Or.inr rfl⟩

theorem scanLoop_wellFormed (h : Heap) (p : Parser) (n : Nat) (lines : List (List Char))
    (hw : p.WellFormed) : (Parser.scanLoop h p n lines).2.1.WellFormed := by
  induction lines generalizing h p n with
  | nil => exact hw
  | cons text rest ih =>
    simp only [Parser.scanLoop]
    split
    · exact ih h p (n + 1) hw
    · rw [parse_eq_readFields]
      cases readFields (Fields (TrimSpace text)) with
      | error e => exact hw
      | ok oc =>
        cases oc with
        | none => exact ih h p (n + 1) hw
        | some c => exact ih _ _ (n + 1) (exec_wellFormed c h p hw)

/-- Every `Parse` call leaves the parser in a well-formed state, so every state
reached from a fresh parser is well formed. -/
theorem Parse_wellFormed (h : Heap) (p : Parser) (input : Option Reader) (hw : p.WellFormed) :
    (Parser.Parse h p input).parser.WellFormed := by
  cases input with
  | none => exact hw
  | some r =>
    obtain ⟨fn, hi⟩ := initialize_wellFormed p hw
    have hwi : p.initialize.WellFormed := by
      rw [hi]
      exact ⟨fun o ho => ⟨fn, (Option.some.inj ho).symm⟩, hw.2.1, Or.inl rfl⟩
    have hs := scanLoop_wellFormed h p.initialize 0 r.lines hwi
    unfold Parser.Parse
    simp only []
    rcases hl : Parser.scanLoop h p.initialize 0 r.lines with ⟨h1, p1, e⟩
    rw [hl] at hs
    cases e with
    | some msg => exact hs
    | none =>
      cases r.err with
      | some msg => exact hs
      | none => exact ⟨hs.1, fun o ho => (by cases ho), hs.2.2⟩

end lang
/-! ## The scanner on texts -/

namespace gostd

theorem scanTokens_cons_long (l : List Char) (ls : List (List Char))
    (hl : MaxScanTokenSize ≤ byteLen l) :
    scanTokens (l :: ls) = ⟨[], some "bufio.Scanner: token too long"⟩ := by
  rw [scanTokens, if_pos hl]

theorem scanTokens_cons_short (l : List Char) (ls : List (List Char))
    (hl : byteLen l < MaxScanTokenSize) :
    scanTokens (l :: ls) = ⟨dropCR l :: (scanTokens ls).lines, (scanTokens ls).err⟩ := by
  rw [scanTokens, if_neg (by omega)]

/-- The scanner delivers the lines before the first one that does not fit. -/
theorem scanTokens_append_short (pre rest : List (List Char))
    (hpre : ∀ l ∈ pre, byteLen l < MaxScanTokenSize) :
    scanTokens (pre ++ rest) =
      ⟨pre.map dropCR ++ (scanTokens rest).lines, (scanTokens rest).err⟩ := by
  induction pre with
  | nil => rfl
  | cons l pre ih =>
    rw [List.cons_append, scanTokens_cons_short _ _ (hpre l (List.mem_cons_self _ _)),
      ih (fun x hx => hpre x (List.mem_cons_of_mem _ hx))]
    rfl

/-- A text all of whose lines fit is delivered whole. -/
theorem scanTokens_all_short (ls : List (List Char))
    (hls : ∀ l ∈ ls, byteLen l < MaxScanTokenSize) :
    scanTokens ls = ⟨ls.map dropCR, none⟩ := by
  have := scanTokens_append_short ls [] hls
  rw [List.append_nil] at this
  rw [this]
  simp [scanTokens]

theorem rawLinesFrom_append_newline (cur l rest : List Char) (hl : '\n' ∉ l) :
    rawLinesFrom cur (l ++ '\n' :: rest) = (cur.reverse ++ l) :: rawLinesFrom [] rest := by
  induction l generalizing cur with
  | nil => simp [rawLinesFrom]
  | cons c l ih =>
    have hc : c ≠ '\n' := fun e => hl (e ▸ List.mem_cons_self _ _)
    have hl2 : '\n' ∉ l := fun e => hl (List.mem_cons_of_mem _ e)
    rw [List.cons_append, rawLinesFrom, if_neg hc, ih _ hl2]
    simp

theorem byteLen_replicate_space (n : Nat) : byteLen (List.replicate n ' ') = n := by
  induction n with
  | zero => rfl
  | succ n ih =>
    have h1 : Char.utf8Size ' ' = 1 := by decide
    unfold byteLen at ih ⊢
    rw [List.replicate_succ, List.map_cons, List.sum_cons, ih, h1, Nat.add_comm]

theorem TrimSpace_of_all_space (l : List Char) (hl : ∀ c ∈ l, isSpace c = true) :
    TrimSpace l = [] := by
  unfold TrimSpace
  rw [List.dropWhile_eq_nil_iff.mpr hl]
  rfl

theorem mem_dropCR (l : List Char) (c : Char) (hc : c ∈ dropCR l) : c ∈ l := by
  unfold dropCR at hc
  split at hc
  · exact List.mem_of_mem_dropLast hc
  · exact hc

/-- A list with an element that has a property splits at the first such element. -/
theorem exists_first {α : Type} (P : α → Prop) (L : List α) (h : ∃ x ∈ L, P x) :
    ∃ (a : List α) (x : α) (b : List α), L = a ++ x :: b ∧ P x ∧ ∀ y ∈ a, ¬ P y := by
  induction L with
  | nil =>
    obtain ⟨x, hx, _⟩ := h
    cases hx
  | cons z L ih =>
    by_cases hz : P z
    · exact ⟨[], z, L, rfl, hz, fun y hy => by cases hy⟩
    · have h2 : ∃ x ∈ L, P x := by
        obtain ⟨x, hx, hp⟩ := h
        rcases List.mem_cons.mp hx with e | e
        · exact absurd (e ▸ hp) hz
        · exact ⟨x, e, hp⟩
      obtain ⟨a, x, b, e, hp, ha⟩ := ih h2
      refine ⟨z :: a, x, b, by rw [e]; rfl, hp, ?_⟩
      intro y hy
      rcases List.mem_cons.mp hy with e2 | e2
      · exact e2 ▸ hz
      · exact ha y e2

end gostd

namespace lang

open gostd painter

theorem longBlank_byteLen : byteLen longBlank = 65536 := byteLen_replicate_space 65536

theorem longBlank_no_newline : '\n' ∉ longBlank := by
  intro h
  have := (List.mem_replicate.mp h).2
  revert this
  decide

theorem longBlank_ignored : Ignored (dropCR longBlank) := by
  left
  apply TrimSpace_of_all_space
  intro c hc
  have := (List.mem_replicate.mp (mem_dropCR _ _ hc)).2
  rw [this]
  decide

/-- The physical lines of a text that starts with the long blank line. -/
theorem rawLines_longBlank (rest : List Char) :
    rawLines (longBlank ++ '\n' :: rest) = longBlank :: rawLines rest := by
  unfold rawLines
  rw [rawLinesFrom_append_newline [] longBlank rest longBlank_no_newline]
  rfl

/-- The scanner gives up on a text that starts with the long blank line. -/
theorem NewReader_longBlank (rest : List Char) :
    NewReader (String.mk (longBlank ++ '\n' :: rest)) =
      ⟨[], some "bufio.Scanner: token too long"⟩ := by
  unfold NewReader
  rw [show (String.mk (longBlank ++ '\n' :: rest)).toList = longBlank ++ '\n' :: rest from rfl,
    rawLines_longBlank, scanTokens_cons_long]
  rw [longBlank_byteLen]
  decide

/-- `Parse` on lines none of which is malformed, when the scanner then reports
an error. -/
theorem Parse_scanner_error (h : Heap) (p : Parser) (lines : List (List Char)) (e : String)
    (hacc : ∀ text ∈ lines, ¬ InvalidLine text) :
    (Parser.Parse h p (some ⟨lines, some e⟩)).result = .error ("scanner error: " ++ e) := by
  have hloop := scanLoop_accepted lines [] h p.initialize 0 hacc
  rw [List.append_nil] at hloop
  simp only [Parser.Parse, hloop, Parser.scanLoop]

/-- The lines delivered and the lines of the text that are not ignored: the
scanner delivers the same significant lines and meets the same error as on
the text without its ignored lines, when those fit the buffer. -/
theorem scanTokens_commandLines (ls : List (List Char))
    (hig : ∀ l ∈ ls, Ignored (dropCR l) → byteLen l < MaxScanTokenSize) :
    significant (scanTokens ls).lines =
        (scanTokens (ls.filter (fun l => decide (¬ Ignored (dropCR l))))).lines ∧
      (scanTokens ls).err =
        (scanTokens (ls.filter (fun l => decide (¬ Ignored (dropCR l))))).err := by
  induction ls with
  | nil => exact ⟨rfl, rfl⟩
  | cons l ls ih =>
    obtain ⟨ih1, ih2⟩ := ih (fun x hx => hig x (List.mem_cons_of_mem _ hx))
    by_cases hi : Ignored (dropCR l)
    · have hs := hig l (List.mem_cons_self _ _) hi
      rw [scanTokens_cons_short l ls hs]
      simp only [List.filter_cons, hi, not_true_eq_false, decide_False, Bool.false_eq_true,
        if_false, significant]
      exact ⟨ih1, ih2⟩
    · simp only [List.filter_cons, hi, not_false_eq_true, decide_True, if_true]
      by_cases hlong : MaxScanTokenSize ≤ byteLen l
      · rw [scanTokens_cons_long l _ hlong, scanTokens_cons_long l _ hlong]
        exact ⟨rfl, rfl⟩
      · rw [scanTokens_cons_short l _ (by omega), scanTokens_cons_short l _ (by omega)]
        simp only [significant, List.filter_cons, hi, not_false_eq_true, decide_True, if_true]
        exact ⟨by rw [← ih1]; rfl, ih2⟩

/-- `Parse` depends on the lines that are not ignored and on the scanner's
error only, but for the line number an error names. -/
theorem Parse_significant (h : Heap) (p : Parser) (r1 r2 : Reader)
    (hsame : significant r1.lines = significant r2.lines) (herr : r1.err = r2.err) :
    (Parser.Parse h p (some r1)).heap = (Parser.Parse h p (some r2)).heap ∧
    (Parser.Parse h p (some r1)).parser = (Parser.Parse h p (some r2)).parser ∧
    ((Parser.Parse h p (some r1)).result = (Parser.Parse h p (some r2)).result ∨
      ∃ (k1 k2 : Nat) (msg : String),
        (Parser.Parse h p (some r1)).result =
          .error ("line " ++ toString k1 ++ ": " ++ msg) ∧
        (Parser.Parse h p (some r2)).result =
          .error ("line " ++ toString k2 ++ ": " ++ msg)) := by
  obtain ⟨l1, err1⟩ := r1
  obtain ⟨l2, err⟩ := r2
  simp only at hsame herr
  subst herr
  obtain ⟨k1, e1⟩ := scanLoop_eq_scanCore h p.initialize 0 l1
  obtain ⟨k2, e2⟩ := scanLoop_eq_scanCore h p.initialize 0 l2
  have hcore : scanCore h p.initialize l1 = scanCore h p.initialize l2 := by
    rw [← scanCore_significant h p.initialize l1, ← scanCore_significant h p.initialize l2, hsame]
  rw [hcore] at e1
  cases hc : (scanCore h p.initialize l2).2.2 with
  | none =>
    rw [hc] at e1 e2
    cases err1 <;> simp [Parser.Parse, e1, e2]
  | some msg =>
    rw [hc] at e1 e2
    refine ⟨?_, ?_, Or.inr ⟨k1, k2, msg, ?_, ?_⟩⟩ <;> simp [Parser.Parse, e1, e2]

end lang


/-! ## Arithmetic of `int` -/

namespace gostd

theorem wrapInt_of_isInt {v : Int} (h : IsInt v) : wrapInt v = v := by
  unfold wrapInt
  unfold IsInt at h
  simp only [minInt, maxInt] at *
  omega

theorem wrapInt_isInt (v : Int) : IsInt (wrapInt v) := by
  unfold wrapInt IsInt
  simp only [minInt, maxInt]
  omega

theorem wrapInt_add_wrapInt (a b : Int) : wrapInt (wrapInt a + b) = wrapInt (a + b) := by
  unfold wrapInt
  simp only [minInt]
  omega

end gostd

/-! ## Geometry of the drawing operations -/

namespace painter

theorem Rectangle.overlaps_iff (a b : Rectangle) :
    a.Overlaps b ↔
      (max a.MinX b.MinX < min a.MaxX b.MaxX ∧ max a.MinY b.MinY < min a.MaxY b.MaxY) := by
  constructor
  · rintro ⟨x, y, ha, hb⟩
    simp only [Rectangle.Has] at ha hb
    constructor <;> simp only [lt_min_iff, max_lt_iff] <;> omega
  · intro ⟨hx, hy⟩
    refine ⟨max a.MinX b.MinX, max a.MinY b.MinY, ?_, ?_⟩ <;>
      simp only [Rectangle.Has] <;> simp only [lt_min_iff, max_lt_iff] at hx hy <;>
      refine ⟨?_, ?_, ?_, ?_⟩ <;> simp only [le_max_iff, max_lt_iff] <;> omega

theorem isRectVisible_iff_overlaps (x1 y1 x2 y2 : Int) (b : Rectangle)
    (hb : b.NonEmpty) (hx : x1 < x2) (hy : y1 < y2) :
    isRectVisible x1 y1 x2 y2 b = true ↔ (Rectangle.mk x1 y1 x2 y2).Overlaps b := by
  rw [Rectangle.overlaps_iff]
  simp only [isRectVisible, Bool.and_eq_true, decide_eq_true_eq, lt_min_iff, max_lt_iff,
    Rectangle.NonEmpty] at *
  omega

theorem Rect_of_le {x0 y0 x1 y1 : Int} (hx : x0 ≤ x1) (hy : y0 ≤ y1) :
    Rect x0 y0 x1 y1 = ⟨x0, y0, x1, y1⟩ := by
  unfold Rect
  rw [if_neg (by omega), if_neg (by omega)]

end painter

namespace painter

theorem BgRectangle.Do_eq {σ : Type} (T : Texture σ) (op : BgRectangle) (s : σ) :
    BgRectangle.Do T (some op) (some s) =
      (some (T.Fill s
        (Rect (op.normalised.clip (T.Bounds s)).MinX (op.normalised.clip (T.Bounds s)).MinY
          (op.normalised.clip (T.Bounds s)).MaxX (op.normalised.clip (T.Bounds s)).MaxY)
        bgRectColor .Src), false) := by
  have hx : ∀ a b : Int, (if a > b then (b, a) else (a, b)) = (min a b, max a b) := by
    intro a b
    split
    · rw [min_eq_right (by omega), max_eq_left (by omega)]
    · rw [min_eq_left (by omega), max_eq_right (by omega)]
  have hlo : ∀ a m : Int, (if a < m then m else a) = max a m := by
    intro a m
    split
    · rw [max_eq_right (by omega)]
    · rw [max_eq_left (by omega)]
  have hhi : ∀ a m : Int, (if a > m then m else a) = min a m := by
    intro a m
    split
    · rw [min_eq_right (by omega)]
    · rw [min_eq_left (by omega)]
  simp only [BgRectangle.Do, hx, hlo, hhi, BgRectangle.normalised, Rectangle.clip, bgRectColor]

theorem Rect_has_iff (x0 y0 x1 y1 x y : Int) :
    (Rect x0 y0 x1 y1).Has x y ↔
      (min x0 x1 ≤ x ∧ x < max x0 x1 ∧ min y0 y1 ≤ y ∧ y < max y0 y1) := by
  unfold Rect
  split_ifs <;> simp only [Rectangle.Has, min_le_iff, lt_max_iff] <;> omega

end painter

/-! ## Lemmas on `Move.Do` -/

namespace painter

theorem Move.shift_length (dx dy : Int) (h : Heap) (f : Option Ptr) :
    (Move.shift dx dy h f).length = h.length := by
  unfold Move.shift
  split
  · rfl
  · split <;> simp

theorem Move.shift_getElem? (dx dy : Int) (h : Heap) (f : Option Ptr) (a : Ptr) :
    (Move.shift dx dy h f)[a]? =
      if f = some a then (h[a]?).map (Figure.shifted dx dy) else h[a]? := by
  unfold Move.shift
  cases f with
  | none => simp
  | some b =>
    by_cases hab : b = a
    · subst hab
      cases hb : h[b]? with
      | none => simp [hb]
      | some fig =>
        have hlt : b < h.length := by
          rcases List.getElem?_eq_some_iff.mp hb with ⟨hl, _⟩
          exact hl
        simp [hb, List.getElem?_set_self hlt, Figure.shifted]
    · cases hb : h[b]? with
      | none => simp [hab, hb]
      | some fig => simp [hab, hb, List.getElem?_set_ne hab]

theorem Move.foldl_shift_length (dx dy : Int) (group : List (Option Ptr)) (h : Heap) :
    (group.foldl (Move.shift dx dy) h).length = h.length := by
  induction group generalizing h with
  | nil => rfl
  | cons f group ih => rw [List.foldl_cons, ih, Move.shift_length]

/-- A figure the group does not list stays as it is. -/
theorem Move.foldl_shift_not_mem (dx dy : Int) (group : List (Option Ptr)) (h : Heap) (a : Ptr)
    (ha : some a ∉ group) : (group.foldl (Move.shift dx dy) h)[a]? = h[a]? := by
  induction group generalizing h with
  | nil => rfl
  | cons f group ih =>
    have h1 : f ≠ some a := fun e => ha (e ▸ List.mem_cons_self _ _)
    have h2 : some a ∉ group := fun e => ha (List.mem_cons_of_mem _ e)
    rw [List.foldl_cons, ih _ h2, Move.shift_getElem?, if_neg h1]

/-- What the loop of `Move.Do` leaves at an address: the figure there, shifted
once for each entry of the group that is this address. -/
theorem Move.foldl_shift_count (dx dy : Int) (group : List (Option Ptr)) (h : Heap) (a : Ptr) :
    (group.foldl (Move.shift dx dy) h)[a]? =
      (h[a]?).map ((Figure.shifted dx dy)^[group.count (some a)]) := by
  induction group generalizing h with
  | nil => simp
  | cons f group ih =>
    rw [List.foldl_cons, ih, Move.shift_getElem?]
    by_cases hf : f = some a
    · subst hf
      rw [if_pos rfl, List.count_cons_self, Function.iterate_succ, Option.map_map]
    · rw [if_neg hf, List.count_cons_of_ne (fun e => hf e.symm)]

/-- A figure shifted `n + 1` times in `int` arithmetic is at its position plus
`n + 1` times the displacement, wrapped once. -/
theorem Figure.shifted_iterate (dx dy : Int) (n : Nat) (f : Figure) :
    (Figure.shifted dx dy)^[n + 1] f =
      ⟨gostd.wrapInt (f.X + ((n + 1 : Nat) : Int) * dx),
        gostd.wrapInt (f.Y + ((n + 1 : Nat) : Int) * dy), f.C⟩ := by
  induction n with
  | zero => simp [Figure.shifted, gostd.intAdd]
  | succ n ih =>
    rw [Function.iterate_succ_apply', ih]
    simp only [Figure.shifted, gostd.intAdd, gostd.wrapInt_add_wrapInt, Figure.mk.injEq, and_true]
    constructor <;> congr 1 <;> push_cast <;> ring

theorem Canvas.fill_src_twice (over : Color → Color → Color) (s : Canvas) (dr : Rectangle)
    (src : Color) :
    (Canvas.texture over).Fill ((Canvas.texture over).Fill s dr src .Src) dr src .Src =
      (Canvas.texture over).Fill s dr src .Src := by
  apply Canvas.ext
  · rfl
  · funext x y
    simp only [Canvas.texture]
    split_ifs <;> rfl

/-- Two fills of one colour done again after themselves change nothing. -/
theorem Canvas.fill_pair_twice (over : Color → Color → Color) (s : Canvas) (d1 d2 : Rectangle)
    (src : Color) (g1 g2 : Bool) :
    (Canvas.texture over).fillIf g2 d2 src ((Canvas.texture over).fillIf g1 d1 src
        ((Canvas.texture over).fillIf g2 d2 src ((Canvas.texture over).fillIf g1 d1 src s))) =
      (Canvas.texture over).fillIf g2 d2 src ((Canvas.texture over).fillIf g1 d1 src s) := by
  apply Canvas.ext
  · cases g1 <;> cases g2 <;> rfl
  · funext x y
    cases g1 <;> cases g2 <;> simp only [Texture.fillIf, Canvas.texture] <;>
      simp only [if_true, Bool.false_eq_true, if_false] <;> split_ifs <;> rfl

theorem Canvas.bounds_fillIf (over : Color → Color → Color) (s : Canvas) (dr : Rectangle)
    (src : Color) (g : Bool) :
    (Canvas.texture over).Bounds ((Canvas.texture over).fillIf g dr src s) =
      (Canvas.texture over).Bounds s := by
  cases g <;> rfl

/-- `Figure.Do` as two conditional fills, the corners in `int` arithmetic. -/
theorem Figure.Do_bars {σ : Type} (T : Texture σ) (f : Figure) (s : σ) :
    Figure.Do T (some f) (some s) =
      (some (T.fillIf
        (isRectVisible (gostd.intSub f.X 62) (gostd.intSub f.Y 200) (gostd.intAdd f.X 63) f.Y
          (T.Bounds s))
        (Rect (gostd.intSub f.X 62) (gostd.intSub f.Y 200) (gostd.intAdd f.X 63) f.Y) f.drawColor
        (T.fillIf
          (isRectVisible (gostd.intSub f.X 200) f.Y (gostd.intAdd f.X 200) (gostd.intAdd f.Y 100)
            (T.Bounds s))
          (Rect (gostd.intSub f.X 200) f.Y (gostd.intAdd f.X 200) (gostd.intAdd f.Y 100))
          f.drawColor s)), false) := by
  simp only [Figure.Do, Texture.fillIf, Figure.drawColor]

/-- The horizontal bar as `Figure.Do` computes it, when that does not overflow. -/
theorem Figure.horizontal_inRange (f : Figure) (hh : f.HorizontalInRange) :
    gostd.intSub f.X 200 = f.X - 200 ∧ gostd.intAdd f.X 200 = f.X + 200 ∧
      gostd.intAdd f.Y 100 = f.Y + 100 ∧
      Rect (f.X - 200) f.Y (f.X + 200) (f.Y + 100) = f.horizontalBar :=
  ⟨gostd.wrapInt_of_isInt hh.1, gostd.wrapInt_of_isInt hh.2.1, gostd.wrapInt_of_isInt hh.2.2,
    Rect_of_le (by omega) (by omega)⟩

/-- The vertical bar as `Figure.Do` computes it, when that does not overflow. -/
theorem Figure.vertical_inRange (f : Figure) (hv : f.VerticalInRange) :
    gostd.intSub f.X 62 = f.X - 62 ∧ gostd.intAdd f.X 63 = f.X + 63 ∧
      gostd.intSub f.Y 200 = f.Y - 200 ∧
      Rect (f.X - 62) (f.Y - 200) (f.X + 63) f.Y = f.verticalBar :=
  ⟨gostd.wrapInt_of_isInt hv.1, gostd.wrapInt_of_isInt hv.2.1, gostd.wrapInt_of_isInt hv.2.2,
    Rect_of_le (by omega) (by omega)⟩

/-- A figure whose bar corners do not overflow is drawn as `Figure.drawnOn` says. -/
theorem Figure.Do_drawnOn {σ : Type} (T : Texture σ) (f : Figure) (s : σ)
    (hh : f.HorizontalInRange) (hv : f.VerticalInRange) :
    Figure.Do T (some f) (some s) = (some (f.drawnOn T s), false) := by
  obtain ⟨h1, h2, h3, h4⟩ := Figure.horizontal_inRange f hh
  obtain ⟨v1, v2, v3, v4⟩ := Figure.vertical_inRange f hv
  rw [Figure.Do_bars, h1, h2, h3, h4, v1, v2, v3, v4]
  rfl

theorem OperationList.DoFrom_eq {σ : Type} (T : Texture σ) (ol : OperationList) (h : Heap)
    (t : Option σ) (ready : Bool) :
    OperationList.DoFrom T ol h t ready =
      match runInOrder T (ol.filterMap id) h t with
      | .error e => .error e
      | .ok (h1, t1, flags) => .ok (h1, t1, flags.any id || ready) := by
  induction ol generalizing h t ready with
  | nil => simp [OperationList.DoFrom, runInOrder]
  | cons o ol ih =>
    cases o with
    | none => simpa [OperationList.DoFrom] using ih h t ready
    | some o =>
      simp only [OperationList.DoFrom, List.filterMap_cons, id, runInOrder]
      cases hdo : o.Do T h t with
      | error e => rfl
      | ok res =>
        obtain ⟨h1, t1, r⟩ := res
        simp only [ih]
        cases runInOrder T (List.filterMap id ol) h1 t1 with
        | error e => rfl
        | ok res2 =>
          obtain ⟨h2, t2, rs⟩ := res2
          simp only [List.any_cons, id, Bool.or_assoc, Bool.or_comm r]

/-- On a texture that is not nil every operation ends without a fault, leaves
a texture, and reports ready exactly when it is the update signal. -/
theorem Operation.Do_some {σ : Type} (T : Texture σ) (op : Operation) (h : Heap) (s : σ) :
    ∃ (h1 : Heap) (s1 : σ), op.Do T h (some s) = .ok (h1, some s1, decide (op = .update)) := by
  cases op with
  | func f => cases f <;> exact ⟨_, _, rfl⟩
  | bgRect r =>
    cases r with
    | none => exact ⟨h, s, rfl⟩
    | some r => exact ⟨h, _, by simp only [Operation.Do, BgRectangle.Do_eq]; rfl⟩
  | figure p =>
    cases hp : p.bind (fun a => h[a]?) with
    | none => exact ⟨h, s, by simp only [Operation.Do, hp, Figure.Do]; rfl⟩
    | some f => exact ⟨h, _, by simp only [Operation.Do, hp, Figure.Do_bars]; rfl⟩
  | move m =>
    have h2 : (Move.Do h m).2 = false := by
      unfold Move.Do
      cases m with
      | none => rfl
      | some m =>
        obtain ⟨x, y, figs⟩ := m
        cases figs <;> rfl
    exact ⟨(Move.Do h m).1, s, by simp only [Operation.Do, h2]; rfl⟩
  | update => exact ⟨h, s, rfl⟩

theorem any_update (ops : List Operation) :
    (ops.map (fun o => decide (o = Operation.update))).any id =
      decide (Operation.update ∈ ops) := by
  induction ops with
  | nil => rfl
  | cons a l ih =>
    by_cases ha : a = Operation.update
    · simp [ha]
    · have ha2 : ¬ Operation.update = a := fun e => ha e.symm
      simp only [List.map_cons, List.any_cons, id, ha, decide_False, Bool.false_or,
        List.mem_cons, ha2, false_or, ih]

theorem runInOrder_some {σ : Type} (T : Texture σ) (ops : List Operation) (h : Heap) (s : σ) :
    ∃ (h1 : Heap) (s1 : σ),
      runInOrder T ops h (some s) =
        .ok (h1, some s1, ops.map (fun o => decide (o = Operation.update))) := by
  induction ops generalizing h s with
  | nil => exact ⟨h, s, rfl⟩
  | cons o ops ih =>
    obtain ⟨h1, s1, e1⟩ := Operation.Do_some T o h s
    obtain ⟨h2, s2, e2⟩ := ih h1 s1
    exact ⟨h2, s2, by simp only [runInOrder, e1, e2, List.map_cons]⟩

/-- A list without nil members, applied to a texture that is not nil, reports
ready exactly when it holds the update signal. -/
theorem OperationList.Do_ready {σ : Type} (T : Texture σ) (ops : List Operation) (h : Heap)
    (s : σ) :
    ∃ (h1 : Heap) (s1 : σ),
      OperationList.Do T (ops.map some) h (some s) =
        .ok (h1, some s1, decide (Operation.update ∈ ops)) := by
  obtain ⟨h1, s1, e⟩ := runInOrder_some T ops h s
  refine ⟨h1, s1, ?_⟩
  unfold OperationList.Do
  rw [OperationList.DoFrom_eq]
  have hf : List.filterMap id (ops.map some) = ops := by
    induction ops with
    | nil => rfl
    | cons a l ih => simp
  rw [hf, e]
  simp only [Bool.or_false, Except.ok.injEq, Prod.mk.injEq, true_and]
  exact any_update ops

theorem set_after_prefix {α : Type} (A X : List α) (g v : α) :
    (A ++ g :: X).set A.length v = A ++ v :: X := by
  induction A with
  | nil => rfl
  | cons a A ih => simp only [List.cons_append, List.length_cons, List.set_cons_succ, ih]

theorem Figure.shifted_shifted (a b c d : Int) (f : Figure) :
    Figure.shifted a b (Figure.shifted c d f) = Figure.shifted (c + a) (d + b) f := by
  simp only [Figure.shifted, gostd.intAdd, gostd.wrapInt_add_wrapInt, Int.add_assoc]

/-- A group that lists the figures right after `A` moves exactly those. -/
theorem group_shift (dx dy : Int) (A G R : Heap) :
    ((List.range' A.length G.length).map some).foldl (Move.shift dx dy) (A ++ G ++ R) =
      A ++ G.map (Figure.shifted dx dy) ++ R := by
  induction G generalizing A with
  | nil => rfl
  | cons g G ih =>
    have hget : (A ++ g :: G ++ R)[A.length]? = some g := by
      rw [List.append_assoc, List.getElem?_append_right (Nat.le_refl _), Nat.sub_self]
      simp
    have hset : (A ++ g :: G ++ R).set A.length (Figure.shifted dx dy g) =
        A ++ Figure.shifted dx dy g :: (G ++ R) := by
      rw [List.append_assoc]
      exact set_after_prefix A (G ++ R) g _
    have hstep : Move.shift dx dy (A ++ g :: G ++ R) (some A.length) =
        (A ++ [Figure.shifted dx dy g]) ++ G ++ R := by
      simp only [Move.shift, hget]
      rw [show ({ X := gostd.intAdd g.X dx, Y := gostd.intAdd g.Y dy, C := g.C } : Figure) =
        Figure.shifted dx dy g from rfl, hset]
      simp
    simp only [List.length_cons, List.range'_succ, List.map_cons, List.foldl_cons, hstep]
    have := ih (A ++ [Figure.shifted dx dy g])
    simp only [List.length_append, List.length_singleton] at this
    rw [this]
    simp

theorem runInOrder_append {σ : Type} (T : Texture σ) (a b : List Operation) (h h1 h2 : Heap)
    (t t1 t2 : Option σ) (f1 f2 : List Bool)
    (ha : runInOrder T a h t = .ok (h1, t1, f1)) (hb : runInOrder T b h1 t1 = .ok (h2, t2, f2)) :
    runInOrder T (a ++ b) h t = .ok (h2, t2, f1 ++ f2) := by
  induction a generalizing h t f1 with
  | nil =>
    simp only [runInOrder, Except.ok.injEq, Prod.mk.injEq] at ha
    obtain ⟨e1, e2, e3⟩ := ha
    subst e1 e2 e3
    simpa using hb
  | cons o a ih =>
    simp only [runInOrder, List.cons_append] at ha ⊢
    cases ho : o.Do T h t with
    | error e => rw [ho] at ha; cases ha
    | ok res =>
      obtain ⟨hx, tx, r⟩ := res
      rw [ho] at ha
      simp only at ha ⊢
      cases hr : runInOrder T a hx tx with
      | error e => rw [hr] at ha; cases ha
      | ok res2 =>
        obtain ⟨hy, ty, rs⟩ := res2
        rw [hr] at ha
        simp only [Except.ok.injEq, Prod.mk.injEq] at ha
        obtain ⟨e1, e2, e3⟩ := ha
        subst e1 e2 e3
        have := ih hx tx rs hr
        rw [List.append_eq, this]
        rfl

theorem Move.Do_not_ready (h : Heap) (m : Option Move) : (Move.Do h m).2 = false := by
  cases m with
  | none => rfl
  | some m =>
    obtain ⟨x, y, figs⟩ := m
    cases figs <;> rfl

theorem Figure.Do_flag_false {σ : Type} (T : Texture σ) (f : Option Figure) (t : Option σ) :
    (Figure.Do T f t).2 = false := by
  cases f <;> cases t <;> rfl

/-- A run of moves changes the heap as `applyMoves` says and leaves the texture. -/
theorem runInOrder_moves {σ : Type} (T : Texture σ) (ms : List Move) (h : Heap)
    (t : Option σ) :
    runInOrder T (ms.map (fun m => Operation.move (some m))) h t =
      .ok (applyMoves ms h, t, ms.map (fun _ => false)) := by
  induction ms generalizing h with
  | nil => rfl
  | cons m ms ih =>
    simp only [List.map_cons, runInOrder, Operation.Do, ih, Move.Do_not_ready, applyMoves,
      List.foldl_cons]

/-- A run of the figures that follow `A` in the heap draws them in order and
leaves the heap. -/
theorem runInOrder_figures {σ : Type} (T : Texture σ) (F A : Heap) (t : Option σ) :
    runInOrder T ((List.range' A.length F.length).map (fun a => Operation.figure (some a)))
        (A ++ F) t =
      .ok (A ++ F, drawAll T F t, F.map (fun _ => false)) := by
  induction F generalizing A t with
  | nil => rfl
  | cons f F ih =>
    have hget : (A ++ f :: F)[A.length]? = some f := by
      rw [List.getElem?_append_right (Nat.le_refl _), Nat.sub_self]
      simp
    have hnext := ih (A ++ [f]) (Figure.Do T (some f) t).1
    simp only [List.length_append, List.length_singleton, List.append_assoc,
      List.singleton_append] at hnext
    have hb : ((some A.length).bind fun a => (A ++ f :: F)[a]?) = some f := hget
    simp only [List.length_cons, List.range'_succ, List.map_cons, runInOrder, Operation.Do,
      hb, hnext, Figure.Do_flag_false, drawAll, List.foldl_cons]

end painter

namespace lang

open gostd painter

theorem totalMove_move (dx dy : Int) (cs : List Cmd) :
    totalMove (Cmd.move dx dy :: cs) = (dx + (totalMove cs).1, dy + (totalMove cs).2) := by
  simp [totalMove, declaredMoves]

theorem Move.Do_range_group (dx dy : Int) (A G R : Heap) :
    (Move.Do (A ++ G ++ R) (some ⟨dx, dy,
      if ((List.range' A.length G.length).map some).length > 0
      then some ((List.range' A.length G.length).map some) else none⟩)).1 =
      A ++ G.map (Figure.shifted dx dy) ++ R := by
  cases G with
  | nil => rfl
  | cons g G =>
    simp only [List.length_map, List.length_range', List.length_cons, Nat.zero_lt_succ,
      if_true, gt_iff_lt, Move.Do]
    exact group_shift dx dy A (g :: G) R

theorem Atoi_isInt (s : List Char) (v : Int) (h : Atoi s = some v) : IsInt v := by
  unfold Atoi at h
  simp only at h
  split_ifs at h <;>
    simp only [Option.some.injEq] at h <;> subst h <;>
    simp_all [IsInt]

/-- The arguments of a `figure` command read from a line are values of `int`. -/
theorem figure_ofFields_isInt (fs : List (List Char)) (x y : Int)
    (h : Cmd.ofFields fs = some (Cmd.figure x y)) : IsInt x ∧ IsInt y := by
  unfold Cmd.ofFields at h
  split at h
  · split_ifs at h <;> cases h
  · split at h
    · rename_i a b x1 y1 ha hb
      split_ifs at h
      · simp only [Option.some.injEq, Cmd.figure.injEq] at h
        obtain ⟨e1, e2⟩ := h
        subst e1 e2
        exact ⟨Atoi_isInt _ _ ha, Atoi_isInt _ _ hb⟩
      · cases h
    · cases h
  · split at h
    · split_ifs at h
      cases h
    · cases h
  · cases h

theorem figure_mem_commands (lines : List (List Char)) (x y : Int)
    (h : Cmd.figure x y ∈ commands lines) : IsInt x ∧ IsInt y := by
  unfold commands at h
  rw [List.mem_filterMap] at h
  obtain ⟨text, _, ht⟩ := h
  split_ifs at ht
  exact figure_ofFields_isInt _ x y ht

/-- The moves the commands build, done in order on the heap that holds `G`
(the figures known before) and then the figures the commands declare: every
figure ends at its position plus the displacements of the moves after it,
wrapped to the values of `int`. -/
theorem applyMoves_movesFrom (cs : List Cmd) (A G : Heap)
    (hG : ∀ g ∈ G, IsInt g.X ∧ IsInt g.Y)
    (hcs : ∀ x y : Int, Cmd.figure x y ∈ cs → IsInt x ∧ IsInt y) :
    applyMoves (movesFrom ((List.range' A.length G.length).map some) (A.length + G.length) cs)
        (A ++ G ++ declaredFigures cs) =
      A ++ G.map (fun g => Figure.wrapped
          ⟨g.X + (totalMove cs).1, g.Y + (totalMove cs).2, g.C⟩) ++
        (movedFigures cs).map Figure.wrapped := by
  induction cs generalizing G with
  | nil =>
    have hm : G.map (fun g => Figure.wrapped ⟨g.X + (totalMove []).1, g.Y + (totalMove []).2,
        g.C⟩) = G := by
      rw [List.map_congr_left (g := id), List.map_id]
      intro g hg
      obtain ⟨hx, hy⟩ := hG g hg
      simp [Figure.wrapped, totalMove, declaredMoves, wrapInt_of_isInt hx, wrapInt_of_isInt hy]
    rw [hm]
    simp [applyMoves, movesFrom, declaredFigures, movedFigures]
  | cons c cs ih =>
    have hcs2 : ∀ x y : Int, Cmd.figure x y ∈ cs → IsInt x ∧ IsInt y :=
      fun x y hm => hcs x y (List.mem_cons_of_mem _ hm)
    cases c with
    | figure x y =>
      have hxy := hcs x y (List.mem_cons_self _ _)
      have hk : (List.range' A.length G.length).map some ++ [some (A.length + G.length)] =
          (List.range' A.length (G ++ [(⟨x, y, figureColor⟩ : Figure)]).length).map some := by
        rw [List.length_append, List.length_singleton, List.range'_concat]
        simp
      have hh : A ++ G ++ declaredFigures (Cmd.figure x y :: cs) =
          A ++ (G ++ [⟨x, y, figureColor⟩]) ++ declaredFigures cs := by
        simp [declaredFigures]
      have hl : A.length + G.length + 1 =
          A.length + (G ++ [(⟨x, y, figureColor⟩ : Figure)]).length := by
        rw [List.length_append, List.length_singleton, Nat.add_assoc]
      have ht : totalMove (Cmd.figure x y :: cs) = totalMove cs := rfl
      have hG2 : ∀ g ∈ G ++ [(⟨x, y, figureColor⟩ : Figure)], IsInt g.X ∧ IsInt g.Y := by
        intro g hg
        rcases List.mem_append.mp hg with hg | hg
        · exact hG g hg
        · rw [List.mem_singleton] at hg
          subst hg
          exact hxy
      simp only [movesFrom]
      rw [hk, hh, hl, ih _ hG2 hcs2, ht]
      simp [movedFigures]
    | move dx dy =>
      simp only [movesFrom, applyMoves, List.foldl_cons]
      have hd : declaredFigures (Cmd.move dx dy :: cs) = declaredFigures cs := rfl
      rw [hd, Move.Do_range_group]
      have hG2 : ∀ g ∈ G.map (Figure.shifted dx dy), IsInt g.X ∧ IsInt g.Y := by
        intro g hg
        obtain ⟨g0, _, e⟩ := List.mem_map.mp hg
        subst e
        exact ⟨wrapInt_isInt _, wrapInt_isInt _⟩
      have := ih (G.map (Figure.shifted dx dy)) hG2 hcs2
      simp only [List.length_map, applyMoves] at this
      rw [this, totalMove_move]
      simp only [List.map_map, movedFigures]
      congr 2
      apply List.map_congr_left
      intro g _
      simp only [Function.comp, Figure.shifted, Figure.wrapped, intAdd, wrapInt_add_wrapInt,
        Int.add_assoc]
    | white => exact ih G hG hcs2
    | green => exact ih G hG hcs2
    | bgrect a b c d => exact ih G hG hcs2
    | reset => exact ih G hG hcs2
    | update => exact ih G hG hcs2

/-- Figures drawn one after the other leave a texture. -/
theorem drawAll_some {σ : Type} (T : Texture σ) (F : List Figure) (s : σ) :
    ∃ s2 : σ, drawAll T F (some s) = some s2 := by
  induction F generalizing s with
  | nil => exact ⟨s, rfl⟩
  | cons f F ih =>
    simp only [drawAll, List.foldl_cons, Figure.Do_bars]
    exact ih _

/-- Figures whose bar corners do not overflow are drawn as `Figure.drawnOn` says. -/
theorem drawAll_drawnOn {σ : Type} (T : Texture σ) (F : List Figure) (s : σ)
    (hF : ∀ f ∈ F, f.HorizontalInRange ∧ f.VerticalInRange) :
    drawAll T F (some s) = some (F.foldl (Figure.drawnOn T) s) := by
  induction F generalizing s with
  | nil => rfl
  | cons f F ih =>
    obtain ⟨hh, hv⟩ := hF f (List.mem_cons_self _ _)
    simp only [drawAll, List.foldl_cons, Figure.Do_drawnOn T f s hh hv]
    exact ih _ (fun g hg => hF g (List.mem_cons_of_mem _ hg))

/-- Figures at values of `int` are their own wrapped figures. -/
theorem map_wrapped_of_isInt (F : List Figure) (hF : ∀ f ∈ F, IsInt f.X ∧ IsInt f.Y) :
    F.map Figure.wrapped = F := by
  rw [List.map_congr_left (g := id), List.map_id]
  intro f hf
  obtain ⟨hx, hy⟩ := hF f hf
  simp [Figure.wrapped, wrapInt_of_isInt hx, wrapInt_of_isInt hy]

theorem runInOrder_background {σ : Type} (T : Texture σ) (fn : OpFunc) (cs : List Cmd)
    (h : Heap) (s : σ) :
    ∃ (s1 : σ) (fl : List Bool),
      runInOrder T (Operation.func fn :: rectOps cs) h (some s) = .ok (h, some s1, fl) := by
  have hf : ∃ s0 : σ, (Operation.func fn).Do T h (some s) = .ok (h, some s0, false) := by
    cases fn <;> exact ⟨_, rfl⟩
  obtain ⟨s0, e0⟩ := hf
  unfold rectOps
  split
  · rename_i rect _
    have hb : ∃ s1 : σ, (Operation.bgRect (some rect)).Do T h (some s0) =
        .ok (h, some s1, false) :=
      ⟨_, by simp only [Operation.Do, BgRectangle.Do_eq]; rfl⟩
    obtain ⟨s1, e1⟩ := hb
    refine ⟨s1, [false, false], ?_⟩
    rw [runInOrder, e0]
    simp only [runInOrder, e1]
  · refine ⟨s0, [false], ?_⟩
    rw [runInOrder, e0]
    simp only [runInOrder]

theorem runInOrder_updateOps {σ : Type} (T : Texture σ) (cs : List Cmd) (h : Heap)
    (t : Option σ) :
    ∃ fl : List Bool, runInOrder T (updateOps cs) h t = .ok (h, t, fl) := by
  unfold updateOps
  split
  · exact ⟨_, rfl⟩
  · exact ⟨_, rfl⟩

theorem OperationList.Do_map_some {σ : Type} (T : Texture σ) (ops : List Operation) (h : Heap)
    (t : Option σ) (h1 : Heap) (t1 : Option σ) (fl : List Bool)
    (hrun : runInOrder T ops h t = .ok (h1, t1, fl)) :
    OperationList.Do T (ops.map some) h t = .ok (h1, t1, fl.any id) := by
  have hf : List.filterMap id (ops.map some) = ops := by
    induction ops with
    | nil => rfl
    | cons a l ih => simp
  unfold OperationList.Do
  rw [OperationList.DoFrom_eq, hf, hrun]
  simp

/-- On a texture that is not nil, a list applied in order reports ready exactly
when it holds the update signal, whatever heap and texture it leaves. -/
theorem runInOrder_ready {σ : Type} (T : Texture σ) (ops : List Operation) (h : Heap) (s : σ)
    (h1 : Heap) (t1 : Option σ) (fl : List Bool)
    (hrun : runInOrder T ops h (some s) = .ok (h1, t1, fl)) :
    fl.any id = decide (Operation.update ∈ ops) := by
  obtain ⟨h2, s2, e⟩ := runInOrder_some T ops h s
  rw [e] at hrun
  simp only [Except.ok.injEq, Prod.mk.injEq] at hrun
  rw [← hrun.2.2]
  exact any_update ops

theorem movedFigures_length (cs : List Cmd) :
    ((movedFigures cs).map Figure.wrapped).length = (declaredFigures cs).length := by
  rw [List.length_map]
  induction cs with
  | nil => rfl
  | cons c cs ih => cases c <;> simp [movedFigures, declaredFigures] <;> exact ih

theorem update_not_mem_rectOps (cs : List Cmd) : Operation.update ∉ rectOps cs := by
  unfold rectOps
  split <;> simp

theorem update_mem_updateOps (cs : List Cmd) :
    Operation.update ∈ updateOps cs ↔ Cmd.update ∈ cs := by
  unfold updateOps
  split <;> simp_all [UpdateOp]

end lang

/-! ## Claims on the parser -/

namespace lang

open gostd painter

/-- C1, as the claim words it, fails: the stream `figure 1 1`, `reset` is valid
and has one figure line, yet a fresh parser returns the full-surface reset
alone, without any figure. -/
theorem C1_counterexample :
    ValidStream (NewReader "figure 1 1\nreset\n") ∧
      declaredFigures (commands (NewReader "figure 1 1\nreset\n").lines) =
        [⟨1, 1, figureColor⟩] ∧
      (Parser.Parse [] Parser.fresh (some (NewReader "figure 1 1\nreset\n"))).result =
        .ok [Operation.func OpFunc.ResetScreen] := by
  decide

/-- C1, amended: for a fresh parser and every valid command stream, `Parse`
returns one background fill, then the background rectangle if a `bgrect` line
was given, then a `Move` for every `move` line in line order, then a figure for
every `figure` line in line order, then the update signal if an `update` line
was given, where only the lines after the last `reset` line count. -/
theorem C1_emitted_order (h : Heap) (r : Reader) (hv : ValidStream r) :
    ∃ (fill : OpFunc) (ms : List Move) (ptrs : List Ptr),
      (Parser.Parse h Parser.fresh (some r)).result =
        .ok (Operation.func fill ::
          (rectOps (sinceReset (commands r.lines)) ++
            ms.map (fun m => Operation.move (some m)) ++
            ptrs.map (fun a => Operation.figure (some a)) ++
            updateOps (sinceReset (commands r.lines)))) ∧
      ms.map (fun m => (m.X, m.Y)) = declaredMoves (sinceReset (commands r.lines)) ∧
      ptrs.map (fun a => (Parser.Parse h Parser.fresh (some r)).heap[a]?) =
        (declaredFigures (sinceReset (commands r.lines))).map some := by
  obtain ⟨hheap, hres⟩ := Parse_valid_result h Parser.fresh r hv (Or.inl rfl)
  refine ⟨_, _, _, hres, movesFrom_displacements _ _ _, ?_⟩
  rw [hheap]
  have hsplit := upto_append_since (commands r.lines)
  have := range_deref (h ++ declaredFigures (uptoReset (commands r.lines)))
    (declaredFigures (sinceReset (commands r.lines)))
  rw [List.append_assoc, ← declaredFigures_append, hsplit, List.length_append] at this
  exact this

/-- Witness for C1: a stream with figures, moves, a rectangle, a `reset` and an
update; the fresh parser returns the fill, the rectangle, the two moves, the
figure of line 4 and the update signal. -/
theorem C1_emitted_order_witness :
    ValidStream (NewReader sampleStream) ∧
    (Parser.Parse [] Parser.fresh (some (NewReader sampleStream))).result =
      .ok [Operation.func OpFunc.ResetScreen, Operation.bgRect (some ⟨1, 2, 3, 4⟩),
        Operation.move (some ⟨2, 3, none⟩), Operation.move (some ⟨6, 7, some [some 1]⟩),
        Operation.figure (some 1), UpdateOp] ∧
    ∃ (fill : OpFunc) (ms : List Move) (ptrs : List Ptr),
      (Parser.Parse [] Parser.fresh (some (NewReader sampleStream))).result =
        .ok (Operation.func fill ::
          (rectOps (sinceReset (commands (NewReader sampleStream).lines)) ++
            ms.map (fun m => Operation.move (some m)) ++
            ptrs.map (fun a => Operation.figure (some a)) ++
            updateOps (sinceReset (commands (NewReader sampleStream).lines)))) ∧
      ms.map (fun m => (m.X, m.Y)) =
        declaredMoves (sinceReset (commands (NewReader sampleStream).lines)) ∧
      ptrs.map (fun a =>
          (Parser.Parse [] Parser.fresh (some (NewReader sampleStream))).heap[a]?) =
        (declaredFigures (sinceReset (commands (NewReader sampleStream).lines))).map some :=
  ⟨by decide, by decide, C1_emitted_order [] (NewReader sampleStream) (by decide)⟩

/-- C2, as the claim words it, fails: in the valid stream `figure 1 1`, `reset`,
`move 2 3` one figure line precedes the `move` line, yet the `Move` a fresh
parser returns holds no figure. -/
theorem C2_counterexample :
    ValidStream (NewReader "figure 1 1\nreset\nmove 2 3\n") ∧
      commands (NewReader "figure 1 1\nreset\nmove 2 3\n").lines =
        [Cmd.figure 1 1, Cmd.reset, Cmd.move 2 3] ∧
      (Parser.Parse [] Parser.fresh (some (NewReader "figure 1 1\nreset\nmove 2 3\n"))).result =
        .ok [Operation.func OpFunc.ResetScreen, Operation.move (some ⟨2, 3, none⟩)] := by
  decide

/-- C2, amended: for a fresh parser and every valid command stream, the `Move`
returned for a `move dx dy` line that follows the last `reset` holds exactly
the figures declared on the lines between that `reset` and the `move` line, in
declaration order: a nil group when there is none, otherwise the first `N` of
the figures the list draws, `N` being the number of those lines; the drawn
figures are pairwise distinct objects, so no figure declared on a later line
is among them. -/
theorem C2_move_holds_preceding_figures (h : Heap) (r : Reader) (hv : ValidStream r)
    (pre post : List Cmd) (dx dy : Int)
    (hs : sinceReset (commands r.lines) = pre ++ Cmd.move dx dy :: post) :
    ∃ ops : List Operation,
      (Parser.Parse h Parser.fresh (some r)).result = .ok ops ∧
      (movesIn ops)[(declaredMoves pre).length]? =
        some ⟨dx, dy, groupOf ((figuresIn ops).take (declaredFigures pre).length)⟩ ∧
      ((figuresIn ops).take (declaredFigures pre).length).map
          (fun a => (Parser.Parse h Parser.fresh (some r)).heap[a]?) =
        (declaredFigures pre).map some ∧
      (figuresIn ops).Nodup ∧
      (figuresIn ops).map (fun a => (Parser.Parse h Parser.fresh (some r)).heap[a]?) =
        (declaredFigures (sinceReset (commands r.lines))).map some := by
  obtain ⟨hheap, hres⟩ := Parse_valid_result h Parser.fresh r hv (Or.inl rfl)
  refine ⟨_, hres, ?_, ?_, ?_, ?_⟩
  all_goals
    simp only [movesIn_append, figuresIn_append, movesIn_rectOps, figuresIn_rectOps, movesIn_map,
      figuresIn_map, movesIn_figures, figuresIn_moves, movesIn_updateOps, figuresIn_updateOps,
      List.nil_append, List.append_nil, List.cons_append,
      show ∀ f l, movesIn (Operation.func f :: l) = movesIn l from fun _ _ => rfl,
      show ∀ f l, figuresIn (Operation.func f :: l) = figuresIn l from fun _ _ => rfl]
  · have hlen : (movesFrom []
        (h.length + (declaredFigures (uptoReset (commands r.lines))).length) pre).length =
        (declaredMoves pre).length := by
      rw [← movesFrom_displacements [] (h.length +
        (declaredFigures (uptoReset (commands r.lines))).length) pre, List.length_map]
    have ht : ∀ s : Nat,
        List.take (declaredFigures pre).length
          (List.range' s (declaredFigures (pre ++ Cmd.move dx dy :: post)).length) =
        List.range' s (declaredFigures pre).length := by
      intro s
      rw [declaredFigures_append, List.length_append, take_range]
    rw [hs, movesFrom_split, List.getElem?_append_right (Nat.le_of_eq hlen), hlen, Nat.sub_self,
      ht, groupOf_range, List.getElem?_cons_zero]
  · have hd := range_deref (h ++ declaredFigures (uptoReset (commands r.lines)))
      (declaredFigures (sinceReset (commands r.lines)))
    rw [List.append_assoc, ← declaredFigures_append, upto_append_since, List.length_append,
      ← hheap] at hd
    have hd2 := congrArg (List.take (declaredFigures pre).length) hd
    rw [← List.map_take, ← List.map_take] at hd2
    rw [hd2, hs, declaredFigures_append, List.take_left]
  · exact List.nodup_range' _ _
  · have hd := range_deref (h ++ declaredFigures (uptoReset (commands r.lines)))
      (declaredFigures (sinceReset (commands r.lines)))
    rw [List.append_assoc, ← declaredFigures_append, upto_append_since, List.length_append,
      ← hheap] at hd
    exact hd

/-- Witness for C2: in `figure 1 1`, `move 2 3`, `figure 4 5` the move holds the first figure only. -/
theorem C2_move_holds_preceding_figures_witness :
    ValidStream (NewReader "figure 1 1\nmove 2 3\nfigure 4 5\n") ∧
    ∃ ops : List Operation,
      (Parser.Parse [] Parser.fresh
        (some (NewReader "figure 1 1\nmove 2 3\nfigure 4 5\n"))).result = .ok ops ∧
      (movesIn ops)[(declaredMoves [Cmd.figure 1 1]).length]? =
        some ⟨2, 3, groupOf ((figuresIn ops).take (declaredFigures [Cmd.figure 1 1]).length)⟩ ∧
      ((figuresIn ops).take (declaredFigures [Cmd.figure 1 1]).length).map
          (fun a => (Parser.Parse [] Parser.fresh
            (some (NewReader "figure 1 1\nmove 2 3\nfigure 4 5\n"))).heap[a]?) =
        (declaredFigures [Cmd.figure 1 1]).map some ∧
      (figuresIn ops).Nodup ∧
      (figuresIn ops).map (fun a => (Parser.Parse [] Parser.fresh
          (some (NewReader "figure 1 1\nmove 2 3\nfigure 4 5\n"))).heap[a]?) =
        (declaredFigures (sinceReset (commands
          (NewReader "figure 1 1\nmove 2 3\nfigure 4 5\n").lines))).map some :=
  ⟨by decide,
    C2_move_holds_preceding_figures [] (NewReader "figure 1 1\nmove 2 3\nfigure 4 5\n")
      (by decide) [Cmd.figure 1 1] [Cmd.figure 4 5] 2 3 (by decide)⟩

/-- C3, as the claim words it, fails when a line does not fit the scanner's
buffer: in the input whose first line is blank, 65536 spaces long, and whose
second line is `figure 1`, the first invalid line is line 2, yet `Parse`
returns the scanner's error, which names no line. -/
theorem C3_counterexample :
    rawLines (longBlank ++ '\n' :: "figure 1\n".toList) = [longBlank, "figure 1".toList] ∧
    byteLen longBlank = 65536 ∧
    Ignored (dropCR longBlank) ∧
    InvalidLine (dropCR "figure 1".toList) ∧
    (Parser.Parse [] Parser.fresh
        (some (NewReader (String.mk (longBlank ++ '\n' :: "figure 1\n".toList))))).result =
      .error "scanner error: bufio.Scanner: token too long" ∧
    ¬ ∃ msg : String, "scanner error: bufio.Scanner: token too long" = "line 2: " ++ msg := by
  refine ⟨?_, longBlank_byteLen, longBlank_ignored, by decide, ?_, ?_⟩
  · rw [rawLines_longBlank, show rawLines "figure 1\n".toList = ["figure 1".toList] from by decide]
  · rw [NewReader_longBlank]
    rfl
  · rintro ⟨msg, hm⟩
    have := congrArg String.data hm
    rw [String.data_append] at this
    revert this
    simp

/-- C3, amended: when the first malformed line of the input (unknown
instruction, too few arguments, or a non-integer argument) is the `k`-th
physical line, blank and comment lines counted, and that line and the lines
before it are each shorter than 65536 bytes, `Parse` returns an error whose
message starts with `line k: ` and returns no operation list; when one of them
has 65536 bytes or more, the scanner stops there and `Parse` returns the error
`scanner error: bufio.Scanner: token too long`, which names no line, and no
operation list. -/
theorem C3_first_invalid_line_or_scanner_error (h : Heap) (p : Parser) (s : String)
    (pre post : List (List Char)) (bad : List Char)
    (hs : rawLines s.toList = pre ++ bad :: post)
    (hpre : ∀ l ∈ pre, ¬ InvalidLine (dropCR l)) (hbad : InvalidLine (dropCR bad)) :
    ((∀ l ∈ pre ++ [bad], byteLen l < MaxScanTokenSize) →
      ∃ msg : String,
        (Parser.Parse h p (some (NewReader s))).result =
          .error ("line " ++ toString (pre.length + 1) ++ ": " ++ msg)) ∧
    ((∃ l ∈ pre ++ [bad], MaxScanTokenSize ≤ byteLen l) →
      (Parser.Parse h p (some (NewReader s))).result =
        .error "scanner error: bufio.Scanner: token too long") := by
  constructor
  · intro hshort
    have hsp : rawLines s.toList = (pre ++ [bad]) ++ post := by
      rw [hs, List.append_assoc]
      rfl
    unfold NewReader
    rw [hsp, scanTokens_append_short _ _ hshort, List.map_append, List.map_singleton,
      List.append_assoc, List.singleton_append]
    have hpre2 : ∀ text ∈ pre.map dropCR, ¬ InvalidLine text := by
      intro text ht
      obtain ⟨l, hl, e⟩ := List.mem_map.mp ht
      exact e ▸ hpre l hl
    obtain ⟨msg, hm⟩ := Parse_first_invalid h p (pre.map dropCR) (scanTokens post).lines
      (dropCR bad) (scanTokens post).err hpre2 hbad
    exact ⟨msg, by rw [hm, List.length_map]⟩
  · intro hlong
    obtain ⟨a, x, b, e, hx, ha⟩ := exists_first (fun l => MaxScanTokenSize ≤ byteLen l)
      (pre ++ [bad]) hlong
    have hsp : rawLines s.toList = a ++ x :: (b ++ post) := by
      rw [hs, show pre ++ bad :: post = (pre ++ [bad]) ++ post by simp, e]
      simp
    have hacc : ∀ text ∈ a.map dropCR, ¬ InvalidLine text := by
      intro text ht
      obtain ⟨l, hl, e2⟩ := List.mem_map.mp ht
      have hmem : l ∈ pre := by
        have hpa : a <+: pre ++ [bad] := ⟨x :: b, e.symm⟩
        have hlen : a.length ≤ pre.length := by
          have := congrArg List.length e
          simp only [List.length_append, List.length_cons, List.length_singleton,
            List.length_nil] at this
          omega
        have hap : a <+: pre := (List.prefix_append_right_inj _).mp
          (show [] ++ a <+: [] ++ pre from by
            simpa using List.prefix_of_prefix_length_le hpa (List.prefix_append pre [bad]) hlen)
        exact hap.subset hl
      exact e2 ▸ hpre l hmem
    unfold NewReader
    rw [hsp, scanTokens_append_short a _ (fun l hl => by have := ha l hl; omega),
      scanTokens_cons_long x _ hx, List.append_nil]
    exact Parse_scanner_error h p _ _ hacc

/-- Witness for C3: `figure 1` on line 4, after a command, a blank line and a comment. -/
theorem C3_first_invalid_line_or_scanner_error_witness :
    rawLines "white\n\n# note\nfigure 1\nupdate\n".toList =
        ["white".toList, [], "# note".toList] ++ "figure 1".toList :: ["update".toList] ∧
      InvalidLine (dropCR "figure 1".toList) ∧
      (Parser.Parse [] Parser.fresh
          (some (NewReader "white\n\n# note\nfigure 1\nupdate\n"))).result =
        .error "line 4: figure command requires at least 2 arguments, got 1" ∧
      ∃ msg : String,
        (Parser.Parse [] Parser.fresh
          (some (NewReader "white\n\n# note\nfigure 1\nupdate\n"))).result =
          .error ("line " ++ toString (["white".toList, [], "# note".toList].length + 1) ++
            ": " ++ msg) :=
  ⟨by decide, by decide, by decide,
    (C3_first_invalid_line_or_scanner_error [] Parser.fresh
      "white\n\n# note\nfigure 1\nupdate\n" ["white".toList, [], "# note".toList]
      ["update".toList] "figure 1".toList (by decide) (by decide) (by decide)).1 (by decide)⟩

/-- C4, as the claim words it, fails: `figure 1 2 3` has three arguments where
the grammar gives `figure` two, and `white 7` has one where `white` has none,
yet `Parse` accepts both lines. -/
theorem C4_counterexample :
    Fields (TrimSpace "figure 1 2 3".toList) =
        ["figure".toList, "1".toList, "2".toList, "3".toList] ∧
      arity "figure".toList = some 2 ∧
      (Parser.Parse [] Parser.fresh (some (NewReader "figure 1 2 3\n"))).result =
        .ok [Operation.func OpFunc.ResetScreen, Operation.figure (some 0)] ∧
      (Parser.Parse [] Parser.fresh (some (NewReader "white 7\n"))).result =
        .ok [Operation.func OpFunc.WhiteFill] := by
  decide

/-- C4, amended: a command line with fewer arguments than the arity of its
instruction makes `Parse` fail with an error that names the line; a command
line with more arguments than the arity is read as the same line without the
surplus arguments, which `Parse` ignores. -/
theorem C4_too_few_fails_surplus_ignored (h : Heap) (p : Parser)
    (pre post : List (List Char)) (text : List Char) (err : Option String)
    (ins : List Char) (args : List (List Char)) (n : Nat)
    (hpre : ∀ t ∈ pre, ¬ InvalidLine t) (hi : ¬ Ignored text)
    (hf : Fields (TrimSpace text) = ins :: args) (ha : arity ins = some n) :
    (args.length < n →
      ∃ msg : String, (Parser.Parse h p (some ⟨pre ++ text :: post, err⟩)).result =
        .error ("line " ++ toString (pre.length + 1) ++ ": " ++ msg)) ∧
    (n < args.length →
      ∀ text2 : List Char, ¬ Ignored text2 → Fields (TrimSpace text2) = ins :: args.take n →
        Parser.Parse h p (some ⟨pre ++ text :: post, err⟩) =
          Parser.Parse h p (some ⟨pre ++ text2 :: post, err⟩)) := by
  constructor
  · intro hlt
    have hbad : InvalidLine text := by
      refine ⟨hi, ?_⟩
      rw [hf]
      simp only [MalformedFields, ha]
      exact Or.inl hlt
    obtain ⟨msg, hm⟩ := Parse_first_invalid h p pre post text err hpre hbad
    exact ⟨msg, by rw [hm]⟩
  · intro hgt text2 hi2 hf2
    have hr : readFields (Fields (TrimSpace text)) = readFields (Fields (TrimSpace text2)) := by
      rw [hf, hf2, readFields_surplus ins args n ha (Nat.le_of_lt hgt)]
    simp only [Parser.Parse, scanLoop_congr h p.initialize 0 pre post text text2 hi hi2 hr]

/-- Witness for C4: after a `white` line, `figure 1` fails on line 2 and
`figure 1 2 3` is read as `figure 1 2`. -/
theorem C4_too_few_fails_surplus_ignored_witness :
    (∃ msg : String,
      (Parser.Parse [] Parser.fresh
        (some ⟨["white".toList] ++ "figure 1".toList :: [], none⟩)).result =
        .error ("line " ++ toString (["white".toList].length + 1) ++ ": " ++ msg)) ∧
    Parser.Parse [] Parser.fresh
        (some ⟨["white".toList] ++ "figure 1 2 3".toList :: [], none⟩) =
      Parser.Parse [] Parser.fresh
        (some ⟨["white".toList] ++ "figure 1 2".toList :: [], none⟩) :=
  ⟨(C4_too_few_fails_surplus_ignored [] Parser.fresh ["white".toList] [] "figure 1".toList none
      "figure".toList ["1".toList] 2 (by decide) (by decide) (by decide) (by decide)).1
      (by decide),
    (C4_too_few_fails_surplus_ignored [] Parser.fresh ["white".toList] [] "figure 1 2 3".toList
      none "figure".toList ["1".toList, "2".toList, "3".toList] 2
      (by decide) (by decide) (by decide) (by decide)).2
      (by decide) "figure 1 2".toList (by decide) (by decide)⟩

/-- C5, as the claim words it, fails: `Parse` of `figure 1 1` followed by the
malformed line `figure` fails at line 2, yet the parser now holds the figure of
line 1, and the next `Parse` on the same parser, of an empty input, draws it. -/
theorem C5_counterexample :
    (Parser.Parse [] Parser.fresh (some (NewReader "figure 1 1\nfigure\n"))).result =
        .error "line 2: figure command requires at least 2 arguments, got 0" ∧
      Parser.fresh.figures = [] ∧
      (Parser.Parse [] Parser.fresh (some (NewReader "figure 1 1\nfigure\n"))).parser.figures =
        [some 0] ∧
      (Parser.Parse
          (Parser.Parse [] Parser.fresh (some (NewReader "figure 1 1\nfigure\n"))).heap
          (Parser.Parse [] Parser.fresh (some (NewReader "figure 1 1\nfigure\n"))).parser
          (some (NewReader ""))).result =
        .ok [Operation.func OpFunc.ResetScreen, Operation.figure (some 0)] := by
  decide

/-- C5, amended: a `Parse` that fails at some line returns an error and no
operations, but the parser is not rolled back: the heap, the background fill,
the background rectangle and the figures are left as a successful `Parse` of
the lines before the failing one leaves them, so the next `Parse` on the same
parser, here of an empty input, returns every such figure. -/
theorem C5_failed_parse_keeps_prefix (h : Heap) (p : Parser) (pre post : List (List Char))
    (bad : List Char) (err : Option String) (failed done : Outcome)
    (hpre : ∀ text ∈ pre, ¬ InvalidLine text) (hbad : InvalidLine bad)
    (hfailed : failed = Parser.Parse h p (some ⟨pre ++ bad :: post, err⟩))
    (hdone : done = Parser.Parse h p (some ⟨pre, none⟩)) :
    (∃ msg : String, failed.result = .error msg) ∧
      failed.heap = done.heap ∧
      failed.parser.lastBgColor = done.parser.lastBgColor ∧
      failed.parser.lastBgRect = done.parser.lastBgRect ∧
      failed.parser.figures = done.parser.figures ∧
      ∃ ops : List Operation,
        (Parser.Parse failed.heap failed.parser (some ⟨[], none⟩)).result = .ok ops ∧
        ∀ f ∈ done.parser.figures, Operation.figure f ∈ ops := by
  obtain ⟨msg, hm⟩ := Parse_first_invalid h p pre post bad err hpre hbad
  have hd := Parse_accepted h p pre hpre
  rw [hm] at hfailed
  rw [hd] at hdone
  subst hfailed
  subst hdone
  refine ⟨⟨_, rfl⟩, rfl, rfl, rfl, rfl, ?_⟩
  exact Parse_empty_emits_figures _ _

/-- Witness for C5: `green`, `figure 1 1`, then the malformed line `figure`. -/
theorem C5_failed_parse_keeps_prefix_witness :
    (∃ msg : String,
      (Parser.Parse [] Parser.fresh
        (some ⟨["green".toList, "figure 1 1".toList] ++ "figure".toList :: [], none⟩)).result =
        .error msg) ∧
      (Parser.Parse [] Parser.fresh
        (some ⟨["green".toList, "figure 1 1".toList] ++ "figure".toList :: [], none⟩)).heap =
        (Parser.Parse [] Parser.fresh
          (some ⟨["green".toList, "figure 1 1".toList], none⟩)).heap ∧
      (Parser.Parse [] Parser.fresh
        (some ⟨["green".toList, "figure 1 1".toList] ++ "figure".toList :: [],
          none⟩)).parser.lastBgColor =
        (Parser.Parse [] Parser.fresh
          (some ⟨["green".toList, "figure 1 1".toList], none⟩)).parser.lastBgColor ∧
      (Parser.Parse [] Parser.fresh
        (some ⟨["green".toList, "figure 1 1".toList] ++ "figure".toList :: [],
          none⟩)).parser.lastBgRect =
        (Parser.Parse [] Parser.fresh
          (some ⟨["green".toList, "figure 1 1".toList], none⟩)).parser.lastBgRect ∧
      (Parser.Parse [] Parser.fresh
        (some ⟨["green".toList, "figure 1 1".toList] ++ "figure".toList :: [],
          none⟩)).parser.figures =
        (Parser.Parse [] Parser.fresh
          (some ⟨["green".toList, "figure 1 1".toList], none⟩)).parser.figures ∧
      ∃ ops : List Operation,
        (Parser.Parse
          (Parser.Parse [] Parser.fresh
            (some ⟨["green".toList, "figure 1 1".toList] ++ "figure".toList :: [], none⟩)).heap
          (Parser.Parse [] Parser.fresh
            (some ⟨["green".toList, "figure 1 1".toList] ++ "figure".toList :: [], none⟩)).parser
          (some ⟨[], none⟩)).result = .ok ops ∧
        ∀ f ∈ (Parser.Parse [] Parser.fresh
            (some ⟨["green".toList, "figure 1 1".toList], none⟩)).parser.figures,
          Operation.figure f ∈ ops :=
  C5_failed_parse_keeps_prefix [] Parser.fresh ["green".toList, "figure 1 1".toList] []
    "figure".toList none _ _ (by decide) (by decide) rfl rfl

/-- C6: for every parser state and every valid command stream whose last
command is `reset`, `Parse` returns exactly one operation, the full-surface
reset `ResetScreen`. -/
theorem C6_reset_last_gives_single_reset (h : Heap) (p : Parser) (r : Reader)
    (cs : List Cmd) (hv : ValidStream r) (hlast : commands r.lines = cs ++ [Cmd.reset]) :
    (Parser.Parse h p (some r)).result = .ok [Operation.func OpFunc.ResetScreen] := by
  have hmem : Cmd.reset ∈ commands r.lines := by rw [hlast]; simp
  have hs : sinceReset (commands r.lines) = [] := by
    rw [hlast]
    exact sinceReset_split cs [] (by simp)
  rw [(Parse_valid_result h p r hv (Or.inr hmem)).2, hs]
  rfl

/-- Witness for C6: a parser that already holds a fill, a rectangle, a figure,
a move and an update, given a stream that ends with `reset` and a comment. -/
theorem C6_reset_last_gives_single_reset_witness :
    ValidStream (NewReader "figure 1 1\nupdate\nreset\n# done\n") ∧
    commands (NewReader "figure 1 1\nupdate\nreset\n# done\n").lines =
      [Cmd.figure 1 1, Cmd.update] ++ [Cmd.reset] ∧
    (Parser.Parse [⟨5, 5, figureColor⟩]
        ⟨some (.func .GreenFill), some ⟨1, 2, 3, 4⟩, [some 0],
          [Operation.move (some ⟨1, 1, some [some 0]⟩)], some UpdateOp⟩
        (some (NewReader "figure 1 1\nupdate\nreset\n# done\n"))).result =
      .ok [Operation.func OpFunc.ResetScreen] :=
  ⟨by decide, by decide,
    C6_reset_last_gives_single_reset [⟨5, 5, figureColor⟩]
      ⟨some (.func .GreenFill), some ⟨1, 2, 3, 4⟩, [some 0],
        [Operation.move (some ⟨1, 1, some [some 0]⟩)], some UpdateOp⟩
      (NewReader "figure 1 1\nupdate\nreset\n# done\n") [Cmd.figure 1 1, Cmd.update]
      (by decide) (by decide)⟩

/-- C7: a fresh parser turns `white`, `figure 10 10`, `update` into exactly three
operations: the white fill, a figure (the new heap object, at (10,10), in the
parser's colour `RGBA{B: 255, A: 255}`), and the update signal; applied in this
order to a texture, the first and the second report not ready and the third
reports ready. -/
theorem C7_white_figure_update (h : Heap) {σ : Type} (T : Texture σ) (s : σ) :
    (Parser.Parse h Parser.fresh (some (NewReader "white\nfigure 10 10\nupdate\n"))).result =
        .ok [Operation.func OpFunc.WhiteFill, Operation.figure (some h.length), UpdateOp] ∧
      (Parser.Parse h Parser.fresh (some (NewReader "white\nfigure 10 10\nupdate\n"))).heap =
        h ++ [⟨10, 10, ⟨0, 0, 255, 255⟩⟩] ∧
      (h ++ [(⟨10, 10, ⟨0, 0, 255, 255⟩⟩ : Figure)])[h.length]? =
        some ⟨10, 10, ⟨0, 0, 255, 255⟩⟩ ∧
      ∃ t1 t2 : Option σ,
        (Operation.func OpFunc.WhiteFill).Do T (h ++ [⟨10, 10, ⟨0, 0, 255, 255⟩⟩]) (some s) =
          .ok (h ++ [⟨10, 10, ⟨0, 0, 255, 255⟩⟩], t1, false) ∧
        (Operation.figure (some h.length)).Do T (h ++ [⟨10, 10, ⟨0, 0, 255, 255⟩⟩]) t1 =
          .ok (h ++ [⟨10, 10, ⟨0, 0, 255, 255⟩⟩], t2, false) ∧
        UpdateOp.Do T (h ++ [⟨10, 10, ⟨0, 0, 255, 255⟩⟩]) t2 =
          .ok (h ++ [⟨10, 10, ⟨0, 0, 255, 255⟩⟩], t2, true) := by
  refine ⟨rfl, rfl, by simp, some (T.Fill s (T.Bounds s) White .Src),
    (Figure.Do T (some ⟨10, 10, ⟨0, 0, 255, 255⟩⟩)
      (some (T.Fill s (T.Bounds s) White .Src))).1, rfl, ?_, rfl⟩
  simp [Operation.Do, Figure.Do]

end lang

namespace lang

open gostd painter

/-- C14, as the claim words it, fails: after `Parse` of `figure 1 1`, `move 2 3`
has returned the move and the figure, a second `Parse` on the same parser, of
an empty input, returns the figure again but not the move. -/
theorem C14_counterexample :
    (Parser.Parse [] Parser.fresh (some (NewReader "figure 1 1\nmove 2 3\n"))).result =
        .ok [Operation.func OpFunc.ResetScreen, Operation.move (some ⟨2, 3, some [some 0]⟩),
          Operation.figure (some 0)] ∧
      (Parser.Parse
          (Parser.Parse [] Parser.fresh (some (NewReader "figure 1 1\nmove 2 3\n"))).heap
          (Parser.Parse [] Parser.fresh (some (NewReader "figure 1 1\nmove 2 3\n"))).parser
          (some (NewReader ""))).result =
        .ok [Operation.func OpFunc.ResetScreen, Operation.figure (some 0)] := by
  decide

/-- C14, amended: when a parser is used for a second `Parse` after a first one
that succeeded, and the second input holds no `reset`, the figures the first
`Parse` returned are returned again, followed by the figures the second input
declares; the moves are not: the second list holds exactly the moves of the
`move` lines of the second input. -/
theorem C14_figures_persist_moves_do_not (h : Heap) (r1 r2 : Reader) (hv1 : ValidStream r1)
    (hv2 : ValidStream r2) (hr : Cmd.reset ∉ commands r2.lines) :
    ∃ ops1 ops2 : List Operation,
      (Parser.Parse h Parser.fresh (some r1)).result = .ok ops1 ∧
      (Parser.Parse (Parser.Parse h Parser.fresh (some r1)).heap
        (Parser.Parse h Parser.fresh (some r1)).parser (some r2)).result = .ok ops2 ∧
      figuresIn ops2 =
        figuresIn ops1 ++
          List.range' (Parser.Parse h Parser.fresh (some r1)).heap.length
            (declaredFigures (commands r2.lines)).length ∧
      (movesIn ops2).map (fun m => (m.X, m.Y)) = declaredMoves (commands r2.lines) := by
  obtain ⟨_, hres⟩ := Parse_valid_result h Parser.fresh r1 hv1 (Or.inl rfl)
  have hpar := Parse_valid_state h r1 hv1
  obtain ⟨ops2, h2, hfig, hmov⟩ := Parse_resetFree_again
    (Parser.Parse h Parser.fresh (some r1)).heap (Parser.Parse h Parser.fresh (some r1)).parser
    r2 hv2 hr _ _ (by rw [hpar]) (by rw [hpar]) (by rw [hpar])
  refine ⟨_, ops2, hres, h2, ?_, ?_⟩
  · rw [hfig, figuresIn_valid_result]
  · rw [hmov, movesFrom_displacements]

/-- Witness for C14: a figure and a move, then an input with one more figure and one more move. -/
theorem C14_figures_persist_moves_do_not_witness :
    (Parser.Parse
        (Parser.Parse [] Parser.fresh (some (NewReader "figure 1 1\nmove 2 3\n"))).heap
        (Parser.Parse [] Parser.fresh (some (NewReader "figure 1 1\nmove 2 3\n"))).parser
        (some (NewReader "move 4 5\nfigure 6 7\n"))).result =
      .ok [Operation.func OpFunc.ResetScreen, Operation.move (some ⟨4, 5, some [some 0]⟩),
        Operation.figure (some 0), Operation.figure (some 1)] ∧
    ∃ ops1 ops2 : List Operation,
      (Parser.Parse [] Parser.fresh (some (NewReader "figure 1 1\nmove 2 3\n"))).result =
        .ok ops1 ∧
      (Parser.Parse
        (Parser.Parse [] Parser.fresh (some (NewReader "figure 1 1\nmove 2 3\n"))).heap
        (Parser.Parse [] Parser.fresh (some (NewReader "figure 1 1\nmove 2 3\n"))).parser
        (some (NewReader "move 4 5\nfigure 6 7\n"))).result = .ok ops2 ∧
      figuresIn ops2 =
        figuresIn ops1 ++
          List.range'
            (Parser.Parse [] Parser.fresh (some (NewReader "figure 1 1\nmove 2 3\n"))).heap.length
            (declaredFigures (commands (NewReader "move 4 5\nfigure 6 7\n").lines)).length ∧
      (movesIn ops2).map (fun m => (m.X, m.Y)) =
        declaredMoves (commands (NewReader "move 4 5\nfigure 6 7\n").lines) :=
  ⟨by decide,
    C14_figures_persist_moves_do_not [] (NewReader "figure 1 1\nmove 2 3\n")
      (NewReader "move 4 5\nfigure 6 7\n") (by decide) (by decide) (by decide)⟩

/-- C15, as the claim words it, fails for an ignored line that does not fit the
scanner's buffer: `Parse` of `white` returns the white fill, and with a blank
line of 65536 spaces put in front of it `Parse` returns the scanner's error
and no operation list. -/
theorem C15_counterexample :
    rawLines (longBlank ++ '\n' :: "white\n".toList) = longBlank :: rawLines "white\n".toList ∧
    byteLen longBlank = 65536 ∧
    Ignored (dropCR longBlank) ∧
    (Parser.Parse [] Parser.fresh (some (NewReader "white\n"))).result =
      .ok [Operation.func OpFunc.WhiteFill] ∧
    (Parser.Parse [] Parser.fresh
        (some (NewReader (String.mk (longBlank ++ '\n' :: "white\n".toList))))).result =
      .error "scanner error: bufio.Scanner: token too long" := by
  refine ⟨rawLines_longBlank _, longBlank_byteLen, longBlank_ignored, by decide, ?_⟩
  rw [NewReader_longBlank]
  rfl

/-- C15, amended: blank lines and lines whose first non-space character is `#`
are ignored when they are shorter than 65536 bytes, the size of the scanner's
buffer: two inputs whose ignored lines are that short and which have the same
other lines in the same order make `Parse` return the same operation list and
leave the same heap and parser; when `Parse` fails at a line, the two errors
differ at most in the line number they name. -/
theorem C15_short_ignored_lines_do_not_matter (h : Heap) (p : Parser) (s1 s2 : String)
    (h1 : ∀ l ∈ rawLines s1.toList, Ignored (dropCR l) → byteLen l < MaxScanTokenSize)
    (h2 : ∀ l ∈ rawLines s2.toList, Ignored (dropCR l) → byteLen l < MaxScanTokenSize)
    (hsame : commandLines s1.toList = commandLines s2.toList) :
    (Parser.Parse h p (some (NewReader s1))).heap =
      (Parser.Parse h p (some (NewReader s2))).heap ∧
    (Parser.Parse h p (some (NewReader s1))).parser =
      (Parser.Parse h p (some (NewReader s2))).parser ∧
    ((Parser.Parse h p (some (NewReader s1))).result =
        (Parser.Parse h p (some (NewReader s2))).result ∨
      ∃ (k1 k2 : Nat) (msg : String),
        (Parser.Parse h p (some (NewReader s1))).result =
          .error ("line " ++ toString k1 ++ ": " ++ msg) ∧
        (Parser.Parse h p (some (NewReader s2))).result =
          .error ("line " ++ toString k2 ++ ": " ++ msg)) := by
  obtain ⟨a1, b1⟩ := scanTokens_commandLines (rawLines s1.toList) h1
  obtain ⟨a2, b2⟩ := scanTokens_commandLines (rawLines s2.toList) h2
  unfold commandLines at hsame
  rw [hsame] at a1 b1
  exact Parse_significant h p (NewReader s1) (NewReader s2) (a1.trans a2.symm) (b1.trans b2.symm)

/-- Witness for C15: a stream, and the same stream with a blank line and two comments put in. -/
theorem C15_short_ignored_lines_do_not_matter_witness :
    commandLines "white\nfigure 1 2\nupdate\n".toList =
      commandLines "# start\nwhite\n\nfigure 1 2\n   # indented\nupdate\n".toList ∧
    (Parser.Parse [] Parser.fresh (some (NewReader "white\nfigure 1 2\nupdate\n"))).result =
      .ok [Operation.func OpFunc.WhiteFill, Operation.figure (some 0), UpdateOp] ∧
    (Parser.Parse [] Parser.fresh (some (NewReader "white\nfigure 1 2\nupdate\n"))).result =
      (Parser.Parse [] Parser.fresh
        (some (NewReader "# start\nwhite\n\nfigure 1 2\n   # indented\nupdate\n"))).result :=
  ⟨by decide, by decide, by
    have hw := (C15_short_ignored_lines_do_not_matter [] Parser.fresh
      "white\nfigure 1 2\nupdate\n" "# start\nwhite\n\nfigure 1 2\n   # indented\nupdate\n"
      (by decide) (by decide) (by decide)).2.2
    rcases hw with hw | ⟨k1, k2, msg, hw, _⟩
    · exact hw
    · have hres : (Parser.Parse [] Parser.fresh
          (some (NewReader "white\nfigure 1 2\nupdate\n"))).result =
          .ok [Operation.func OpFunc.WhiteFill, Operation.figure (some 0), UpdateOp] := by
        decide
      rw [hres] at hw
      cases hw⟩

/-- C17: `reset` erases everything before it: for every parser state, `Parse`
of a valid stream `prefix`, `reset`, `suffix` returns the operation list that
`Parse` of `reset`, `suffix` returns on a fresh parser. The two lists are the
same up to the addresses of the figure objects: the first run allocates the
figures of the suffix after those of the prefix, so its addresses are those of
the second run moved up by the number of figures the prefix declares, and the
figures they point to are equal. -/
theorem C17_reset_erases_prefix (h : Heap) (p : Parser) (r1 r2 : Reader) (pre suf : List Cmd)
    (hv1 : ValidStream r1) (hv2 : ValidStream r2)
    (h1 : commands r1.lines = pre ++ Cmd.reset :: suf)
    (h2 : commands r2.lines = Cmd.reset :: suf) :
    ∃ ops1 ops2 : List Operation,
      (Parser.Parse h p (some r1)).result = .ok ops1 ∧
      (Parser.Parse h Parser.fresh (some r2)).result = .ok ops2 ∧
      ops1 = ops2.map (Operation.rebase (declaredFigures pre).length) ∧
      ∀ a : Ptr, h.length ≤ a →
        (Parser.Parse h p (some r1)).heap[a + (declaredFigures pre).length]? =
          (Parser.Parse h Parser.fresh (some r2)).heap[a]? := by
  have hm1 : Cmd.reset ∈ commands r1.lines := by rw [h1]; simp
  obtain ⟨hh1, hr1⟩ := Parse_valid_result h p r1 hv1 (Or.inr hm1)
  obtain ⟨hh2, hr2⟩ := Parse_valid_result h Parser.fresh r2 hv2 (Or.inl rfl)
  obtain ⟨hu, hs⟩ := uptoReset_prefix pre suf
  refine ⟨_, _, hr1, hr2, ?_, ?_⟩
  · rw [h1, h2, hu, hs]
    simp only [List.map_cons, List.map_append, List.map_map, rectOps_rebase, updateOps_rebase,
      declaredFigures_append, List.length_append]
    have hmv := movesFrom_rebase (declaredFigures pre).length []
      (h.length + (declaredFigures (uptoReset (Cmd.reset :: suf))).length)
      (sinceReset (Cmd.reset :: suf))
    rw [List.map_nil] at hmv
    rw [← Nat.add_assoc, Nat.add_right_comm h.length, range_rebase, hmv]
    simp only [List.map_map, Function.comp_def, Operation.rebase, Option.map_some']
  · intro a ha
    rw [hh1, hh2, h1, h2, declaredFigures_append, ← List.append_assoc,
      List.getElem?_append_right (by rw [List.length_append]; omega),
      List.getElem?_append_right ha, List.length_append]
    congr 1
    omega

/-- Witness for C17: a parser that holds a figure and a fill, given a prefix
with a figure; the figure of the suffix is the object 2 in one run and the
object 1 in the other. -/
theorem C17_reset_erases_prefix_witness :
    (Parser.Parse [⟨5, 5, figureColor⟩]
        ⟨some (.func .GreenFill), some ⟨1, 2, 3, 4⟩, [some 0], [], none⟩
        (some (NewReader "white\nfigure 1 1\nupdate\nreset\nfigure 2 2\nmove 3 3\n"))).result =
      .ok [Operation.func OpFunc.ResetScreen, Operation.move (some ⟨3, 3, some [some 2]⟩),
        Operation.figure (some 2)] ∧
    (Parser.Parse [⟨5, 5, figureColor⟩] Parser.fresh
        (some (NewReader "reset\nfigure 2 2\nmove 3 3\n"))).result =
      .ok [Operation.func OpFunc.ResetScreen, Operation.move (some ⟨3, 3, some [some 1]⟩),
        Operation.figure (some 1)] ∧
    ∃ ops1 ops2 : List Operation,
      (Parser.Parse [⟨5, 5, figureColor⟩]
        ⟨some (.func .GreenFill), some ⟨1, 2, 3, 4⟩, [some 0], [], none⟩
        (some (NewReader "white\nfigure 1 1\nupdate\nreset\nfigure 2 2\nmove 3 3\n"))).result =
        .ok ops1 ∧
      (Parser.Parse [⟨5, 5, figureColor⟩] Parser.fresh
        (some (NewReader "reset\nfigure 2 2\nmove 3 3\n"))).result = .ok ops2 ∧
      ops1 = ops2.map (Operation.rebase
        (declaredFigures [Cmd.white, Cmd.figure 1 1, Cmd.update]).length) ∧
      ∀ a : Ptr, [(⟨5, 5, figureColor⟩ : Figure)].length ≤ a →
        (Parser.Parse [⟨5, 5, figureColor⟩]
          ⟨some (.func .GreenFill), some ⟨1, 2, 3, 4⟩, [some 0], [], none⟩
          (some (NewReader
            "white\nfigure 1 1\nupdate\nreset\nfigure 2 2\nmove 3 3\n"))).heap[a +
            (declaredFigures [Cmd.white, Cmd.figure 1 1, Cmd.update]).length]? =
          (Parser.Parse [⟨5, 5, figureColor⟩] Parser.fresh
            (some (NewReader "reset\nfigure 2 2\nmove 3 3\n"))).heap[a]? :=
  ⟨by decide, by decide,
    C17_reset_erases_prefix [⟨5, 5, figureColor⟩]
      ⟨some (.func .GreenFill), some ⟨1, 2, 3, 4⟩, [some 0], [], none⟩
      (NewReader "white\nfigure 1 1\nupdate\nreset\nfigure 2 2\nmove 3 3\n")
      (NewReader "reset\nfigure 2 2\nmove 3 3\n")
      [Cmd.white, Cmd.figure 1 1, Cmd.update] [Cmd.figure 2 2, Cmd.move 3 3]
      (by decide) (by decide) (by decide) (by decide)⟩

/-- C19: background state is last-writer-wins: for a fresh parser and every
valid stream, the list holds exactly one background fill, that of the last
`white`, `green` or `reset` line (the full-surface reset if there is none), and
at most one background rectangle, and a rectangle it holds has the arguments
of the last `bgrect` line as its corners. -/
theorem C19_background_last_writer_wins (h : Heap) (r : Reader) (hv : ValidStream r) :
    ∃ ops : List Operation,
      (Parser.Parse h Parser.fresh (some r)).result = .ok ops ∧
      fillsIn ops = [(declaredFills (commands r.lines)).getLast?.getD OpFunc.ResetScreen] ∧
      (∃ fn, ops.head? = some (Operation.func fn)) ∧
      (rectsIn ops).length ≤ 1 ∧
      ∀ rect ∈ rectsIn ops, (declaredRects (commands r.lines)).getLast? = some rect := by
  obtain ⟨_, hres⟩ := Parse_valid_result h Parser.fresh r hv (Or.inl rfl)
  refine ⟨_, hres, ?_, ⟨_, rfl⟩, ?_, ?_⟩
  · rw [fillsIn_valid_result, lastFill_sinceReset]
  · rw [rectsIn_valid_result]
    cases (declaredRects (sinceReset (commands r.lines))).getLast? <;> simp
  · intro rect hrect
    rw [rectsIn_valid_result] at hrect
    apply lastRect_sinceReset
    cases hl : (declaredRects (sinceReset (commands r.lines))).getLast? with
    | none => rw [hl] at hrect; simp at hrect
    | some x =>
      rw [hl] at hrect
      simp only [Option.toList, List.mem_singleton] at hrect
      rw [hrect]

/-- Witness for C19: two fills, a `reset`, a fill, and two rectangles after it. -/
theorem C19_background_last_writer_wins_witness :
    (Parser.Parse [] Parser.fresh
        (some (NewReader "white\nbgrect 9 9 9 9\nreset\ngreen\nbgrect 1 2 3 4\nbgrect 5 6 7 8\n"))).result =
      .ok [Operation.func OpFunc.GreenFill, Operation.bgRect (some ⟨5, 6, 7, 8⟩)] ∧
    ∃ ops : List Operation,
      (Parser.Parse [] Parser.fresh
        (some (NewReader "white\nbgrect 9 9 9 9\nreset\ngreen\nbgrect 1 2 3 4\nbgrect 5 6 7 8\n"))).result =
        .ok ops ∧
      fillsIn ops = [(declaredFills (commands
        (NewReader "white\nbgrect 9 9 9 9\nreset\ngreen\nbgrect 1 2 3 4\nbgrect 5 6 7 8\n").lines)).getLast?.getD
          OpFunc.ResetScreen] ∧
      (∃ fn, ops.head? = some (Operation.func fn)) ∧
      (rectsIn ops).length ≤ 1 ∧
      ∀ rect ∈ rectsIn ops, (declaredRects (commands
        (NewReader "white\nbgrect 9 9 9 9\nreset\ngreen\nbgrect 1 2 3 4\nbgrect 5 6 7 8\n").lines)).getLast? =
          some rect :=
  ⟨by decide,
    C19_background_last_writer_wins []
      (NewReader "white\nbgrect 9 9 9 9\nreset\ngreen\nbgrect 1 2 3 4\nbgrect 5 6 7 8\n")
      (by decide)⟩

/-- C20: the update request is not carried over between `Parse` calls: for every
state the parser's code can leave the parser in and every valid input, the list
`Parse` returns ends with the update signal if and only if the input has an
`update` line after its last `reset` line, and applied as an `OperationList` to
a texture the list reports ready in exactly that case. -/
theorem C20_update_only_from_this_input {σ : Type} (T : Texture σ) (s : σ) (h : Heap)
    (p : Parser) (r : Reader) (hw : p.WellFormed) (hv : ValidStream r) :
    ∃ ops : List Operation,
      (Parser.Parse h p (some r)).result = .ok ops ∧
      (ops.getLast? = some UpdateOp ↔ Cmd.update ∈ sinceReset (commands r.lines)) ∧
      ∃ (h1 : Heap) (s1 : σ),
        OperationList.Do T (ops.map some) (Parser.Parse h p (some r)).heap (some s) =
          .ok (h1, some s1, decide (Cmd.update ∈ sinceReset (commands r.lines))) := by
  obtain ⟨front, hres, hfront⟩ := Parse_valid_shape h p r hw hv
  refine ⟨_, hres, ?_, ?_⟩
  · unfold updateOps
    by_cases hu : Cmd.update ∈ sinceReset (commands r.lines)
    · simp [hu, UpdateOp]
    · simp only [hu, if_false, List.append_nil, iff_false]
      intro hl
      exact hfront (List.mem_of_getLast?_eq_some hl)
  · obtain ⟨h1, s1, hdo⟩ := OperationList.Do_ready T
      (front ++ updateOps (sinceReset (commands r.lines))) (Parser.Parse h p (some r)).heap s
    refine ⟨h1, s1, ?_⟩
    rw [hdo]
    congr 3
    unfold updateOps
    by_cases hu : Cmd.update ∈ sinceReset (commands r.lines)
    · simp [hu, UpdateOp]
    · simp [hu, hfront]

/-- Witness for C20: a parser that a `Parse` of `update` has left with the
update request set; the next `Parse`, of `white`, returns no update signal. -/
theorem C20_update_only_from_this_input_witness :
    (Parser.Parse [] Parser.fresh (some (NewReader "update\n"))).parser.updateOp =
      some UpdateOp ∧
    (Parser.Parse [] (Parser.Parse [] Parser.fresh (some (NewReader "update\n"))).parser
        (some (NewReader "white\n"))).result = .ok [Operation.func OpFunc.WhiteFill] ∧
    ∃ ops : List Operation,
      (Parser.Parse [] (Parser.Parse [] Parser.fresh (some (NewReader "update\n"))).parser
        (some (NewReader "white\n"))).result = .ok ops ∧
      (ops.getLast? = some UpdateOp ↔
        Cmd.update ∈ sinceReset (commands (NewReader "white\n").lines)) ∧
      ∃ (h1 : Heap) (s1 : Mock),
        OperationList.Do Mock.texture (ops.map some)
          (Parser.Parse [] (Parser.Parse [] Parser.fresh (some (NewReader "update\n"))).parser
            (some (NewReader "white\n"))).heap (some ⟨⟨0, 0, 800, 800⟩, []⟩) =
          .ok (h1, some s1,
            decide (Cmd.update ∈ sinceReset (commands (NewReader "white\n").lines))) :=
  ⟨by decide, by decide,
    C20_update_only_from_this_input Mock.texture ⟨⟨0, 0, 800, 800⟩, []⟩ []
      (Parser.Parse [] Parser.fresh (some (NewReader "update\n"))).parser
      (NewReader "white\n")
      (Parse_wellFormed [] Parser.fresh (some (NewReader "update\n")) fresh_wellFormed)
      (by decide)⟩

end lang

namespace painter

/-- C9: a `BgRectangle` that lies wholly outside the surface bounds, or has zero
width or zero height, is a no-op: `Do` ends without a fault, reports not ready,
leaves the figures alone, and the one rectangle it hands to `Fill` has no point
inside the surface bounds, so no area of the surface is filled. -/
theorem C9_bgrect_outside_is_noop {σ : Type} (T : Texture σ) (s : σ) (h : Heap)
    (op : BgRectangle)
    (hout : ¬ op.normalised.Overlaps (T.Bounds s) ∨ op.X1 = op.X2 ∨ op.Y1 = op.Y2) :
    ∃ R : Rectangle,
      (Operation.bgRect (some op)).Do T h (some s) =
        .ok (h, some (T.Fill s R bgRectColor .Src), false) ∧
      ∀ x y : Int, ¬ (R.Has x y ∧ (T.Bounds s).Has x y) := by
  refine ⟨Rect (op.normalised.clip (T.Bounds s)).MinX (op.normalised.clip (T.Bounds s)).MinY
    (op.normalised.clip (T.Bounds s)).MaxX (op.normalised.clip (T.Bounds s)).MaxY, ?_, ?_⟩
  · simp only [Operation.Do, BgRectangle.Do_eq]
  · intro x y
    have hno : ¬ op.normalised.Overlaps (T.Bounds s) := by
      rcases hout with h1 | h1 | h1
      · exact h1
      · rintro ⟨a, b, ha, _⟩
        simp only [Rectangle.Has, BgRectangle.normalised, h1, min_self, max_self] at ha
        omega
      · rintro ⟨a, b, ha, _⟩
        simp only [Rectangle.Has, BgRectangle.normalised, h1, min_self, max_self] at ha
        omega
    intro hR
    apply hno
    refine ⟨x, y, ?_⟩
    have := hR
    rw [Rect_has_iff] at this
    simp only [Rectangle.Has, Rectangle.clip, BgRectangle.normalised] at this ⊢
    simp only [min_le_iff, lt_max_iff, le_max_iff, max_le_iff, lt_min_iff, le_min_iff,
      max_lt_iff, min_lt_iff] at this ⊢
    omega

/-- Witness for C9: the rectangle (900,10)-(1000,20) lies outside the bounds
(0,0)-(800,800) of a recording texture. -/
theorem C9_bgrect_outside_is_noop_witness :
    ∃ R : Rectangle,
      (Operation.bgRect (some ⟨900, 10, 1000, 20⟩)).Do Mock.texture []
          (some ⟨⟨0, 0, 800, 800⟩, []⟩) =
        .ok ([], some (Mock.texture.Fill ⟨⟨0, 0, 800, 800⟩, []⟩ R bgRectColor .Src), false) ∧
      ∀ x y : Int,
        ¬ (R.Has x y ∧ (Mock.texture.Bounds ⟨⟨0, 0, 800, 800⟩, []⟩).Has x y) :=
  C9_bgrect_outside_is_noop Mock.texture ⟨⟨0, 0, 800, 800⟩, []⟩ [] ⟨900, 10, 1000, 20⟩
    (Or.inl (by
      rw [Rectangle.overlaps_iff]
      decide))

end painter

/-! ## Claims on the effect of operations -/

namespace painter

/-- C11, as the claim words it, fails twice. `Move.Do` adds `(X, Y)` once for
each entry of the group, so a figure the group lists twice moves by
`2 * (X, Y)` in one `Do`: from `(10, 20)` the move `(3, 4)` takes it to
`(16, 28)`, not to `(13, 24)`. And the addition is that of `int`: a figure at
`X = 9223372036854775807` moved by `1` is at `X = -9223372036854775808`. -/
theorem C11_counterexample :
    Move.Do [⟨10, 20, ⟨0, 0, 255, 255⟩⟩] (some ⟨3, 4, some [some 0, some 0]⟩) =
      ([⟨16, 28, ⟨0, 0, 255, 255⟩⟩], false) ∧
    Move.Do [⟨9223372036854775807, 0, ⟨0, 0, 255, 255⟩⟩] (some ⟨1, 0, some [some 0]⟩) =
      ([⟨-9223372036854775808, 0, ⟨0, 0, 255, 255⟩⟩], false) := by
  decide

/-- C11, amended: `Move.Do` adds `(X, Y)` to the position of a figure once for
each entry of its group that points to the figure, in `int` arithmetic (the
sum wrapped to 64 bits), in place, and changes nothing else: the figures the
group does not list, the colours, the number of figures and the texture stay,
and it reports not ready. A figure listed once, when the sum is a value of
`int`, ends at its position plus `(X, Y)`. It is cumulative: done twice it
leaves each figure of the group at its first position plus twice what one `Do`
adds, for a figure listed once plus `2 * (X, Y)`. A `Move` with an empty or
nil group changes nothing. -/
theorem C11_move_adds_delta_per_entry {σ : Type} (T : Texture σ) (t : Option σ) (h : Heap)
    (X Y : Int) (group : List (Option Ptr)) :
    (Operation.move (some ⟨X, Y, some group⟩)).Do T h t =
        .ok ((Move.Do h (some ⟨X, Y, some group⟩)).1, t, false) ∧
      (Move.Do h (some ⟨X, Y, some group⟩)).1.length = h.length ∧
      (∀ (a : Ptr) (fig : Figure), some a ∈ group → h[a]? = some fig →
        (Move.Do h (some ⟨X, Y, some group⟩)).1[a]? =
          some ⟨gostd.wrapInt (fig.X + (group.count (some a) : Int) * X),
            gostd.wrapInt (fig.Y + (group.count (some a) : Int) * Y), fig.C⟩) ∧
      (∀ (a : Ptr) (fig : Figure), group.count (some a) = 1 → h[a]? = some fig →
        gostd.IsInt (fig.X + X) → gostd.IsInt (fig.Y + Y) →
        (Move.Do h (some ⟨X, Y, some group⟩)).1[a]? = some ⟨fig.X + X, fig.Y + Y, fig.C⟩) ∧
      (∀ a : Ptr, some a ∉ group → (Move.Do h (some ⟨X, Y, some group⟩)).1[a]? = h[a]?) ∧
      (∀ (a : Ptr) (fig : Figure), some a ∈ group → h[a]? = some fig →
        (Move.Do (Move.Do h (some ⟨X, Y, some group⟩)).1 (some ⟨X, Y, some group⟩)).1[a]? =
          some ⟨gostd.wrapInt (fig.X + 2 * ((group.count (some a) : Int) * X)),
            gostd.wrapInt (fig.Y + 2 * ((group.count (some a) : Int) * Y)), fig.C⟩) ∧
      (∀ (a : Ptr) (fig : Figure), group.count (some a) = 1 → h[a]? = some fig →
        gostd.IsInt (fig.X + 2 * X) → gostd.IsInt (fig.Y + 2 * Y) →
        (Move.Do (Move.Do h (some ⟨X, Y, some group⟩)).1 (some ⟨X, Y, some group⟩)).1[a]? =
          some ⟨fig.X + 2 * X, fig.Y + 2 * Y, fig.C⟩) ∧
      Move.Do h (some ⟨X, Y, some []⟩) = (h, false) ∧
      Move.Do h (some ⟨X, Y, none⟩) = (h, false) := by
  have once : ∀ (a : Ptr) (fig : Figure), some a ∈ group → h[a]? = some fig →
      (Move.Do h (some ⟨X, Y, some group⟩)).1[a]? =
        some ⟨gostd.wrapInt (fig.X + (group.count (some a) : Int) * X),
          gostd.wrapInt (fig.Y + (group.count (some a) : Int) * Y), fig.C⟩ := by
    intro a fig ha hfig
    obtain ⟨n, hn⟩ := Nat.exists_eq_succ_of_ne_zero
      (Nat.pos_iff_ne_zero.mp (List.count_pos_iff.mpr ha))
    simp only [Move.Do]
    rw [Move.foldl_shift_count, hfig, hn, Option.map_some', Figure.shifted_iterate]
  have twice : ∀ (a : Ptr) (fig : Figure), some a ∈ group → h[a]? = some fig →
      (Move.Do (Move.Do h (some ⟨X, Y, some group⟩)).1 (some ⟨X, Y, some group⟩)).1[a]? =
        some ⟨gostd.wrapInt (fig.X + 2 * ((group.count (some a) : Int) * X)),
          gostd.wrapInt (fig.Y + 2 * ((group.count (some a) : Int) * Y)), fig.C⟩ := by
    intro a fig ha hfig
    have h1 := once a fig ha hfig
    obtain ⟨n, hn⟩ := Nat.exists_eq_succ_of_ne_zero
      (Nat.pos_iff_ne_zero.mp (List.count_pos_iff.mpr ha))
    simp only [Move.Do] at h1 ⊢
    rw [Move.foldl_shift_count, h1, hn, Option.map_some', Figure.shifted_iterate]
    simp only [gostd.wrapInt_add_wrapInt, Option.some.injEq, Figure.mk.injEq, and_true]
    constructor <;> congr 1 <;> ring
  refine ⟨rfl, Move.foldl_shift_length X Y group h, once, ?_, ?_, twice, ?_, rfl, rfl⟩
  · intro a fig hc hfig hx hy
    have ha : some a ∈ group := List.count_pos_iff.mp (by omega)
    rw [once a fig ha hfig, hc]
    simp only [Nat.cast_one, one_mul, gostd.wrapInt_of_isInt hx, gostd.wrapInt_of_isInt hy]
  · intro a ha
    exact Move.foldl_shift_not_mem X Y group h a ha
  · intro a fig hc hfig hx hy
    have ha : some a ∈ group := List.count_pos_iff.mp (by omega)
    rw [twice a fig ha hfig, hc]
    simp only [Nat.cast_one, one_mul, gostd.wrapInt_of_isInt hx, gostd.wrapInt_of_isInt hy]

/-- Witness for C11: three figures and the move `(3, 4)` whose group lists the
first figure twice and the second once; the first moves by `(6, 8)` in one `Do`
and by `(12, 16)` in two, the second by `(3, 4)` and `(6, 8)`, the third stays. -/
theorem C11_move_adds_delta_per_entry_witness :
    Move.Do [⟨10, 20, ⟨0, 0, 255, 255⟩⟩, ⟨5, 5, ⟨0, 0, 255, 255⟩⟩, ⟨7, 7, ⟨0, 0, 255, 255⟩⟩]
        (some ⟨3, 4, some [some 0, some 1, some 0]⟩) =
      ([⟨16, 28, ⟨0, 0, 255, 255⟩⟩, ⟨8, 9, ⟨0, 0, 255, 255⟩⟩, ⟨7, 7, ⟨0, 0, 255, 255⟩⟩],
        false) ∧
    (Move.Do [⟨10, 20, ⟨0, 0, 255, 255⟩⟩, ⟨5, 5, ⟨0, 0, 255, 255⟩⟩, ⟨7, 7, ⟨0, 0, 255, 255⟩⟩]
        (some ⟨3, 4, some [some 0, some 1, some 0]⟩)).1[0]? =
      some ⟨gostd.wrapInt (10 + ((List.count (some 0) [some 0, some 1, some 0] : Nat) : Int) * 3),
        gostd.wrapInt (20 + ((List.count (some 0) [some 0, some 1, some 0] : Nat) : Int) * 4),
        ⟨0, 0, 255, 255⟩⟩ ∧
    (Move.Do (Move.Do
        [⟨10, 20, ⟨0, 0, 255, 255⟩⟩, ⟨5, 5, ⟨0, 0, 255, 255⟩⟩, ⟨7, 7, ⟨0, 0, 255, 255⟩⟩]
        (some ⟨3, 4, some [some 0, some 1, some 0]⟩)).1
        (some ⟨3, 4, some [some 0, some 1, some 0]⟩)).1[1]? =
      some ⟨5 + 2 * 3, 5 + 2 * 4, ⟨0, 0, 255, 255⟩⟩ :=
  ⟨by decide,
    (C11_move_adds_delta_per_entry Mock.texture none
      [⟨10, 20, ⟨0, 0, 255, 255⟩⟩, ⟨5, 5, ⟨0, 0, 255, 255⟩⟩, ⟨7, 7, ⟨0, 0, 255, 255⟩⟩] 3 4
      [some 0, some 1, some 0]).2.2.1 0 ⟨10, 20, ⟨0, 0, 255, 255⟩⟩ (by decide) (by decide),
    (C11_move_adds_delta_per_entry Mock.texture none
      [⟨10, 20, ⟨0, 0, 255, 255⟩⟩, ⟨5, 5, ⟨0, 0, 255, 255⟩⟩, ⟨7, 7, ⟨0, 0, 255, 255⟩⟩] 3 4
      [some 0, some 1, some 0]).2.2.2.2.2.2.1 1 ⟨5, 5, ⟨0, 0, 255, 255⟩⟩ (by decide) (by decide)
      (by decide) (by decide)⟩

/-- C12: fills, background rectangles and figures are idempotent on a pixel
buffer: for every surface, `WhiteFill`, `GreenFill`, `ResetScreen`, a
`BgRectangle` or a `Figure` applied a second time leaves the surface as the
first application left it. -/
theorem C12_overwrites_are_idempotent (over : Color → Color → Color) (s : Canvas) (h : Heap)
    (fn : OpFunc) (r : Option BgRectangle) (p : Option Ptr) :
    (∃ s1 : Canvas,
      (Operation.func fn).Do (Canvas.texture over) h (some s) = .ok (h, some s1, false) ∧
      (Operation.func fn).Do (Canvas.texture over) h (some s1) = .ok (h, some s1, false)) ∧
    (∃ s1 : Canvas,
      (Operation.bgRect r).Do (Canvas.texture over) h (some s) = .ok (h, some s1, false) ∧
      (Operation.bgRect r).Do (Canvas.texture over) h (some s1) = .ok (h, some s1, false)) ∧
    (∃ s1 : Canvas,
      (Operation.figure p).Do (Canvas.texture over) h (some s) = .ok (h, some s1, false) ∧
      (Operation.figure p).Do (Canvas.texture over) h (some s1) = .ok (h, some s1, false)) := by
  refine ⟨?_, ?_, ?_⟩
  · cases fn
    · refine ⟨_, rfl, ?_⟩
      simp only [Operation.Do, OperationFunc.Do, OpFunc.call, WhiteFill]
      rw [show (Canvas.texture over).Bounds
        ((Canvas.texture over).Fill s ((Canvas.texture over).Bounds s) White .Src) =
        (Canvas.texture over).Bounds s from rfl, Canvas.fill_src_twice]
    · refine ⟨_, rfl, ?_⟩
      simp only [Operation.Do, OperationFunc.Do, OpFunc.call, GreenFill]
      rw [show (Canvas.texture over).Bounds
        ((Canvas.texture over).Fill s ((Canvas.texture over).Bounds s)
          (.RGBA ⟨0, 0xff, 0, 0xff⟩) .Src) =
        (Canvas.texture over).Bounds s from rfl, Canvas.fill_src_twice]
    · refine ⟨_, rfl, ?_⟩
      simp only [Operation.Do, OperationFunc.Do, OpFunc.call, ResetScreen]
      rw [show (Canvas.texture over).Bounds
        ((Canvas.texture over).Fill s ((Canvas.texture over).Bounds s)
          (.RGBA ⟨0, 0, 0, 255⟩) .Src) =
        (Canvas.texture over).Bounds s from rfl, Canvas.fill_src_twice]
  · cases r with
    | none => exact ⟨s, rfl, rfl⟩
    | some r =>
      refine ⟨(Canvas.texture over).Fill s
          (Rect (r.normalised.clip ((Canvas.texture over).Bounds s)).MinX
            (r.normalised.clip ((Canvas.texture over).Bounds s)).MinY
            (r.normalised.clip ((Canvas.texture over).Bounds s)).MaxX
            (r.normalised.clip ((Canvas.texture over).Bounds s)).MaxY) bgRectColor .Src,
        by simp only [Operation.Do, BgRectangle.Do_eq], ?_⟩
      simp only [Operation.Do, BgRectangle.Do_eq]
      rw [show (Canvas.texture over).Bounds ((Canvas.texture over).Fill s
          (Rect (r.normalised.clip ((Canvas.texture over).Bounds s)).MinX
            (r.normalised.clip ((Canvas.texture over).Bounds s)).MinY
            (r.normalised.clip ((Canvas.texture over).Bounds s)).MaxX
            (r.normalised.clip ((Canvas.texture over).Bounds s)).MaxY) bgRectColor .Src) =
        (Canvas.texture over).Bounds s from rfl, Canvas.fill_src_twice]
  · cases hp : p.bind (fun a => h[a]?) with
    | none =>
      refine ⟨s, ?_, ?_⟩ <;> simp only [Operation.Do, hp, Figure.Do]
    | some f =>
      refine ⟨(Canvas.texture over).fillIf
          (isRectVisible (gostd.intSub f.X 62) (gostd.intSub f.Y 200) (gostd.intAdd f.X 63) f.Y
            ((Canvas.texture over).Bounds s))
          (Rect (gostd.intSub f.X 62) (gostd.intSub f.Y 200) (gostd.intAdd f.X 63) f.Y)
          f.drawColor
          ((Canvas.texture over).fillIf
            (isRectVisible (gostd.intSub f.X 200) f.Y (gostd.intAdd f.X 200)
              (gostd.intAdd f.Y 100) ((Canvas.texture over).Bounds s))
            (Rect (gostd.intSub f.X 200) f.Y (gostd.intAdd f.X 200) (gostd.intAdd f.Y 100))
            f.drawColor s),
        by simp only [Operation.Do, hp, Figure.Do_bars], ?_⟩
      simp only [Operation.Do, hp, Figure.Do_bars, Canvas.bounds_fillIf, Canvas.fill_pair_twice]

/-- C13: `OperationList.Do` applies the non-nil members of the list one after
the other in list order, each exactly once and each to the state its
predecessor left, whatever the earlier members reported; nil members are
skipped; it reports ready if and only if at least one member reported ready. -/
theorem C13_operation_list_do {σ : Type} (T : Texture σ) (ol : OperationList) (h : Heap)
    (t : Option σ) :
    OperationList.Do T ol h t =
      match runInOrder T (ol.filterMap id) h t with
      | .error e => .error e
      | .ok (h1, t1, flags) => .ok (h1, t1, decide (true ∈ flags)) := by
  unfold OperationList.Do
  rw [OperationList.DoFrom_eq]
  cases runInOrder T (List.filterMap id ol) h t with
  | error e => rfl
  | ok res =>
    obtain ⟨h1, t1, flags⟩ := res
    simp only [Bool.or_false, Except.ok.injEq, Prod.mk.injEq, true_and]
    induction flags with
    | nil => rfl
    | cons b bs ih => cases b <;> simp [ih]

end painter
